import Mathlib

/-!
# Hierarchical page-table virtual memory (`VirtualMemory.cpp`)

A shallow embedding of the address-translation engine of `VirtualMemory.cpp`
and theorems about it.  Machine state is passed explicitly: the physical
memory array, the backing store, and the sequence of `PMevict` / `PMrestore`
calls made so far.

Conventions of the embedding.

* `uint64_t` quantities (addresses, frame and page numbers) are natural
  numbers; every address the manager forms is below `RAM_SIZE` or
  `VIRTUAL_MEMORY_SIZE`, far from `2^64`, so their arithmetic is not reduced
  modulo `2^64`.
* `word_t` is a signed integer "wide enough to hold any frame index and any
  stored word", embedded as `Int`.  A cast `(uint64_t) w` of a word is `toU64`.
  The manager never stores a negative word in a page table.
* The constants of `MemoryConstants.h` and the primitives of
  `PhysicalMemory.h` are not among the sources; the constants are fields of
  `Config` or modelled from the spec, the primitives are modelled from the
  spec.  The `log` of a state records the calls of `PMevict` and `PMrestore`.
* The two recursive functions count `depth` upwards from `1` to
  `TABLES_DEPTH`.  The embedding recurses on the number of levels still to
  go, `levelsLeft = TABLES_DEPTH - depth`, so that `depth == TABLES_DEPTH`
  reads `levelsLeft = 0`.
-/

namespace VirtualMemory

/-! ## Configuration constants (`MemoryConstants.h`) -/

/-- The compile-time constants the manager is built against.  The header
that defines them is not among the sources, so they are parameters. -/
structure Config where
  OFFSET_WIDTH : Nat
  VIRTUAL_ADDRESS_WIDTH : Nat
  PHYSICAL_ADDRESS_WIDTH : Nat
  TABLES_DEPTH : Nat
deriving DecidableEq

/-- Modelled from the spec: the constant `PAGE_SIZE` of the missing header,
`PAGE_SIZE = 2^OFFSET_WIDTH`. -/
def PAGE_SIZE (cfg : Config) : Nat := 2 ^ cfg.OFFSET_WIDTH

/-- Modelled from the spec: the constant `NUM_FRAMES` of the missing header,
`NUM_FRAMES = 2^(PHYSICAL_ADDRESS_WIDTH − OFFSET_WIDTH)`. -/
def NUM_FRAMES (cfg : Config) : Nat :=
  2 ^ (cfg.PHYSICAL_ADDRESS_WIDTH - cfg.OFFSET_WIDTH)

/-- Modelled from the spec: the constant `NUM_PAGES` of the missing header,
`NUM_PAGES = 2^(VIRTUAL_ADDRESS_WIDTH − OFFSET_WIDTH)`. -/
def NUM_PAGES (cfg : Config) : Nat :=
  2 ^ (cfg.VIRTUAL_ADDRESS_WIDTH - cfg.OFFSET_WIDTH)

/-- Modelled from the spec: the constant `VIRTUAL_MEMORY_SIZE` of the missing
header, `2^VIRTUAL_ADDRESS_WIDTH`. -/
def VIRTUAL_MEMORY_SIZE (cfg : Config) : Nat := 2 ^ cfg.VIRTUAL_ADDRESS_WIDTH

/-! ## Physical memory and backing store (`PhysicalMemory.h`) -/

/-- A call made to the backing store. -/
inductive Event where
  | evict (frame page : Nat)
  | restore (frame page : Nat)
deriving DecidableEq

/-- Machine state: the physical memory array, the backing store (one slot of
words per page) and the calls made to the backing store, oldest first. -/
structure State where
  ram : Nat → Int
  swap : Nat → Nat → Int
  log : List Event

/-- Modelled from the spec: `PMread` of the missing `PhysicalMemory`, "read
one word at `frame × PAGE_SIZE + offset`". -/
def PMread (s : State) (physicalAddress : Nat) : Int := s.ram physicalAddress

/-- Modelled from the spec: `PMwrite` of the missing `PhysicalMemory`, "write
one word" at a physical address. -/
def PMwrite (s : State) (physicalAddress : Nat) (value : Int) : State :=
  { s with ram := Function.update s.ram physicalAddress value }

/-- Modelled from the spec: `PMevict` of the missing `PhysicalMemory`, "copy
the `PAGE_SIZE` words of `frame` into backing store slot for `page`". -/
def PMevict (cfg : Config) (s : State) (frameIndex evictedPageIndex : Nat) : State :=
  { s with
    swap := Function.update s.swap evictedPageIndex
      (fun o => if o < PAGE_SIZE cfg then s.ram (frameIndex * PAGE_SIZE cfg + o)
                else s.swap evictedPageIndex o)
    log := s.log ++ [Event.evict frameIndex evictedPageIndex] }

/-- Modelled from the spec: `PMrestore` of the missing `PhysicalMemory`, "copy
from backing store slot for `page` into the `PAGE_SIZE` words of `frame`". -/
def PMrestore (cfg : Config) (s : State) (frameIndex restoredPageIndex : Nat) : State :=
  { s with
    ram := fun a =>
      if frameIndex * PAGE_SIZE cfg ≤ a ∧ a < frameIndex * PAGE_SIZE cfg + PAGE_SIZE cfg
      then s.swap restoredPageIndex (a - frameIndex * PAGE_SIZE cfg)
      else s.ram a
    log := s.log ++ [Event.restore frameIndex restoredPageIndex] }

/-- The cast `(uint64_t) w` of a signed word. -/
def toU64 (w : Int) : Nat := (w % 18446744073709551616).toNat

/-! ## `VirtualMemory.cpp` -/

/-- `isAllZeros`: every one of the `PAGE_SIZE` words of the frame is `0`. -/
def isAllZeros (cfg : Config) (s : State) (frameIndex : Nat) : Bool :=
  (List.range (PAGE_SIZE cfg)).all
    (fun i => PMread s (frameIndex * PAGE_SIZE cfg + i) == 0)

/-- The five out-parameters `traverseTree` updates through pointers. -/
structure Scan where
  maxIndex : Nat
  maxDistance : Nat
  indexMaxDistance : Int
  pageMaxDist : Nat
  cyclicFrameFatherAddress : Nat
deriving DecidableEq

/-- The cyclic distance exactly as `traverseTree` computes it from
`frameToSwapIn` and `currentPage`. -/
def scanDistance (cfg : Config) (frameToSwapIn currentPage : Nat) : Nat :=
  toU64 (min (((frameToSwapIn : Int) - (currentPage : Int)).natAbs : Int)
    ((NUM_PAGES cfg : Int) - (((frameToSwapIn : Int) - (currentPage : Int)).natAbs : Int)))

/-- One iteration of the loop of `traverseTree` at `depth == TABLES_DEPTH`. -/
def leafStep (cfg : Config) (s : State) (tableAddress frameToSwapIn currentPage : Nat)
    (sc : Scan) (i : Nat) : Scan :=
  let nextTableIndex := PMread s (tableAddress + i)
  if nextTableIndex = 0 then sc
  else
    let distance := scanDistance cfg frameToSwapIn currentPage
    let sc1 : Scan :=
      if distance ≥ sc.maxDistance then
        { sc with
          maxDistance := distance
          indexMaxDistance := nextTableIndex
          pageMaxDist := (currentPage <<< cfg.OFFSET_WIDTH) + i
          cyclicFrameFatherAddress := tableAddress + i }
      else sc
    if toU64 nextTableIndex > sc1.maxIndex then
      { sc1 with maxIndex := toU64 nextTableIndex }
    else sc1

/-- The loop of `traverseTree` at `depth < TABLES_DEPTH`, over the slots still
to visit; `descend child page` is the recursive call one level down. -/
def traverseLoop (cfg : Config)
    (descend : Nat → Nat → State → Scan → Int × State × Scan)
    (tableAddress frameNotToErase currentPage : Nat) :
    List Nat → State → Scan → Int × State × Scan
  | [], s, sc => (-1, s, sc)
  | i :: rest, s, sc =>
    let nextTableIndex := PMread s (tableAddress + i)
    let sc1 : Scan :=
      if toU64 nextTableIndex > sc.maxIndex then
        { sc with maxIndex := toU64 nextTableIndex }
      else sc
    if nextTableIndex = 0 then
      traverseLoop cfg descend tableAddress frameNotToErase currentPage rest s sc1
    else if toU64 nextTableIndex ≠ frameNotToErase
        ∧ isAllZeros cfg s (toU64 nextTableIndex) = true then
      (nextTableIndex, PMwrite s (tableAddress + i) 0, sc1)
    else
      let r := descend (toU64 nextTableIndex)
        ((currentPage <<< cfg.OFFSET_WIDTH) + i) s sc1
      if r.1 = -1 then
        traverseLoop cfg descend tableAddress frameNotToErase currentPage rest r.2.1 r.2.2
      else r

/-- `traverseTree`, with `levelsLeft = TABLES_DEPTH - depth`.  Returns the
return value, the memory (one parent slot may have been cleared) and the
out-parameters. -/
def traverseTree (cfg : Config) :
    Nat → Nat → Nat → Nat → Nat → State → Scan → Int × State × Scan
  | 0, rootIndex, _, frameToSwapIn, currentPage, s, sc =>
    (-1, s, (List.range (PAGE_SIZE cfg)).foldl
      (leafStep cfg s (rootIndex * PAGE_SIZE cfg) frameToSwapIn currentPage) sc)
  | levelsLeft + 1, rootIndex, frameNotToErase, frameToSwapIn, currentPage, s, sc =>
    traverseLoop cfg
      (fun child page s1 sc1 =>
        traverseTree cfg levelsLeft child frameNotToErase frameToSwapIn page s1 sc1)
      (rootIndex * PAGE_SIZE cfg) frameNotToErase currentPage
      (List.range (PAGE_SIZE cfg)) s sc

/-- The initial values of the out-parameters in `getNextTable`. -/
def Scan.init : Scan := ⟨0, 0, 0, 0, 0⟩

/-- `getNextTable`: the frame chosen by the priority rules and the state
after the scan and, under rule 3, the eviction. -/
def getNextTable (cfg : Config) (s : State) (frameNotToErase frameToSwapIn : Nat) :
    Nat × State :=
  let r := traverseTree cfg (cfg.TABLES_DEPTH - 1) 0 frameNotToErase frameToSwapIn 0 s
    Scan.init
  if r.1 > 0 then (toU64 r.1, r.2.1)
  else if r.2.2.maxIndex + 1 < NUM_FRAMES cfg then (r.2.2.maxIndex + 1, r.2.1)
  else
    let s2 := PMevict cfg r.2.1 (toU64 r.2.2.indexMaxDistance) r.2.2.pageMaxDist
    (toU64 r.2.2.indexMaxDistance, PMwrite s2 r.2.2.cyclicFrameFatherAddress 0)

/-- `clearTable`: write `0` to each of the `PAGE_SIZE` words of the frame. -/
def clearTable (cfg : Config) (s : State) (frameIndex : Nat) : State :=
  (List.range (PAGE_SIZE cfg)).foldl
    (fun st i => PMwrite st (frameIndex * PAGE_SIZE cfg + i) 0) s

/-- `VMinitialize`. -/
def VMinitialize (cfg : Config) (s : State) : State := clearTable cfg s 0

/-- `VMreadWriteHelper`, with `levelsLeft = TABLES_DEPTH - currentDepth`.
Returns the return code, the content of `*value` afterwards and the state.
Physical addresses are computed in `Nat`, without the wrap-around of the
64-bit arithmetic of the source: they are the addresses the source computes
whenever the table words read are non-negative and small enough for
`word * PAGE_SIZE + PAGE_SIZE` to fit 63 bits, as frame indices are. -/
def VMreadWriteHelper (cfg : Config) (virtualAddress : Nat) (write : Bool) :
    Nat → Nat → Int → Nat → State → Int × Int × State
  | levelsLeft, currentVA, value, rootFrameIndex, s =>
    let offset := virtualAddress % 2 ^ cfg.OFFSET_WIDTH
    let tableAddress := rootFrameIndex * PAGE_SIZE cfg
    let rowMask := cfg.OFFSET_WIDTH + levelsLeft * cfg.OFFSET_WIDTH
    let row := currentVA >>> rowMask
    let nextTableIndex := PMread s (tableAddress + row)
    if nextTableIndex = 0 then
      let a := getNextTable cfg s rootFrameIndex (virtualAddress >>> cfg.OFFSET_WIDTH)
      let freeFrame := a.1
      let s2 := PMwrite a.2 (tableAddress + row) (freeFrame : Int)
      match levelsLeft with
      | 0 =>
        let s3 := PMrestore cfg s2 freeFrame (virtualAddress >>> cfg.OFFSET_WIDTH)
        if write then (1, value, PMwrite s3 (freeFrame * PAGE_SIZE cfg + offset) value)
        else (1, PMread s3 (freeFrame * PAGE_SIZE cfg + offset), s3)
      | n + 1 =>
        let s3 := clearTable cfg s2 freeFrame
        VMreadWriteHelper cfg virtualAddress write n (currentVA % 2 ^ rowMask) value
          freeFrame s3
    else
      match levelsLeft with
      | 0 =>
        if write then
          (1, value, PMwrite s (toU64 nextTableIndex * PAGE_SIZE cfg + offset) value)
        else (1, PMread s (toU64 nextTableIndex * PAGE_SIZE cfg + offset), s)
      | n + 1 =>
        VMreadWriteHelper cfg virtualAddress write n (currentVA % 2 ^ rowMask) value
          (toU64 nextTableIndex) s

/-- `VMread`; `value` is the content of the caller's output word before the
call, the second component of the result its content afterwards. -/
def VMread (cfg : Config) (s : State) (virtualAddress : Nat) (value : Int) :
    Int × Int × State :=
  if virtualAddress ≥ VIRTUAL_MEMORY_SIZE cfg
      ∨ cfg.OFFSET_WIDTH ≥ cfg.VIRTUAL_ADDRESS_WIDTH
      ∨ cfg.TABLES_DEPTH + 1 > NUM_FRAMES cfg then (0, value, s)
  else
    VMreadWriteHelper cfg virtualAddress false (cfg.TABLES_DEPTH - 1) virtualAddress value 0 s

/-- `VMwrite`. -/
def VMwrite (cfg : Config) (s : State) (virtualAddress : Nat) (value : Int) :
    Int × State :=
  if virtualAddress ≥ VIRTUAL_MEMORY_SIZE cfg
      ∨ cfg.OFFSET_WIDTH ≥ cfg.VIRTUAL_ADDRESS_WIDTH
      ∨ cfg.TABLES_DEPTH + 1 > NUM_FRAMES cfg then (0, s)
  else
    let r := VMreadWriteHelper cfg virtualAddress true (cfg.TABLES_DEPTH - 1) virtualAddress
      value 0 s
    (r.1, r.2.2)

/-! ## Specification vocabulary -/

/-- The frame reached from table `t` by following the slots of `path`, most
significant first; `none` when a slot on the way holds `0`. -/
def resolveFrom (cfg : Config) (s : State) : Nat → List Nat → Option Nat
  | t, [] => some t
  | t, i :: rest =>
    if s.ram (t * PAGE_SIZE cfg + i) = 0 then none
    else resolveFrom cfg s (toU64 (s.ram (t * PAGE_SIZE cfg + i))) rest

/-- The frame reached from the root table, frame `0`. -/
def resolve (cfg : Config) (s : State) (path : List Nat) : Option Nat :=
  resolveFrom cfg s 0 path

/-- Cyclic distance between two page numbers in the spec's words:
`min(|a − b|, NUM_PAGES − |a − b|)`. -/
def cyclicDistance (cfg : Config) (a b : Nat) : Nat :=
  min (max a b - min a b) (NUM_PAGES cfg - (max a b - min a b))

/-- The tiny configuration of the spec's scenarios: `OFFSET_WIDTH = 1`,
`VIRTUAL_ADDRESS_WIDTH = 5`, `PHYSICAL_ADDRESS_WIDTH = 5`, `TABLES_DEPTH = 4`. -/
def tinyConfig : Config := ⟨1, 5, 5, 4⟩

/-- A machine whose memory and backing store hold only zeros and on which no
backing-store call has been made. -/
def zeroState : State := ⟨fun _ => 0, fun _ _ => 0, []⟩

/-- The state after `VMinitialize(); VMwrite(16, 17); VMwrite(30, 31)` on the
tiny configuration: pages 8 and 15 are resident. -/
def twoPagesState : State :=
  (VMwrite tinyConfig (VMwrite tinyConfig ( VMinitialize tinyConfig zeroState) 16 17).2 30 31).2

/-- The state after `VMinitialize(); VMwrite(0, 7)` on the tiny configuration
(scenario S3). -/
def onePageState : State := (VMwrite tinyConfig ( VMinitialize tinyConfig zeroState) 0 7).2

/-- A path all of whose slot indices are below `PAGE_SIZE`. -/
def ValidPath (cfg : Config) (p : List Nat) : Prop := ∀ i ∈ p, i < PAGE_SIZE cfg

/-- The page number the scan accumulates along a path, starting from `acc`:
`currentPage = (currentPage << OFFSET_WIDTH) + i` at each level. -/
def encodeFrom (cfg : Config) : Nat → List Nat → Nat
  | acc, [] => acc
  | acc, i :: rest => encodeFrom cfg ((acc <<< cfg.OFFSET_WIDTH) + i) rest

/-- The slot indices `VMreadWriteHelper` reads from `levelsLeft` down to the
leaf level, starting from `currentVA`. -/
def rows (cfg : Config) : Nat → Nat → List Nat
  | 0, currentVA => [currentVA >>> (cfg.OFFSET_WIDTH + 0 * cfg.OFFSET_WIDTH)]
  | n + 1, currentVA =>
    (currentVA >>> (cfg.OFFSET_WIDTH + (n + 1) * cfg.OFFSET_WIDTH))
      :: rows cfg n (currentVA % 2 ^ (cfg.OFFSET_WIDTH + (n + 1) * cfg.OFFSET_WIDTH))

/-- The walk of a virtual address: its `TABLES_DEPTH` slot indices from the
root table down. -/
def pagePath (cfg : Config) (virtualAddress : Nat) : List Nat :=
  rows cfg (cfg.TABLES_DEPTH - 1) virtualAddress

/-- The word of a virtual page as the manager holds it: in its frame when the
page is resident, in the backing store otherwise.  The page is named by its
walk `p`. -/
def pageWord (cfg : Config) (s : State) (p : List Nat) (o : Nat) : Int :=
  match resolve cfg s p with
  | some f => s.ram (f * PAGE_SIZE cfg + o)
  | none => s.swap (encodeFrom cfg 0 p) o

/-- The configurations the manager is meant for: the two feasibility
conditions the guard of `VMread` / `VMwrite` tests, the table depth covers the
page number (as the header computes `TABLES_DEPTH` from the widths), and frame
indices fit the `uint64_t` the code holds them in. -/
structure Feasible (cfg : Config) : Prop where
  offset_lt : cfg.OFFSET_WIDTH < cfg.VIRTUAL_ADDRESS_WIDTH
  depth_covers : cfg.VIRTUAL_ADDRESS_WIDTH ≤ cfg.OFFSET_WIDTH * (cfg.TABLES_DEPTH + 1)
  frames_suffice : cfg.TABLES_DEPTH + 1 ≤ NUM_FRAMES cfg
  frames_fit : NUM_FRAMES cfg ≤ 18446744073709551616

/-! ### Vocabulary for the scan -/

/-- Every word of every table within `n` levels below table `t` is a
non-negative number that fits a `uint64_t`. -/
def GoodSub (cfg : Config) (s : State) (t n : Nat) : Prop :=
  ∀ q u i, ValidPath cfg q → q.length ≤ n → resolveFrom cfg s t q = some u →
    i < PAGE_SIZE cfg →
    ∃ m : Nat, m < 18446744073709551616 ∧ s.ram (u * PAGE_SIZE cfg + i) = (m : Int)

/-- The victim out-parameters of two scan records coincide. -/
def SameVictim (sc sc1 : Scan) : Prop :=
  sc1.maxDistance = sc.maxDistance ∧ sc1.indexMaxDistance = sc.indexMaxDistance
    ∧ sc1.pageMaxDist = sc.pageMaxDist
    ∧ sc1.cyclicFrameFatherAddress = sc.cyclicFrameFatherAddress

/-- The victim out-parameters describe a data page resident below table `t`
(which has `n` table levels below it and stands for page prefix `cp`): the
frame is the word of a leaf-level slot, the page is the number of the walk to
that slot, the father address is the address of that slot. -/
def VictimIn (cfg : Config) (s : State) (t cp n : Nat) (sc : Scan) : Prop :=
  ∃ q i u, ValidPath cfg q ∧ q.length = n ∧ i < PAGE_SIZE cfg
    ∧ resolveFrom cfg s t q = some u
    ∧ s.ram (u * PAGE_SIZE cfg + i) ≠ 0
    ∧ sc.indexMaxDistance = s.ram (u * PAGE_SIZE cfg + i)
    ∧ sc.pageMaxDist = encodeFrom cfg cp (q ++ [i])
    ∧ sc.cyclicFrameFatherAddress = u * PAGE_SIZE cfg + i

/-- What a scan that ran to completion over the slots `l` of table `t` has
established, from out-parameters `sc` to `sc1`. -/
structure ScanDone (cfg : Config) (s : State) (excl t cp n : Nat) (l : List Nat)
    (sc sc1 : Scan) : Prop where
  noEmpty : ∀ i q u, i ∈ l → ValidPath cfg (i :: q) → q.length < n →
    resolveFrom cfg s t (i :: q) = some u → u = excl ∨ isAllZeros cfg s u = false
  max_mono : sc.maxIndex ≤ sc1.maxIndex
  max_ge : ∀ i q u, i ∈ l → ValidPath cfg (i :: q) → q.length ≤ n →
    resolveFrom cfg s t (i :: q) = some u → u ≤ sc1.maxIndex
  max_attained : sc1.maxIndex = sc.maxIndex ∨
    ∃ i q, i ∈ l ∧ ValidPath cfg (i :: q) ∧ q.length ≤ n
      ∧ resolveFrom cfg s t (i :: q) = some sc1.maxIndex
  victim : SameVictim sc sc1 ∨ VictimIn cfg s t cp n sc1
  victim_found : sc.maxDistance = 0 →
    (∃ i q, i ∈ l ∧ ValidPath cfg (i :: q) ∧ q.length = n
      ∧ (resolveFrom cfg s t (i :: q)).isSome = true) →
    VictimIn cfg s t cp n sc1

/-- What a scan that stopped at an empty table returns: the word `r.1` of a
slot of a table less than `n` levels below `t`, naming a frame other than
`excl` whose words are all `0`; that slot is cleared in the memory returned. -/
def ScanFound (cfg : Config) (s : State) (excl t n : Nat) (r : Int × State × Scan) : Prop :=
  ∃ q u i, ValidPath cfg q ∧ q.length < n ∧ i < PAGE_SIZE cfg
    ∧ resolveFrom cfg s t q = some u
    ∧ s.ram (u * PAGE_SIZE cfg + i) = r.1 ∧ 0 < r.1 ∧ toU64 r.1 ≠ excl
    ∧ isAllZeros cfg s (toU64 r.1) = true
    ∧ r.2.1 = PMwrite s (u * PAGE_SIZE cfg + i) 0

/-- The `maxIndex` update both loops of `traverseTree` perform on a word. -/
def Scan.bump (sc : Scan) (w : Int) : Scan :=
  if toU64 w > sc.maxIndex then { sc with maxIndex := toU64 w } else sc

/-! ### Vocabulary for the page-table tree -/

/-- Frame `g` is held by a parent slot of the tree reachable from frame 0: a
non-empty walk of at most `TABLES_DEPTH` slots ends in it. -/
def Linked (cfg : Config) (s : State) (g : Nat) : Prop :=
  ∃ q, ValidPath cfg q ∧ q.length ≤ cfg.TABLES_DEPTH ∧ q ≠ [] ∧ resolve cfg s q = some g

/-- Every word of a reachable table is `0` or a frame index below
`NUM_FRAMES`. -/
def TableRange (cfg : Config) (s : State) : Prop :=
  ∀ p t i, ValidPath cfg p → p.length < cfg.TABLES_DEPTH →
    resolve cfg s p = some t → i < PAGE_SIZE cfg →
    ∃ m : Nat, m < NUM_FRAMES cfg ∧ s.ram (t * PAGE_SIZE cfg + i) = (m : Int)

/-- Two different walks from the root never end in the same frame. -/
def PathInj (cfg : Config) (s : State) : Prop :=
  ∀ p q f, ValidPath cfg p → ValidPath cfg q → p.length ≤ cfg.TABLES_DEPTH →
    q.length ≤ cfg.TABLES_DEPTH → resolve cfg s p = some f → resolve cfg s q = some f →
    p = q

/-- The invariant of the page-table tree between public calls.
`range`: every word of a reachable table is a frame index below `NUM_FRAMES`
(or `0`); `inj`: two different walks never end in the same frame; `closed`:
the frames held by parent slots are `1, ..., k` for some `k`. -/
structure TreeInv (cfg : Config) (s : State) : Prop where
  range : TableRange cfg s
  inj : PathInj cfg s
  closed : ∀ f g, Linked cfg s f → 1 ≤ g → g ≤ f → Linked cfg s g

/-- The tree between `getNextTable` returning frame `f` and the walker
installing it: as `TreeInv`, except that `f` is held by no parent slot. -/
structure TreeHole (cfg : Config) (s : State) (f : Nat) : Prop where
  range : TableRange cfg s
  inj : PathInj cfg s
  pos : 1 ≤ f
  lt : f < NUM_FRAMES cfg
  fresh : ¬ Linked cfg s f
  below : ∀ g, 1 ≤ g → g < f → Linked cfg s g
  closed : ∀ f1 g, Linked cfg s f1 → 1 ≤ g → g ≤ f1 → g = f ∨ Linked cfg s g

/-- What `getNextTable` guarantees the walker that stands at the end of walk
`cur`: `r.1` is the frame returned, `r.2` the state afterwards. -/
structure AllocSpec (cfg : Config) (s : State) (cur : List Nat) (r : Nat × State) : Prop where
  hole : TreeHole cfg r.2 r.1
  res : ∀ p, ValidPath cfg p → p.length ≤ cfg.TABLES_DEPTH →
    resolve cfg r.2 p = if resolve cfg s p = some r.1 then none else resolve cfg s p
  ram : ∀ a, r.2.ram a = s.ram a ∨ r.2.ram a = 0
  word : ∀ p o, ValidPath cfg p → p.length = cfg.TABLES_DEPTH → o < PAGE_SIZE cfg →
    pageWord cfg r.2 p o = pageWord cfg s p o
  excl : ∀ c, c <+: cur → resolve cfg s c ≠ some r.1
  log : r.2.log = s.log ∨ ∃ f p, r.2.log = s.log ++ [Event.evict f p]

/-- The shape of memory after the walker has written frame `f` into slot `row`
of table `t` and then filled frame `f` (by `clearTable` or `PMrestore`). -/
structure Installed (cfg : Config) (s1 s3 : State) (cur : List Nat) (t row f : Nat) : Prop where
  curValid : ValidPath cfg cur
  curLen : cur.length < cfg.TABLES_DEPTH
  curRes : resolve cfg s1 cur = some t
  rowLt : row < PAGE_SIZE cfg
  slotZero : s1.ram (t * PAGE_SIZE cfg + row) = 0
  outside : ∀ a, ¬ (f * PAGE_SIZE cfg ≤ a ∧ a < f * PAGE_SIZE cfg + PAGE_SIZE cfg) →
    s3.ram a = if a = t * PAGE_SIZE cfg + row then (f : Int) else s1.ram a
  cleared : cur.length + 1 < cfg.TABLES_DEPTH →
    ∀ j, j < PAGE_SIZE cfg → s3.ram (f * PAGE_SIZE cfg + j) = 0

/-- What a walk for the page with walk `pp` and in-page offset `off`
guarantees, from state `s` to the result `r` of `VMreadWriteHelper`: the
invariant holds, the page is resident, a write changed the word addressed and
no other word of any page, a read changed no word and yields the word
addressed. -/
structure WalkSpec (cfg : Config) (s : State) (pp : List Nat) (off : Nat) (write : Bool)
    (v : Int) (r : Int × Int × State) : Prop where
  inv : TreeInv cfg r.2.2
  resident : ∃ f, resolve cfg r.2.2 pp = some f
  word : ∀ p o, ValidPath cfg p → p.length = cfg.TABLES_DEPTH → o < PAGE_SIZE cfg →
    pageWord cfg r.2.2 p o
      = if write = true ∧ p = pp ∧ o = off then v else pageWord cfg s p o
  value : r.2.1 = if write = true then v else pageWord cfg s pp off

/-! ### Reachable states and sequences of calls -/

/-- The states reachable from `VMinitialize` (on any machine state) by any
sequence of `VMread` / `VMwrite` calls. -/
inductive Reachable (cfg : Config) : State → Prop
  | init (s0 : State) : Reachable cfg ( VMinitialize cfg s0)
  | read {s : State} (A : Nat) (value : Int) :
      Reachable cfg s → Reachable cfg (VMread cfg s A value).2.2
  | write {s : State} (A : Nat) (value : Int) :
      Reachable cfg s → Reachable cfg (VMwrite cfg s A value).2

/-- A call of the public interface. -/
inductive Op where
  | read (A : Nat)
  | write (A : Nat) (value : Int)
deriving DecidableEq

/-- The state after one call. -/
def applyOp (cfg : Config) (s : State) : Op → State
  | Op.read A => (VMread cfg s A 0).2.2
  | Op.write A value => (VMwrite cfg s A value).2

/-- The state after a sequence of calls, first call first. -/
def runOps (cfg : Config) (s : State) (ops : List Op) : State :=
  ops.foldl (applyOp cfg) s

/-- The call is a write to address `A`. -/
def Op.writesTo : Op → Nat → Bool
  | Op.read _, _ => false
  | Op.write B _, A => decide (B = A)

/-- The word the manager holds for virtual address `A`: in the frame of its
page when the page is resident, in the backing store otherwise. -/
def vmWord (cfg : Config) (s : State) (A : Nat) : Int :=
  pageWord cfg s (pagePath cfg A) (A % 2 ^ cfg.OFFSET_WIDTH)

/-- The values read back by `VMread` of each address of the list in turn,
and the state afterwards. -/
def readAll (cfg : Config) (s : State) : List Nat → List Int × State
  | [] => ([], s)
  | A :: rest =>
    ((VMread cfg s A 0).2.1 :: (readAll cfg (VMread cfg s A 0).2.2 rest).1,
      (readAll cfg (VMread cfg s A 0).2.2 rest).2)

/-- The calls `write(A, A + 1)` for each address `A` of the list. -/
def writeSuccessors (addresses : List Nat) : List Op :=
  addresses.map (fun A => Op.write A ((A : Int) + 1))

/-- The calls of `VMreadWriteHelper` that one public call for address `A`,
started in state `s0`, makes.  `WalkerAt cfg A s0 frames n va t s`: the walk
has descended through the tables `frames` (frame 0 first, the current table
`t` last) and `VMreadWriteHelper` is called with `levelsLeft = n`,
`currentVA = va`, `rootFrameIndex = t` in state `s`.  `hit` and `miss` are the
two branches of an interior level. -/
inductive WalkerAt (cfg : Config) (A : Nat) (s0 : State) :
    List Nat → Nat → Nat → Nat → State → Prop
  | start : WalkerAt cfg A s0 [0] (cfg.TABLES_DEPTH - 1) A 0 s0
  | hit {frames : List Nat} {n va t : Nat} {s : State} :
      WalkerAt cfg A s0 frames (n + 1) va t s →
      s.ram (t * PAGE_SIZE cfg + va >>> (cfg.OFFSET_WIDTH + (n + 1) * cfg.OFFSET_WIDTH)) ≠ 0 →
      WalkerAt cfg A s0
        (frames ++ [toU64 (s.ram (t * PAGE_SIZE cfg
          + va >>> (cfg.OFFSET_WIDTH + (n + 1) * cfg.OFFSET_WIDTH)))])
        n (va % 2 ^ (cfg.OFFSET_WIDTH + (n + 1) * cfg.OFFSET_WIDTH))
        (toU64 (s.ram (t * PAGE_SIZE cfg
          + va >>> (cfg.OFFSET_WIDTH + (n + 1) * cfg.OFFSET_WIDTH)))) s
  | miss {frames : List Nat} {n va t : Nat} {s : State} :
      WalkerAt cfg A s0 frames (n + 1) va t s →
      s.ram (t * PAGE_SIZE cfg + va >>> (cfg.OFFSET_WIDTH + (n + 1) * cfg.OFFSET_WIDTH)) = 0 →
      WalkerAt cfg A s0
        (frames ++ [(getNextTable cfg s t (A >>> cfg.OFFSET_WIDTH)).1])
        n (va % 2 ^ (cfg.OFFSET_WIDTH + (n + 1) * cfg.OFFSET_WIDTH))
        (getNextTable cfg s t (A >>> cfg.OFFSET_WIDTH)).1
        (clearTable cfg
          (PMwrite (getNextTable cfg s t (A >>> cfg.OFFSET_WIDTH)).2
            (t * PAGE_SIZE cfg + va >>> (cfg.OFFSET_WIDTH + (n + 1) * cfg.OFFSET_WIDTH))
            ((getNextTable cfg s t (A >>> cfg.OFFSET_WIDTH)).1 : Int))
          (getNextTable cfg s t (A >>> cfg.OFFSET_WIDTH)).1)

/-- What a walk that found the page absent has done by the time it returns
state `s1` and data word `word`, having started from state `s` within a public
call started in `s0`: it reached the leaf level at a zero slot, the allocator
returned `f` there, the backing-store calls made since `s` are evictions
followed by the one call `PMrestore(f, A >> OFFSET_WIDTH)`, the page is now
resident in `f`, and the data word is the word at
`f * PAGE_SIZE + A mod PAGE_SIZE`. -/
def PagedIn (cfg : Config) (A : Nat) (s0 s s1 : State) (word : Int) : Prop :=
  ∃ evs f frames va t sl,
    WalkerAt cfg A s0 frames 0 va t sl
    ∧ sl.ram (t * PAGE_SIZE cfg + va >>> (cfg.OFFSET_WIDTH + 0 * cfg.OFFSET_WIDTH)) = 0
    ∧ f = (getNextTable cfg sl t (A >>> cfg.OFFSET_WIDTH)).1
    ∧ s1.log = s.log ++ evs ++ [Event.restore f (A >>> cfg.OFFSET_WIDTH)]
    ∧ (∀ e ∈ evs, ∃ g q, e = Event.evict g q)
    ∧ resolve cfg s1 (pagePath cfg A) = some f
    ∧ s1.ram (f * PAGE_SIZE cfg + A % 2 ^ cfg.OFFSET_WIDTH) = word

/-- The state after `VMinitialize()` and `VMwrite(2 * k, 1)` for `k = 0..10`
on the tiny configuration: all 16 frames are in use and pages 4 to 10 are
resident. -/
def elevenPagesState : State :=
  runOps tinyConfig ( VMinitialize tinyConfig zeroState)
    ((List.range 11).map (fun k => Op.write (2 * k) 1))

/-- The state after `VMinitialize()` and `VMwrite(A, 1)` for `A = 0, 16, 8,
24, 4` on the tiny configuration: the last call evicted page 12 and left the
table that held it (frame 13, at walk `[1, 1, 0]`) empty. -/
def emptyTableState : State :=
  runOps tinyConfig ( VMinitialize tinyConfig zeroState)
    [Op.write 0 1, Op.write 16 1, Op.write 8 1, Op.write 24 1, Op.write 4 1]

/-- The state after `VMinitialize()` and `VMwrite(A, 1)` for `A = 24, 28, 8,
4` on the tiny configuration: pages 12, 14, 4 and 2 are resident, in frames 4,
6, 10 and 13, and frames 14 and 15 are unused. -/
def tiePagesState : State :=
  runOps tinyConfig ( VMinitialize tinyConfig zeroState)
    [Op.write 24 1, Op.write 28 1, Op.write 8 1, Op.write 4 1]

/-! ### The recursions with the depth counter of the source

`traverseTree` and `VMreadWriteHelper` above recurse on
`TABLES_DEPTH - depth`.  The versions below carry `depth` itself, as the
source does, compare it with `TABLES_DEPTH`, and take a bound `fuel` on the
number of nested calls: they return `none` when a call would nest deeper. -/

/-- The loop of `traverseTree` at `depth != TABLES_DEPTH` when the recursive
call `descend` is bounded. -/
def traverseLoopFuel (cfg : Config)
    (descend : Nat → Nat → State → Scan → Option (Int × State × Scan))
    (tableAddress frameNotToErase currentPage : Nat) :
    List Nat → State → Scan → Option (Int × State × Scan)
  | [], s, sc => some (-1, s, sc)
  | i :: rest, s, sc =>
    let nextTableIndex := PMread s (tableAddress + i)
    let sc1 : Scan :=
      if toU64 nextTableIndex > sc.maxIndex then
        { sc with maxIndex := toU64 nextTableIndex }
      else sc
    if nextTableIndex = 0 then
      traverseLoopFuel cfg descend tableAddress frameNotToErase currentPage rest s sc1
    else if toU64 nextTableIndex ≠ frameNotToErase
        ∧ isAllZeros cfg s (toU64 nextTableIndex) = true then
      some (nextTableIndex, PMwrite s (tableAddress + i) 0, sc1)
    else
      match descend (toU64 nextTableIndex) ((currentPage <<< cfg.OFFSET_WIDTH) + i) s sc1 with
      | none => none
      | some r =>
        if r.1 = -1 then
          traverseLoopFuel cfg descend tableAddress frameNotToErase currentPage rest
            r.2.1 r.2.2
        else some r

/-- `traverseTree` with its parameter `depth`; at most `fuel` calls nest. -/
def traverseTreeFuel (cfg : Config) :
    Nat → Nat → Nat → Nat → Nat → Nat → State → Scan → Option (Int × State × Scan)
  | 0, _, _, _, _, _, _, _ => none
  | fuel + 1, rootIndex, depth, frameNotToErase, frameToSwapIn, currentPage, s, sc =>
    if depth = cfg.TABLES_DEPTH then
      some (-1, s, (List.range (PAGE_SIZE cfg)).foldl
        (leafStep cfg s (rootIndex * PAGE_SIZE cfg) frameToSwapIn currentPage) sc)
    else
      traverseLoopFuel cfg
        (fun child page s1 sc1 =>
          traverseTreeFuel cfg fuel child (depth + 1) frameNotToErase frameToSwapIn page s1 sc1)
        (rootIndex * PAGE_SIZE cfg) frameNotToErase currentPage
        (List.range (PAGE_SIZE cfg)) s sc

/-- `getNextTable` over `traverseTreeFuel`, started at `depth = 1` as in the
source. -/
def getNextTableFuel (cfg : Config) (scanFuel : Nat) (s : State)
    (frameNotToErase frameToSwapIn : Nat) : Option (Nat × State) :=
  match traverseTreeFuel cfg scanFuel 0 1 frameNotToErase frameToSwapIn 0 s Scan.init with
  | none => none
  | some r =>
    if r.1 > 0 then some (toU64 r.1, r.2.1)
    else if r.2.2.maxIndex + 1 < NUM_FRAMES cfg then some (r.2.2.maxIndex + 1, r.2.1)
    else
      let s2 := PMevict cfg r.2.1 (toU64 r.2.2.indexMaxDistance) r.2.2.pageMaxDist
      some (toU64 r.2.2.indexMaxDistance, PMwrite s2 r.2.2.cyclicFrameFatherAddress 0)

/-- The work one public call has done: the page-table words the walker has
read, its calls of `getNextTable` and its calls of `PMrestore`. -/
structure Work where
  lookups : Nat
  allocs : Nat
  restores : Nat
deriving DecidableEq

/-- `VMreadWriteHelper` with its parameter `currentDepth`; at most `fuel`
calls nest, each scan nests at most `scanFuel` calls, and the work done is
added to `w`.  (`TABLES_DEPTH - currentDepth` is never negative here:
`currentDepth` only grows while it differs from `TABLES_DEPTH`.) -/
def VMreadWriteHelperFuel (cfg : Config) (scanFuel : Nat) (virtualAddress : Nat)
    (write : Bool) :
    Nat → Nat → Nat → Int → Nat → State → Work → Option (Int × Int × State × Work)
  | 0, _, _, _, _, _, _ => none
  | fuel + 1, currentDepth, currentVA, value, rootFrameIndex, s, w =>
    let offset := virtualAddress % 2 ^ cfg.OFFSET_WIDTH
    let tableAddress := rootFrameIndex * PAGE_SIZE cfg
    let rowMask := cfg.OFFSET_WIDTH + (cfg.TABLES_DEPTH - currentDepth) * cfg.OFFSET_WIDTH
    let row := currentVA >>> rowMask
    let nextTableIndex := PMread s (tableAddress + row)
    let w1 : Work := { w with lookups := w.lookups + 1 }
    if nextTableIndex = 0 then
      match getNextTableFuel cfg scanFuel s rootFrameIndex
          (virtualAddress >>> cfg.OFFSET_WIDTH) with
      | none => none
      | some a =>
        let freeFrame := a.1
        let w2 : Work := { w1 with allocs := w1.allocs + 1 }
        let s2 := PMwrite a.2 (tableAddress + row) (freeFrame : Int)
        if currentDepth = cfg.TABLES_DEPTH then
          let s3 := PMrestore cfg s2 freeFrame (virtualAddress >>> cfg.OFFSET_WIDTH)
          let w3 : Work := { w2 with restores := w2.restores + 1 }
          if write then
            some (1, value, PMwrite s3 (freeFrame * PAGE_SIZE cfg + offset) value, w3)
          else some (1, PMread s3 (freeFrame * PAGE_SIZE cfg + offset), s3, w3)
        else
          let s3 := clearTable cfg s2 freeFrame
          VMreadWriteHelperFuel cfg scanFuel virtualAddress write fuel (currentDepth + 1)
            (currentVA % 2 ^ rowMask) value freeFrame s3 w2
    else
      if currentDepth = cfg.TABLES_DEPTH then
        if write then
          some (1, value,
            PMwrite s (toU64 nextTableIndex * PAGE_SIZE cfg + offset) value, w1)
        else some (1, PMread s (toU64 nextTableIndex * PAGE_SIZE cfg + offset), s, w1)
      else
        VMreadWriteHelperFuel cfg scanFuel virtualAddress write fuel (currentDepth + 1)
          (currentVA % 2 ^ rowMask) value (toU64 nextTableIndex) s w1

/-- `VMread` over `VMreadWriteHelperFuel`, started at `currentDepth = 1` with
no work done; a rejected call does no work. -/
def VMreadFuel (cfg : Config) (fuel scanFuel : Nat) (s : State) (virtualAddress : Nat)
    (value : Int) : Option (Int × Int × State × Work) :=
  if virtualAddress ≥ VIRTUAL_MEMORY_SIZE cfg
      ∨ cfg.OFFSET_WIDTH ≥ cfg.VIRTUAL_ADDRESS_WIDTH
      ∨ cfg.TABLES_DEPTH + 1 > NUM_FRAMES cfg then some (0, value, s, ⟨0, 0, 0⟩)
  else
    VMreadWriteHelperFuel cfg scanFuel virtualAddress false fuel 1 virtualAddress value 0 s
      ⟨0, 0, 0⟩

/-- `VMwrite` over `VMreadWriteHelperFuel`. -/
def VMwriteFuel (cfg : Config) (fuel scanFuel : Nat) (s : State) (virtualAddress : Nat)
    (value : Int) : Option (Int × State × Work) :=
  if virtualAddress ≥ VIRTUAL_MEMORY_SIZE cfg
      ∨ cfg.OFFSET_WIDTH ≥ cfg.VIRTUAL_ADDRESS_WIDTH
      ∨ cfg.TABLES_DEPTH + 1 > NUM_FRAMES cfg then some (0, s, ⟨0, 0, 0⟩)
  else
    match VMreadWriteHelperFuel cfg scanFuel virtualAddress true fuel 1 virtualAddress value
        0 s ⟨0, 0, 0⟩ with
    | none => none
    | some r => some (r.1, r.2.2.1, r.2.2.2)

/-- The words a walk reads: the content of each slot of `path` followed from
table `t`, up to and including the first slot that holds `0`. -/
def walkWords (cfg : Config) (s : State) : Nat → List Nat → List Int
  | _, [] => []
  | t, i :: rest =>
    s.ram (t * PAGE_SIZE cfg + i) ::
      (if s.ram (t * PAGE_SIZE cfg + i) = 0 then []
       else walkWords cfg s (toU64 (s.ram (t * PAGE_SIZE cfg + i))) rest)

/-! ### Vocabulary for the priority rules -/

/-- The order in which the depth-first, ascending-slot scan meets the walks
of the tree: a walk is met before its extensions, and before every walk that
leaves it through a higher slot. -/
def dfsBefore : List Nat → List Nat → Bool
  | [], [] => false
  | [], _ :: _ => true
  | _ :: _, [] => false
  | i :: p, j :: q => decide (i < j) || (decide (i = j) && dfsBefore p q)

/-- The walk `c` from table `t` ends in a page-table frame that rule 1 may
reclaim: it is at most `n` levels below `t` (so not a data frame), is not
`excl`, and all its words are `0`. -/
def EmptyTableAt (cfg : Config) (s : State) (excl t n : Nat) (c : List Nat) : Prop :=
  ValidPath cfg c ∧ c ≠ [] ∧ c.length ≤ n
    ∧ ∃ v, resolveFrom cfg s t c = some v ∧ v ≠ excl ∧ isAllZeros cfg s v = true

/-- What a scan that stopped at an empty table returns, with the walk
`q ++ [i]` to that table being the first, in the order of the scan, among the
walks to reclaimable tables whose first slot is in `l`. -/
def ScanFirst (cfg : Config) (s : State) (excl t n : Nat) (l : List Nat)
    (r : Int × State × Scan) : Prop :=
  ∃ q u i, ValidPath cfg q ∧ q.length < n ∧ i < PAGE_SIZE cfg
    ∧ resolveFrom cfg s t q = some u
    ∧ s.ram (u * PAGE_SIZE cfg + i) = r.1 ∧ 0 < r.1 ∧ toU64 r.1 ≠ excl
    ∧ isAllZeros cfg s (toU64 r.1) = true
    ∧ r.2.1 = PMwrite s (u * PAGE_SIZE cfg + i) 0
    ∧ ∀ j c, j ∈ l → EmptyTableAt cfg s excl t n (j :: c) →
        j :: c = q ++ [i] ∨ dfsBefore (q ++ [i]) (j :: c) = true

/-! ## Elementary facts about the primitives -/

theorem PMwrite_ram (s : State) (a : Nat) (v : Int) (b : Nat) :
    (PMwrite s a v).ram b = if b = a then v else s.ram b := by
  simp [PMwrite, Function.update_apply]

theorem PMwrite_swap (s : State) (a : Nat) (v : Int) : (PMwrite s a v).swap = s.swap := rfl

theorem PMwrite_log (s : State) (a : Nat) (v : Int) : (PMwrite s a v).log = s.log := rfl

theorem foldl_PMwrite_ram (b : Nat) (l : List Nat) (s : State) (a : Nat) :
    (l.foldl (fun st i => PMwrite st (b + i) 0) s).ram a
      = if ∃ i ∈ l, a = b + i then 0 else s.ram a := by
  induction l generalizing s with
  | nil => simp
  | cons i l ih =>
    rw [List.foldl_cons, ih, PMwrite_ram]
    by_cases h1 : ∃ j ∈ l, a = b + j
    · have : ∃ j ∈ i :: l, a = b + j := by
        obtain ⟨j, hj, e⟩ := h1
        exact ⟨j, List.mem_cons_of_mem _ hj, e⟩
      simp [h1, this]
    · by_cases h2 : a = b + i
      · have : ∃ j ∈ i :: l, a = b + j := ⟨i, List.mem_cons_self _ _, h2⟩
        simp [h1, h2, this]
      · have : ¬ ∃ j ∈ i :: l, a = b + j := by
          rintro ⟨j, hj, e⟩
          rcases List.mem_cons.1 hj with rfl | hj
          · exact h2 e
          · exact h1 ⟨j, hj, e⟩
        simp [h1, h2, this]

theorem foldl_PMwrite_swap (b : Nat) (l : List Nat) (s : State) :
    (l.foldl (fun st i => PMwrite st (b + i) 0) s).swap = s.swap := by
  induction l generalizing s with
  | nil => rfl
  | cons i l ih => rw [List.foldl_cons, ih, PMwrite_swap]

theorem foldl_PMwrite_log (b : Nat) (l : List Nat) (s : State) :
    (l.foldl (fun st i => PMwrite st (b + i) 0) s).log = s.log := by
  induction l generalizing s with
  | nil => rfl
  | cons i l ih => rw [List.foldl_cons, ih, PMwrite_log]

theorem clearTable_ram (cfg : Config) (s : State) (f a : Nat) :
    (clearTable cfg s f).ram a
      = if f * PAGE_SIZE cfg ≤ a ∧ a < f * PAGE_SIZE cfg + PAGE_SIZE cfg then 0
        else s.ram a := by
  unfold clearTable
  rw [foldl_PMwrite_ram]
  have : (∃ i ∈ List.range (PAGE_SIZE cfg), a = f * PAGE_SIZE cfg + i)
      ↔ (f * PAGE_SIZE cfg ≤ a ∧ a < f * PAGE_SIZE cfg + PAGE_SIZE cfg) := by
    constructor
    · rintro ⟨i, hi, rfl⟩
      have := List.mem_range.1 hi
      omega
    · rintro ⟨h1, h2⟩
      exact ⟨a - f * PAGE_SIZE cfg, List.mem_range.2 (by omega), by omega⟩
  simp only [this]

theorem clearTable_swap (cfg : Config) (s : State) (f : Nat) :
    (clearTable cfg s f).swap = s.swap := foldl_PMwrite_swap _ _ _

theorem clearTable_log (cfg : Config) (s : State) (f : Nat) :
    (clearTable cfg s f).log = s.log := foldl_PMwrite_log _ _ _

theorem VMreadWriteHelper_ret (cfg : Config) (A : Nat) (w : Bool) (n va : Nat) (v : Int)
    (t : Nat) (s : State) : (VMreadWriteHelper cfg A w n va v t s).1 = 1 := by
  induction n generalizing va t s with
  | zero =>
    unfold VMreadWriteHelper
    dsimp only
    split_ifs <;> rfl
  | succ n ih =>
    unfold VMreadWriteHelper
    dsimp only
    split_ifs <;> exact ih _ _ _

/-! ## The public interface: return codes and rejection -/

/-- C3: on a configuration with at least one table level, `VMread` and
`VMwrite` return 0 exactly when the address is at or beyond
`2^VIRTUAL_ADDRESS_WIDTH`, or `OFFSET_WIDTH ≥ VIRTUAL_ADDRESS_WIDTH`, or
`TABLES_DEPTH + 1 > NUM_FRAMES`; in every other case they return 1. -/
theorem C3_return_code (cfg : Config) (s : State) (A : Nat) (v : Int)
    (_hdepth : 0 < cfg.TABLES_DEPTH) :
    ((VMread cfg s A v).1 = 0 ↔
        (A ≥ 2 ^ cfg.VIRTUAL_ADDRESS_WIDTH ∨ cfg.OFFSET_WIDTH ≥ cfg.VIRTUAL_ADDRESS_WIDTH
          ∨ cfg.TABLES_DEPTH + 1 > NUM_FRAMES cfg))
    ∧ ((VMread cfg s A v).1 = 0 ∨ (VMread cfg s A v).1 = 1)
    ∧ ((VMwrite cfg s A v).1 = 0 ↔
        (A ≥ 2 ^ cfg.VIRTUAL_ADDRESS_WIDTH ∨ cfg.OFFSET_WIDTH ≥ cfg.VIRTUAL_ADDRESS_WIDTH
          ∨ cfg.TABLES_DEPTH + 1 > NUM_FRAMES cfg))
    ∧ ((VMwrite cfg s A v).1 = 0 ∨ (VMwrite cfg s A v).1 = 1) := by
  have hr : (VMread cfg s A v).1
      = if (A ≥ 2 ^ cfg.VIRTUAL_ADDRESS_WIDTH ∨ cfg.OFFSET_WIDTH ≥ cfg.VIRTUAL_ADDRESS_WIDTH
          ∨ cfg.TABLES_DEPTH + 1 > NUM_FRAMES cfg) then 0 else 1 := by
    unfold VMread VIRTUAL_MEMORY_SIZE
    split_ifs
    · rfl
    · exact VMreadWriteHelper_ret _ _ _ _ _ _ _ _
  have hw : (VMwrite cfg s A v).1
      = if (A ≥ 2 ^ cfg.VIRTUAL_ADDRESS_WIDTH ∨ cfg.OFFSET_WIDTH ≥ cfg.VIRTUAL_ADDRESS_WIDTH
          ∨ cfg.TABLES_DEPTH + 1 > NUM_FRAMES cfg) then 0 else 1 := by
    unfold VMwrite VIRTUAL_MEMORY_SIZE
    split_ifs
    · rfl
    · exact VMreadWriteHelper_ret _ _ _ _ _ _ _ _
  rw [hr, hw]
  by_cases h : A ≥ 2 ^ cfg.VIRTUAL_ADDRESS_WIDTH ∨ cfg.OFFSET_WIDTH ≥ cfg.VIRTUAL_ADDRESS_WIDTH
      ∨ cfg.TABLES_DEPTH + 1 > NUM_FRAMES cfg
  · rw [if_pos h]
    exact ⟨⟨fun _ => h, fun _ => rfl⟩, Or.inl rfl, ⟨fun _ => h, fun _ => rfl⟩, Or.inl rfl⟩
  · rw [if_neg h]
    exact ⟨⟨fun h0 => absurd h0 (by decide), fun h0 => absurd h0 h⟩, Or.inr rfl,
      ⟨fun h0 => absurd h0 (by decide), fun h0 => absurd h0 h⟩, Or.inr rfl⟩

/-- Witness for C3 on the tiny configuration: address 13 is accepted, address
32 is rejected. -/
theorem C3_return_code_witness :
    (VMread tinyConfig zeroState 13 0).1 = 1 ∧ (VMwrite tinyConfig zeroState 32 0).1 = 0 := by
  have h1 := C3_return_code tinyConfig zeroState 13 0 (by decide)
  have h2 := C3_return_code tinyConfig zeroState 32 0 (by decide)
  refine ⟨?_, h2.2.2.1.2 (Or.inl (by decide))⟩
  rcases h1.2.1 with h | h
  · exact absurd (h1.1.1 h) (by decide)
  · exact h

/-- C4: when `VMread` or `VMwrite` returns 0, the physical memory, the backing
store and the sequence of `PMevict` / `PMrestore` calls are exactly as before
the call, and `VMread` leaves the output word as it was. -/
theorem C4_rejection_atomic (cfg : Config) (s : State) (A : Nat) (v : Int) :
    ((VMread cfg s A v).1 = 0 → (VMread cfg s A v).2.2 = s ∧ (VMread cfg s A v).2.1 = v)
    ∧ ((VMwrite cfg s A v).1 = 0 → (VMwrite cfg s A v).2 = s) := by
  unfold VMread VMwrite
  by_cases h : A ≥ VIRTUAL_MEMORY_SIZE cfg ∨ cfg.OFFSET_WIDTH ≥ cfg.VIRTUAL_ADDRESS_WIDTH
      ∨ cfg.TABLES_DEPTH + 1 > NUM_FRAMES cfg
  · simp only [if_pos h, and_self, implies_true]
  · simp only [if_neg h, VMreadWriteHelper_ret]
    exact ⟨fun h0 => absurd h0 (by decide), fun h0 => absurd h0 (by decide)⟩

/-- Witness for C4, scenario S3: after `VMinitialize(); VMwrite(0, 7)` a read
of address `VIRTUAL_MEMORY_SIZE = 32` returns 0 and changes nothing. -/
theorem C4_rejection_atomic_witness :
    (VMread tinyConfig onePageState 32 5).1 = 0
    ∧ (VMread tinyConfig onePageState 32 5).2.2 = onePageState
    ∧ (VMread tinyConfig onePageState 32 5).2.1 = 5 :=
  ⟨by decide, (C4_rejection_atomic tinyConfig onePageState 32 5).1 (by decide)⟩

/-- C9: `VMinitialize` sets the `PAGE_SIZE` words of frame 0 to 0 and leaves
every other word of physical memory, the backing store and the record of
backing-store calls unchanged. -/
theorem C9_initialize_clears_frame_zero (cfg : Config) (s : State) :
    (∀ a, a < PAGE_SIZE cfg → ( VMinitialize cfg s).ram a = 0)
    ∧ (∀ a, PAGE_SIZE cfg ≤ a → ( VMinitialize cfg s).ram a = s.ram a)
    ∧ ( VMinitialize cfg s).swap = s.swap
    ∧ ( VMinitialize cfg s).log = s.log := by
  unfold VMinitialize
  refine ⟨fun a ha => ?_, fun a ha => ?_, clearTable_swap _ _ _, clearTable_log _ _ _⟩
  · rw [clearTable_ram, if_pos]
    omega
  · rw [clearTable_ram, if_neg]
    omega

set_option maxRecDepth 1000000 in
/-- C10, evaluated at a failing input: in the state reached by
`VMinitialize(); VMwrite(2 * k, 1)` for `k = 0..10` (pages 4 to 10 resident,
page 4 in frame 11, page 7 in frame 15, no frame unused) the scan for target
page 11 completes (returns -1) and reports page 7 in frame 15 as victim, and
`VMwrite(22, 1)` evicts that page, at cyclic distance 4 from page 11, although
the resident page 4 is at cyclic distance 7. -/
theorem C10_scan_victim_not_farthest :
    resolve tinyConfig elevenPagesState (pagePath tinyConfig 8) = some 11
    ∧ resolve tinyConfig elevenPagesState (pagePath tinyConfig 14) = some 15
    ∧ (traverseTree tinyConfig 3 0 0 11 0 elevenPagesState Scan.init).1 = -1
    ∧ (traverseTree tinyConfig 3 0 0 11 0 elevenPagesState Scan.init).2.2.pageMaxDist = 7
    ∧ (traverseTree tinyConfig 3 0 0 11 0 elevenPagesState Scan.init).2.2.indexMaxDistance = 15
    ∧ (VMwrite tinyConfig elevenPagesState 22 1).2.log
        = elevenPagesState.log ++ [Event.evict 15 7, Event.restore 15 11]
    ∧ cyclicDistance tinyConfig 7 11 = 4
    ∧ cyclicDistance tinyConfig 4 11 = 7 := by
  decide

/-! ## Casts, addresses and paths -/

theorem toU64_natCast (n : Nat) (h : n < 18446744073709551616) : toU64 (n : Int) = n := by
  unfold toU64
  have h1 : ((n : Int) % 18446744073709551616) = (n : Int) :=
    Int.emod_eq_of_lt (Int.natCast_nonneg n) (by exact_mod_cast h)
  rw [h1, Int.toNat_natCast]

theorem PAGE_SIZE_pos (cfg : Config) : 0 < PAGE_SIZE cfg := by
  unfold PAGE_SIZE
  positivity

theorem slot_address_inj (cfg : Config) {u v i j : Nat} (hi : i < PAGE_SIZE cfg)
    (hj : j < PAGE_SIZE cfg) (h : u * PAGE_SIZE cfg + i = v * PAGE_SIZE cfg + j) :
    u = v ∧ i = j := by
  have h1 : (u * PAGE_SIZE cfg + i) / PAGE_SIZE cfg = u := by
    rw [Nat.mul_comm, Nat.mul_add_div (PAGE_SIZE_pos cfg), Nat.div_eq_of_lt hi, Nat.add_zero]
  have h2 : (v * PAGE_SIZE cfg + j) / PAGE_SIZE cfg = v := by
    rw [Nat.mul_comm, Nat.mul_add_div (PAGE_SIZE_pos cfg), Nat.div_eq_of_lt hj, Nat.add_zero]
  have huv : u = v := by rw [← h1, ← h2, h]
  subst huv
  exact ⟨rfl, by omega⟩

theorem ValidPath_nil (cfg : Config) : ValidPath cfg [] := by
  intro i hi
  cases hi

theorem ValidPath_cons {cfg : Config} {i : Nat} {p : List Nat} :
    ValidPath cfg (i :: p) ↔ i < PAGE_SIZE cfg ∧ ValidPath cfg p := by
  unfold ValidPath
  simp

theorem ValidPath_append {cfg : Config} {p q : List Nat} :
    ValidPath cfg (p ++ q) ↔ ValidPath cfg p ∧ ValidPath cfg q := by
  unfold ValidPath
  simp only [List.mem_append]
  constructor
  · intro h
    exact ⟨fun i hi => h i (Or.inl hi), fun i hi => h i (Or.inr hi)⟩
  · rintro ⟨h1, h2⟩ i (hi | hi)
    · exact h1 i hi
    · exact h2 i hi

theorem resolveFrom_nil (cfg : Config) (s : State) (t : Nat) :
    resolveFrom cfg s t [] = some t := rfl

theorem resolveFrom_cons (cfg : Config) (s : State) (t i : Nat) (p : List Nat) :
    resolveFrom cfg s t (i :: p)
      = if s.ram (t * PAGE_SIZE cfg + i) = 0 then none
        else resolveFrom cfg s (toU64 (s.ram (t * PAGE_SIZE cfg + i))) p := rfl

theorem resolveFrom_append (cfg : Config) (s : State) (t : Nat) (p q : List Nat) :
    resolveFrom cfg s t (p ++ q)
      = (resolveFrom cfg s t p).bind (fun u => resolveFrom cfg s u q) := by
  induction p generalizing t with
  | nil => rfl
  | cons i p ih =>
    rw [List.cons_append, resolveFrom_cons, resolveFrom_cons]
    split_ifs
    · rfl
    · exact ih _

theorem resolveFrom_snoc (cfg : Config) (s : State) (t : Nat) (p : List Nat) (i : Nat) :
    resolveFrom cfg s t (p ++ [i])
      = (resolveFrom cfg s t p).bind (fun u =>
          if s.ram (u * PAGE_SIZE cfg + i) = 0 then none
          else some (toU64 (s.ram (u * PAGE_SIZE cfg + i)))) := by
  rw [resolveFrom_append]
  rfl

/-- Congruence: two memories that agree on every slot the walk reads resolve the path alike. -/
theorem resolveFrom_congr (cfg : Config) (s s1 : State) (t : Nat) (p : List Nat)
    (h : ∀ c i r u, p = c ++ i :: r → resolveFrom cfg s t c = some u →
      s1.ram (u * PAGE_SIZE cfg + i) = s.ram (u * PAGE_SIZE cfg + i)) :
    resolveFrom cfg s1 t p = resolveFrom cfg s t p := by
  induction p generalizing t with
  | nil => rfl
  | cons i p ih =>
    have h0 := h [] i p t rfl rfl
    rw [resolveFrom_cons, resolveFrom_cons, h0]
    split_ifs with hz
    · rfl
    · apply ih
      intro c j r u hp hu
      apply h (i :: c) j r u (by rw [hp]; rfl)
      rw [resolveFrom_cons, if_neg hz]
      exact hu

theorem resolveFrom_prefix_isSome (cfg : Config) (s : State) (t : Nat) (p q : List Nat)
    {f : Nat} (h : resolveFrom cfg s t (p ++ q) = some f) :
    ∃ u, resolveFrom cfg s t p = some u ∧ resolveFrom cfg s u q = some f := by
  rw [resolveFrom_append] at h
  cases hp : resolveFrom cfg s t p with
  | none => rw [hp] at h; cases h
  | some u => rw [hp] at h; exact ⟨u, rfl, h⟩

/-! ## The scan -/

theorem SameVictim.refl (sc : Scan) : SameVictim sc sc := ⟨rfl, rfl, rfl, rfl⟩

theorem SameVictim.trans {a b c : Scan} (h1 : SameVictim a b) (h2 : SameVictim b c) :
    SameVictim a c :=
  ⟨h2.1.trans h1.1, h2.2.1.trans h1.2.1, h2.2.2.1.trans h1.2.2.1, h2.2.2.2.trans h1.2.2.2⟩

theorem VictimIn.of_same {cfg : Config} {s : State} {t cp n : Nat} {a b : Scan}
    (h : VictimIn cfg s t cp n a) (hs : SameVictim a b) : VictimIn cfg s t cp n b := by
  obtain ⟨q, i, u, h1, h2, h3, h4, h5, h6, h7, h8⟩ := h
  exact ⟨q, i, u, h1, h2, h3, h4, h5, hs.2.1.trans h6, hs.2.2.1.trans h7, hs.2.2.2.trans h8⟩

theorem ScanDone.nil (cfg : Config) (s : State) (excl t cp n : Nat) (sc : Scan) :
    ScanDone cfg s excl t cp n [] sc sc where
  noEmpty := fun i q u hi => by cases hi
  max_mono := le_refl _
  max_ge := fun i q u hi => by cases hi
  max_attained := Or.inl rfl
  victim := Or.inl (SameVictim.refl sc)
  victim_found := fun _ h => by
    obtain ⟨i, q, hi, _⟩ := h
    cases hi

theorem ScanDone.append {cfg : Config} {s : State} {excl t cp n : Nat} {l1 l2 : List Nat}
    {a b c : Scan} (h1 : ScanDone cfg s excl t cp n l1 a b)
    (h2 : ScanDone cfg s excl t cp n l2 b c) :
    ScanDone cfg s excl t cp n (l1 ++ l2) a c where
  noEmpty := fun i q u hi hv hq hr => by
    rcases List.mem_append.1 hi with hi | hi
    · exact h1.noEmpty i q u hi hv hq hr
    · exact h2.noEmpty i q u hi hv hq hr
  max_mono := le_trans h1.max_mono h2.max_mono
  max_ge := fun i q u hi hv hq hr => by
    rcases List.mem_append.1 hi with hi | hi
    · exact le_trans (h1.max_ge i q u hi hv hq hr) h2.max_mono
    · exact h2.max_ge i q u hi hv hq hr
  max_attained := by
    rcases h2.max_attained with e2 | ⟨i, q, hi, hv, hq, hr⟩
    · rcases h1.max_attained with e1 | ⟨i, q, hi, hv, hq, hr⟩
      · exact Or.inl (e2.trans e1)
      · exact Or.inr ⟨i, q, List.mem_append.2 (Or.inl hi), hv, hq, by rw [e2]; exact hr⟩
    · exact Or.inr ⟨i, q, List.mem_append.2 (Or.inr hi), hv, hq, hr⟩
  victim := by
    rcases h2.victim with e2 | v2
    · rcases h1.victim with e1 | v1
      · exact Or.inl (e1.trans e2)
      · exact Or.inr (v1.of_same e2)
    · exact Or.inr v2
  victim_found := fun h0 hex => by
    have key : VictimIn cfg s t cp n b → VictimIn cfg s t cp n c := by
      intro v1
      rcases h2.victim with e2 | v2
      · exact v1.of_same e2
      · exact v2
    obtain ⟨i, q, hi, hv, hq, hr⟩ := hex
    rcases List.mem_append.1 hi with hi | hi
    · exact key (h1.victim_found h0 ⟨i, q, hi, hv, hq, hr⟩)
    · rcases h1.victim with e1 | v1
      · exact h2.victim_found (e1.1.trans h0) ⟨i, q, hi, hv, hq, hr⟩
      · exact key v1

theorem resolveFrom_cons_natCast (cfg : Config) (s : State) (t i m : Nat) (q : List Nat)
    (hm : m < 18446744073709551616) (he : s.ram (t * PAGE_SIZE cfg + i) = (m : Int))
    (h0 : m ≠ 0) : resolveFrom cfg s t (i :: q) = resolveFrom cfg s m q := by
  rw [resolveFrom_cons, he, toU64_natCast m hm, if_neg]
  exact_mod_cast h0

theorem resolveFrom_cons_zero (cfg : Config) (s : State) (t i : Nat) (q : List Nat)
    (he : s.ram (t * PAGE_SIZE cfg + i) = 0) : resolveFrom cfg s t (i :: q) = none := by
  rw [resolveFrom_cons, if_pos he]

theorem ScanDone.single_zero (cfg : Config) (s : State) (excl t cp n i : Nat) (sc : Scan)
    (he : s.ram (t * PAGE_SIZE cfg + i) = 0) :
    ScanDone cfg s excl t cp n [i] sc sc where
  noEmpty := fun j q u hj _ _ hr => by
    rw [List.mem_singleton.1 hj, resolveFrom_cons_zero cfg s t i q he] at hr
    cases hr
  max_mono := le_refl _
  max_ge := fun j q u hj _ _ hr => by
    rw [List.mem_singleton.1 hj, resolveFrom_cons_zero cfg s t i q he] at hr
    cases hr
  max_attained := Or.inl rfl
  victim := Or.inl (SameVictim.refl sc)
  victim_found := fun _ h => by
    obtain ⟨j, q, hj, _, _, hr⟩ := h
    rw [List.mem_singleton.1 hj, resolveFrom_cons_zero cfg s t i q he] at hr
    cases hr

theorem leafStep_done (cfg : Config) (s : State) (excl t P cp i m : Nat) (sc : Scan)
    (hi : i < PAGE_SIZE cfg) (hm : m < 18446744073709551616)
    (he : s.ram (t * PAGE_SIZE cfg + i) = (m : Int)) :
    ScanDone cfg s excl t cp 0 [i] sc (leafStep cfg s (t * PAGE_SIZE cfg) P cp sc i) := by
  by_cases h0 : m = 0
  · have hz : s.ram (t * PAGE_SIZE cfg + i) = 0 := by rw [he, h0]; rfl
    have : leafStep cfg s (t * PAGE_SIZE cfg) P cp sc i = sc := by
      unfold leafStep PMread
      simp only [hz, if_true]
    rw [this]
    exact ScanDone.single_zero cfg s excl t cp 0 i sc hz
  · have hz : s.ram (t * PAGE_SIZE cfg + i) ≠ 0 := by rw [he]; exact_mod_cast h0
    have hres : ∀ q, resolveFrom cfg s t (i :: q) = resolveFrom cfg s m q :=
      fun q => resolveFrom_cons_natCast cfg s t i m q hm he h0
    have hstep : leafStep cfg s (t * PAGE_SIZE cfg) P cp sc i
        = (if m > (if scanDistance cfg P cp ≥ sc.maxDistance then
              ({ sc with maxDistance := scanDistance cfg P cp, indexMaxDistance := (m : Int),
                         pageMaxDist := (cp <<< cfg.OFFSET_WIDTH) + i,
                         cyclicFrameFatherAddress := t * PAGE_SIZE cfg + i } : Scan)
              else sc).maxIndex then
            { (if scanDistance cfg P cp ≥ sc.maxDistance then
              ({ sc with maxDistance := scanDistance cfg P cp, indexMaxDistance := (m : Int),
                         pageMaxDist := (cp <<< cfg.OFFSET_WIDTH) + i,
                         cyclicFrameFatherAddress := t * PAGE_SIZE cfg + i } : Scan)
              else sc) with maxIndex := m }
          else (if scanDistance cfg P cp ≥ sc.maxDistance then
              ({ sc with maxDistance := scanDistance cfg P cp, indexMaxDistance := (m : Int),
                         pageMaxDist := (cp <<< cfg.OFFSET_WIDTH) + i,
                         cyclicFrameFatherAddress := t * PAGE_SIZE cfg + i } : Scan)
              else sc)) := by
      unfold leafStep PMread
      simp only [he, toU64_natCast m hm, Nat.cast_eq_zero, h0, if_false]
    have hvic : scanDistance cfg P cp ≥ sc.maxDistance →
        VictimIn cfg s t cp 0 (leafStep cfg s (t * PAGE_SIZE cfg) P cp sc i) := by
      intro hd
      refine ⟨[], i, t, ValidPath_nil cfg, rfl, hi, rfl, hz, ?_, ?_, ?_⟩
      · rw [hstep, if_pos hd, he]; split_ifs <;> rfl
      · rw [hstep, if_pos hd]; split_ifs <;> rfl
      · rw [hstep, if_pos hd]; split_ifs <;> rfl
    have hmax1 : sc.maxIndex ≤ (leafStep cfg s (t * PAGE_SIZE cfg) P cp sc i).maxIndex := by
      rw [hstep]
      by_cases hd : scanDistance cfg P cp ≥ sc.maxDistance
      · simp only [if_pos hd]
        split_ifs with h
        · exact le_of_lt h
        · exact le_refl _
      · simp only [if_neg hd]
        split_ifs with h
        · exact le_of_lt h
        · exact le_refl _
    have hmax2 : m ≤ (leafStep cfg s (t * PAGE_SIZE cfg) P cp sc i).maxIndex := by
      rw [hstep]
      by_cases hd : scanDistance cfg P cp ≥ sc.maxDistance
      · simp only [if_pos hd]
        split_ifs with h
        · exact le_refl _
        · exact not_lt.1 h
      · simp only [if_neg hd]
        split_ifs with h
        · exact le_refl _
        · exact not_lt.1 h
    have hmax3 : (leafStep cfg s (t * PAGE_SIZE cfg) P cp sc i).maxIndex = sc.maxIndex
        ∨ (leafStep cfg s (t * PAGE_SIZE cfg) P cp sc i).maxIndex = m := by
      rw [hstep]
      by_cases hd : scanDistance cfg P cp ≥ sc.maxDistance
      · simp only [if_pos hd]
        split_ifs with h
        · exact Or.inr rfl
        · exact Or.inl rfl
      · simp only [if_neg hd]
        split_ifs with h
        · exact Or.inr rfl
        · exact Or.inl rfl
    refine ⟨?_, hmax1, ?_, ?_, ?_, ?_⟩
    · intro j q u _ _ hq
      exact absurd hq (Nat.not_lt_zero _)
    · intro j q u hj _ hq hr
      rw [List.mem_singleton.1 hj, hres, List.length_eq_zero.1 (Nat.le_zero.1 hq)] at hr
      cases hr
      exact hmax2
    · rcases hmax3 with h | h
      · exact Or.inl h
      · refine Or.inr ⟨i, [], List.mem_singleton_self i, ?_, le_refl _, ?_⟩
        · exact ValidPath_cons.2 ⟨hi, ValidPath_nil cfg⟩
        · rw [hres, h]; rfl
    · by_cases hd : scanDistance cfg P cp ≥ sc.maxDistance
      · exact Or.inr (hvic hd)
      · left
        rw [hstep]
        simp only [if_neg hd]
        split_ifs <;> exact ⟨rfl, rfl, rfl, rfl⟩
    · intro hd0 _
      exact hvic (by rw [hd0]; exact Nat.zero_le _)

theorem leafFold_done (cfg : Config) (s : State) (excl t P cp : Nat) (l : List Nat)
    (sc : Scan) (hl : ∀ i ∈ l, i < PAGE_SIZE cfg) (hg : GoodSub cfg s t 0) :
    ScanDone cfg s excl t cp 0 l sc
      (l.foldl (leafStep cfg s (t * PAGE_SIZE cfg) P cp) sc) := by
  induction l generalizing sc with
  | nil => exact ScanDone.nil cfg s excl t cp 0 sc
  | cons i l ih =>
    have hi := hl i (List.mem_cons_self _ _)
    obtain ⟨m, hm, he⟩ := hg [] t i (ValidPath_nil cfg) (le_refl _) rfl hi
    have h1 := leafStep_done cfg s excl t P cp i m sc hi hm he
    have h2 := ih (leafStep cfg s (t * PAGE_SIZE cfg) P cp sc i)
      (fun j hj => hl j (List.mem_cons_of_mem _ hj))
    exact ScanDone.append h1 h2

theorem traverseLoop_nil (cfg : Config)
    (d : Nat → Nat → State → Scan → Int × State × Scan) (ta excl cp : Nat) (s : State)
    (sc : Scan) : traverseLoop cfg d ta excl cp [] s sc = (-1, s, sc) := rfl

theorem traverseLoop_cons (cfg : Config)
    (d : Nat → Nat → State → Scan → Int × State × Scan) (ta excl cp i : Nat)
    (rest : List Nat) (s : State) (sc : Scan) :
    traverseLoop cfg d ta excl cp (i :: rest) s sc
      = if s.ram (ta + i) = 0 then
          traverseLoop cfg d ta excl cp rest s (sc.bump (s.ram (ta + i)))
        else if toU64 (s.ram (ta + i)) ≠ excl
            ∧ isAllZeros cfg s (toU64 (s.ram (ta + i))) = true then
          (s.ram (ta + i), PMwrite s (ta + i) 0, sc.bump (s.ram (ta + i)))
        else if (d (toU64 (s.ram (ta + i))) ((cp <<< cfg.OFFSET_WIDTH) + i) s
              (sc.bump (s.ram (ta + i)))).1 = -1 then
          traverseLoop cfg d ta excl cp rest
            (d (toU64 (s.ram (ta + i))) ((cp <<< cfg.OFFSET_WIDTH) + i) s
              (sc.bump (s.ram (ta + i)))).2.1
            (d (toU64 (s.ram (ta + i))) ((cp <<< cfg.OFFSET_WIDTH) + i) s
              (sc.bump (s.ram (ta + i)))).2.2
        else d (toU64 (s.ram (ta + i))) ((cp <<< cfg.OFFSET_WIDTH) + i) s
              (sc.bump (s.ram (ta + i))) := rfl

theorem traverseTree_zero (cfg : Config) (t excl P cp : Nat) (s : State) (sc : Scan) :
    traverseTree cfg 0 t excl P cp s sc
      = (-1, s, (List.range (PAGE_SIZE cfg)).foldl
          (leafStep cfg s (t * PAGE_SIZE cfg) P cp) sc) := rfl

theorem traverseTree_succ (cfg : Config) (n t excl P cp : Nat) (s : State) (sc : Scan) :
    traverseTree cfg (n + 1) t excl P cp s sc
      = traverseLoop cfg
          (fun child page s1 sc1 => traverseTree cfg n child excl P page s1 sc1)
          (t * PAGE_SIZE cfg) excl cp (List.range (PAGE_SIZE cfg)) s sc := rfl

theorem Scan.bump_natCast (sc : Scan) (m : Nat) (hm : m < 18446744073709551616) :
    sc.bump (m : Int) = if m > sc.maxIndex then { sc with maxIndex := m } else sc := by
  unfold Scan.bump
  rw [toU64_natCast m hm]

theorem Scan.bump_zero (sc : Scan) : sc.bump 0 = sc := by
  have := Scan.bump_natCast sc 0 (by decide)
  simpa using this

theorem Scan.bump_facts (sc : Scan) (m : Nat) (hm : m < 18446744073709551616) :
    sc.maxIndex ≤ (sc.bump (m : Int)).maxIndex ∧ m ≤ (sc.bump (m : Int)).maxIndex
    ∧ ((sc.bump (m : Int)).maxIndex = sc.maxIndex ∨ (sc.bump (m : Int)).maxIndex = m)
    ∧ SameVictim sc (sc.bump (m : Int)) := by
  rw [Scan.bump_natCast sc m hm]
  split_ifs with h
  · exact ⟨le_of_lt h, le_refl _, Or.inr rfl, rfl, rfl, rfl, rfl⟩
  · exact ⟨le_refl _, not_lt.1 h, Or.inl rfl, rfl, rfl, rfl, rfl⟩

theorem GoodSub.child {cfg : Config} {s : State} {t n i m : Nat}
    (hg : GoodSub cfg s t (n + 1)) (hi : i < PAGE_SIZE cfg)
    (hm : m < 18446744073709551616) (he : s.ram (t * PAGE_SIZE cfg + i) = (m : Int))
    (h0 : m ≠ 0) : GoodSub cfg s m n := by
  intro q u j hv hq hr hj
  apply hg (i :: q) u j (ValidPath_cons.2 ⟨hi, hv⟩) (by simpa using hq) _ hj
  rw [resolveFrom_cons_natCast cfg s t i m q hm he h0]
  exact hr

theorem GoodSub.mono {cfg : Config} {s : State} {t n k : Nat}
    (hg : GoodSub cfg s t n) (hk : k ≤ n) : GoodSub cfg s t k :=
  fun q u j hv hq hr hj => hg q u j hv (le_trans hq hk) hr hj

theorem VictimIn.lift_victim {cfg : Config} {s : State} {t cp n i m : Nat} {sc : Scan}
    (hi : i < PAGE_SIZE cfg) (hm : m < 18446744073709551616)
    (he : s.ram (t * PAGE_SIZE cfg + i) = (m : Int)) (h0 : m ≠ 0)
    (h : VictimIn cfg s m ((cp <<< cfg.OFFSET_WIDTH) + i) n sc) :
    VictimIn cfg s t cp (n + 1) sc := by
  obtain ⟨q, j, u, h1, h2, h3, h4, h5, h6, h7, h8⟩ := h
  refine ⟨i :: q, j, u, ValidPath_cons.2 ⟨hi, h1⟩, by simp [h2], h3, ?_, h5, h6, ?_, h8⟩
  · rw [resolveFrom_cons_natCast cfg s t i m q hm he h0]
    exact h4
  · rw [h7]
    rfl

theorem ScanDone.lift_done {cfg : Config} {s : State} {excl t cp n i m : Nat} {sc sc1 sc2 : Scan}
    (hi : i < PAGE_SIZE cfg) (hm : m < 18446744073709551616)
    (he : s.ram (t * PAGE_SIZE cfg + i) = (m : Int)) (h0 : m ≠ 0)
    (hb : m = excl ∨ isAllZeros cfg s m = false)
    (hmono : sc.maxIndex ≤ sc1.maxIndex) (hge : m ≤ sc1.maxIndex)
    (hatt : sc1.maxIndex = sc.maxIndex ∨ sc1.maxIndex = m) (hsame : SameVictim sc sc1)
    (hc : ScanDone cfg s excl m ((cp <<< cfg.OFFSET_WIDTH) + i) n
      (List.range (PAGE_SIZE cfg)) sc1 sc2) :
    ScanDone cfg s excl t cp (n + 1) [i] sc sc2 := by
  have hres : ∀ q, resolveFrom cfg s t (i :: q) = resolveFrom cfg s m q :=
    fun q => resolveFrom_cons_natCast cfg s t i m q hm he h0
  refine ⟨?_, le_trans hmono hc.max_mono, ?_, ?_, ?_, ?_⟩
  · intro j q u hj hv hq hr
    rw [List.mem_singleton.1 hj, hres] at hr
    cases q with
    | nil => cases hr; exact hb
    | cons k q =>
      have hv2 := (ValidPath_cons.1 hv).2
      exact hc.noEmpty k q u (List.mem_range.2 (ValidPath_cons.1 hv2).1) hv2
        (by simpa using hq) hr
  · intro j q u hj hv hq hr
    rw [List.mem_singleton.1 hj, hres] at hr
    cases q with
    | nil => cases hr; exact le_trans hge hc.max_mono
    | cons k q =>
      have hv2 := (ValidPath_cons.1 hv).2
      exact hc.max_ge k q u (List.mem_range.2 (ValidPath_cons.1 hv2).1) hv2
        (by simpa using hq) hr
  · rcases hc.max_attained with e | ⟨k, q, hk, hv, hq, hr⟩
    · rcases hatt with e1 | e1
      · exact Or.inl (e.trans e1)
      · refine Or.inr ⟨i, [], List.mem_singleton_self i,
          ValidPath_cons.2 ⟨hi, ValidPath_nil cfg⟩, Nat.zero_le _, ?_⟩
        rw [hres, e, e1]
        rfl
    · refine Or.inr ⟨i, k :: q, List.mem_singleton_self i, ValidPath_cons.2 ⟨hi, hv⟩,
        by simpa using hq, ?_⟩
      rw [hres]
      exact hr
  · rcases hc.victim with e | v
    · exact Or.inl (hsame.trans e)
    · exact Or.inr (v.lift_victim hi hm he h0)
  · intro hd0 hex
    obtain ⟨j, q, hj, hv, hq, hr⟩ := hex
    rw [List.mem_singleton.1 hj, hres] at hr
    cases q with
    | nil => simp at hq
    | cons k q =>
      have hv2 := (ValidPath_cons.1 hv).2
      have := hc.victim_found (hsame.1.trans hd0)
        ⟨k, q, List.mem_range.2 (ValidPath_cons.1 hv2).1, hv2, by simpa using hq, hr⟩
      exact this.lift_victim hi hm he h0

theorem ScanFound.lift_found {cfg : Config} {s : State} {excl t n i m : Nat}
    {r : Int × State × Scan}
    (hi : i < PAGE_SIZE cfg) (hm : m < 18446744073709551616)
    (he : s.ram (t * PAGE_SIZE cfg + i) = (m : Int)) (h0 : m ≠ 0)
    (h : ScanFound cfg s excl m n r) : ScanFound cfg s excl t (n + 1) r := by
  obtain ⟨q, u, j, h1, h2, h3, h4, h5⟩ := h
  refine ⟨i :: q, u, j, ValidPath_cons.2 ⟨hi, h1⟩, by simpa using h2, h3, ?_, h5⟩
  rw [resolveFrom_cons_natCast cfg s t i m q hm he h0]
  exact h4

theorem ScanFound.ne_neg_one {cfg : Config} {s : State} {excl t n : Nat}
    {r : Int × State × Scan} (h : ScanFound cfg s excl t n r) : r.1 ≠ -1 := by
  obtain ⟨q, u, j, _, _, _, _, _, hpos, _⟩ := h
  omega

/-- The interior loop, given the specification of the recursive call. -/
theorem traverseLoop_spec (cfg : Config) (s : State) (excl P n t cp : Nat)
    (ih : ∀ t cp sc, GoodSub cfg s t n →
      ((traverseTree cfg n t excl P cp s sc).1 = -1
        ∧ (traverseTree cfg n t excl P cp s sc).2.1 = s
        ∧ ScanDone cfg s excl t cp n (List.range (PAGE_SIZE cfg)) sc
            (traverseTree cfg n t excl P cp s sc).2.2)
      ∨ ScanFound cfg s excl t n (traverseTree cfg n t excl P cp s sc))
    (hg : GoodSub cfg s t (n + 1)) (l : List Nat) (hl : ∀ i ∈ l, i < PAGE_SIZE cfg)
    (sc : Scan) :
    ((traverseLoop cfg
        (fun child page s1 sc1 => traverseTree cfg n child excl P page s1 sc1)
        (t * PAGE_SIZE cfg) excl cp l s sc).1 = -1
      ∧ (traverseLoop cfg
        (fun child page s1 sc1 => traverseTree cfg n child excl P page s1 sc1)
        (t * PAGE_SIZE cfg) excl cp l s sc).2.1 = s
      ∧ ScanDone cfg s excl t cp (n + 1) l sc (traverseLoop cfg
        (fun child page s1 sc1 => traverseTree cfg n child excl P page s1 sc1)
        (t * PAGE_SIZE cfg) excl cp l s sc).2.2)
    ∨ ScanFound cfg s excl t (n + 1) (traverseLoop cfg
        (fun child page s1 sc1 => traverseTree cfg n child excl P page s1 sc1)
        (t * PAGE_SIZE cfg) excl cp l s sc) := by
  induction l generalizing sc with
  | nil =>
    left
    rw [traverseLoop_nil]
    exact ⟨rfl, rfl, ScanDone.nil cfg s excl t cp (n + 1) sc⟩
  | cons i l ihl =>
    have hi := hl i (List.mem_cons_self _ _)
    have hl2 : ∀ j ∈ l, j < PAGE_SIZE cfg := fun j hj => hl j (List.mem_cons_of_mem _ hj)
    obtain ⟨m, hm, he⟩ := hg [] t i (ValidPath_nil cfg) (Nat.zero_le _) rfl hi
    rw [traverseLoop_cons]
    by_cases h0 : m = 0
    · have hz : s.ram (t * PAGE_SIZE cfg + i) = 0 := by rw [he, h0]; rfl
      rw [if_pos hz, hz, Scan.bump_zero]
      rcases ihl hl2 sc with ⟨h1, h2, h3⟩ | hf
      · left
        refine ⟨h1, h2, ?_⟩
        exact ScanDone.append (ScanDone.single_zero cfg s excl t cp (n + 1) i sc hz) h3
      · exact Or.inr hf
    · have hz : s.ram (t * PAGE_SIZE cfg + i) ≠ 0 := by rw [he]; exact_mod_cast h0
      rw [if_neg hz]
      have hu : toU64 (s.ram (t * PAGE_SIZE cfg + i)) = m := by
        rw [he, toU64_natCast m hm]
      rw [hu]
      by_cases hb : m ≠ excl ∧ isAllZeros cfg s m = true
      · rw [if_pos hb]
        right
        refine ⟨[], t, i, ValidPath_nil cfg, Nat.succ_pos _, hi, rfl, rfl, ?_, ?_, ?_, rfl⟩
        · show 0 < s.ram (t * PAGE_SIZE cfg + i)
          rw [he]
          exact_mod_cast Nat.pos_of_ne_zero h0
        · show toU64 (s.ram (t * PAGE_SIZE cfg + i)) ≠ excl
          rw [hu]; exact hb.1
        · show isAllZeros cfg s (toU64 (s.ram (t * PAGE_SIZE cfg + i))) = true
          rw [hu]; exact hb.2
      · rw [if_neg hb]
        have hb2 : m = excl ∨ isAllZeros cfg s m = false := by
          by_cases hx : m = excl
          · exact Or.inl hx
          · right
            cases hall : isAllZeros cfg s m with
            | false => rfl
            | true => exact absurd ⟨hx, hall⟩ hb
        have hgc : GoodSub cfg s m n := hg.child hi hm he h0
        have hbf := Scan.bump_facts sc m hm
        rw [← he] at hbf
        rcases ih m ((cp <<< cfg.OFFSET_WIDTH) + i) (sc.bump (s.ram (t * PAGE_SIZE cfg + i)))
          hgc with ⟨h1, h2, h3⟩ | hf
        · rw [if_pos h1, h2]
          have hsingle := ScanDone.lift_done hi hm he h0 hb2 hbf.1 hbf.2.1 hbf.2.2.1 hbf.2.2.2 h3
          rcases ihl hl2 (traverseTree cfg n m excl P ((cp <<< cfg.OFFSET_WIDTH) + i) s
            (sc.bump (s.ram (t * PAGE_SIZE cfg + i)))).2.2 with ⟨k1, k2, k3⟩ | kf
          · left
            exact ⟨k1, k2, ScanDone.append hsingle k3⟩
          · exact Or.inr kf
        · rw [if_neg hf.ne_neg_one]
          right
          exact hf.lift_found hi hm he h0

/-- Specification of `traverseTree`: either the scan runs to completion,
returns -1 and leaves memory alone, or it stops at an empty table. -/
theorem traverseTree_spec (cfg : Config) (s : State) (excl P : Nat) :
    ∀ n t cp sc, GoodSub cfg s t n →
      ((traverseTree cfg n t excl P cp s sc).1 = -1
        ∧ (traverseTree cfg n t excl P cp s sc).2.1 = s
        ∧ ScanDone cfg s excl t cp n (List.range (PAGE_SIZE cfg)) sc
            (traverseTree cfg n t excl P cp s sc).2.2)
      ∨ ScanFound cfg s excl t n (traverseTree cfg n t excl P cp s sc) := by
  intro n
  induction n with
  | zero =>
    intro t cp sc hg
    left
    rw [traverseTree_zero]
    exact ⟨rfl, rfl, leafFold_done cfg s excl t P cp _ sc
      (fun i hi => List.mem_range.1 hi) hg⟩
  | succ n ih =>
    intro t cp sc hg
    rw [traverseTree_succ]
    exact traverseLoop_spec cfg s excl P n t cp ih hg _ (fun i hi => List.mem_range.1 hi) sc

/-! ## The page-table tree -/

theorem isAllZeros_iff (cfg : Config) (s : State) (f : Nat) :
    isAllZeros cfg s f = true ↔ ∀ i, i < PAGE_SIZE cfg → s.ram (f * PAGE_SIZE cfg + i) = 0 := by
  unfold isAllZeros PMread
  rw [List.all_eq_true]
  constructor
  · intro h i hi
    have := h i (List.mem_range.2 hi)
    simpa using this
  · intro h i hi
    have := h i (List.mem_range.1 hi)
    simpa using this

theorem exists_ne_zero_of_not_allZeros (cfg : Config) (s : State) (f : Nat)
    (h : isAllZeros cfg s f = false) :
    ∃ i, i < PAGE_SIZE cfg ∧ s.ram (f * PAGE_SIZE cfg + i) ≠ 0 := by
  by_contra hc
  push_neg at hc
  have := (isAllZeros_iff cfg s f).2 hc
  rw [h] at this
  cases this

theorem resolveFrom_allZeros (cfg : Config) (s : State) (f j : Nat) (rest : List Nat)
    (h : isAllZeros cfg s f = true) (hj : j < PAGE_SIZE cfg) :
    resolveFrom cfg s f (j :: rest) = none :=
  resolveFrom_cons_zero cfg s f j rest ((isAllZeros_iff cfg s f).1 h j hj)

theorem resolve_nil (cfg : Config) (s : State) : resolve cfg s [] = some 0 := rfl

theorem resolve_append (cfg : Config) (s : State) (p q : List Nat) :
    resolve cfg s (p ++ q) = (resolve cfg s p).bind (fun u => resolveFrom cfg s u q) :=
  resolveFrom_append cfg s 0 p q

theorem resolve_congr (cfg : Config) (s s1 : State) (p : List Nat)
    (h : ∀ c i r u, p = c ++ i :: r → resolve cfg s c = some u →
      s1.ram (u * PAGE_SIZE cfg + i) = s.ram (u * PAGE_SIZE cfg + i)) :
    resolve cfg s1 p = resolve cfg s p :=
  resolveFrom_congr cfg s s1 0 p h

theorem TreeInv.goodSub {cfg : Config} {s : State} (hI : TreeInv cfg s)
    (hF : Feasible cfg) : GoodSub cfg s 0 (cfg.TABLES_DEPTH - 1) := by
  intro q u i hv hq hr hi
  have hd : 0 < cfg.TABLES_DEPTH := by
    have := hF.offset_lt
    have := hF.depth_covers
    rcases Nat.eq_zero_or_pos cfg.TABLES_DEPTH with h | h
    · rw [h] at this; omega
    · exact h
  obtain ⟨m, hm, he⟩ := hI.range q u i hv (by omega) hr hi
  exact ⟨m, lt_of_lt_of_le hm hF.frames_fit, he⟩

theorem Feasible.depth_pos {cfg : Config} (hF : Feasible cfg) : 0 < cfg.TABLES_DEPTH := by
  have := hF.offset_lt
  have := hF.depth_covers
  rcases Nat.eq_zero_or_pos cfg.TABLES_DEPTH with h | h
  · rw [h] at this; omega
  · exact h

theorem Feasible.offset_pos {cfg : Config} (hF : Feasible cfg) : 0 < cfg.OFFSET_WIDTH := by
  have h1 := hF.offset_lt
  have h2 := hF.depth_covers
  rcases Nat.eq_zero_or_pos cfg.OFFSET_WIDTH with h | h
  · rw [h] at h2; omega
  · exact h

/-- A walk that resolves to a frame other than 0 is not the empty walk. -/
theorem TreeInv.ne_zero {cfg : Config} {s : State} (hI : TreeInv cfg s) {p : List Nat}
    {f : Nat} (hv : ValidPath cfg p) (hl : p.length ≤ cfg.TABLES_DEPTH) (hp : p ≠ [])
    (hr : resolve cfg s p = some f) : f ≠ 0 := by
  rintro rfl
  exact hp (hI.inj p [] 0 hv (ValidPath_nil cfg) hl (Nat.zero_le _) hr rfl)

theorem ValidPath.of_append_left {cfg : Config} {p q : List Nat}
    (h : ValidPath cfg (p ++ q)) : ValidPath cfg p := (ValidPath_append.1 h).1

theorem ValidPath.of_append_right {cfg : Config} {p q : List Nat}
    (h : ValidPath cfg (p ++ q)) : ValidPath cfg q := (ValidPath_append.1 h).2

theorem ValidPath_singleton {cfg : Config} {i : Nat} (hi : i < PAGE_SIZE cfg) :
    ValidPath cfg [i] := ValidPath_cons.2 ⟨hi, ValidPath_nil cfg⟩

/-- A memory change at one slot of table `u` does not affect a walk that does
not pass through that slot. -/
theorem resolve_update_off_path {cfg : Config} {s s1 : State} (hinj : PathInj cfg s)
    {q : List Nat} {u i : Nat} (hq : ValidPath cfg q) (hlq : q.length ≤ cfg.TABLES_DEPTH)
    (hu : resolve cfg s q = some u) (hi : i < PAGE_SIZE cfg)
    (hs1 : ∀ a, a ≠ u * PAGE_SIZE cfg + i → s1.ram a = s.ram a)
    {p : List Nat} (hv : ValidPath cfg p) (hl : p.length ≤ cfg.TABLES_DEPTH)
    (hnp : ¬ (q ++ [i]) <+: p) : resolve cfg s1 p = resolve cfg s p := by
  apply resolve_congr
  intro c j r u1 hp hc
  apply hs1
  intro heq
  have hvc : ValidPath cfg c := by rw [hp] at hv; exact hv.of_append_left
  have hj : j < PAGE_SIZE cfg := by
    rw [hp] at hv
    exact (ValidPath_cons.1 hv.of_append_right).1
  obtain ⟨e1, e2⟩ := slot_address_inj cfg hj hi heq
  subst e1 e2
  have hlc : c.length ≤ cfg.TABLES_DEPTH := by
    rw [hp] at hl
    simp only [List.length_append, List.length_cons] at hl
    omega
  have hcq : c = q := hinj c q u1 hvc hq hlc hlq hc hu
  subst hcq
  exact hnp ⟨r, by rw [hp]; simp⟩

/-- Clearing the parent slot of a frame `m` below which nothing resolves:
the walk to `m` stops resolving, every other walk resolves as before. -/
theorem resolve_unlink {cfg : Config} {s s1 : State} (hinj : PathInj cfg s)
    {q : List Nat} {u i m : Nat} (hq : ValidPath cfg q) (hlq : q.length < cfg.TABLES_DEPTH)
    (hu : resolve cfg s q = some u) (hi : i < PAGE_SIZE cfg)
    (hm : m < 18446744073709551616) (he : s.ram (u * PAGE_SIZE cfg + i) = (m : Int))
    (hm0 : m ≠ 0)
    (hleaf : ∀ j rest, ValidPath cfg (j :: rest) →
      (q ++ [i] ++ j :: rest).length ≤ cfg.TABLES_DEPTH →
      resolveFrom cfg s m (j :: rest) = none)
    (hz : s1.ram (u * PAGE_SIZE cfg + i) = 0)
    (hs1 : ∀ a, a ≠ u * PAGE_SIZE cfg + i → s1.ram a = s.ram a)
    {p : List Nat} (hv : ValidPath cfg p) (hl : p.length ≤ cfg.TABLES_DEPTH) :
    resolve cfg s1 p = if resolve cfg s p = some m then none else resolve cfg s p := by
  have hqf : resolve cfg s (q ++ [i]) = some m := by
    rw [resolve_append, hu]
    show resolveFrom cfg s u [i] = some m
    rw [resolveFrom_cons_natCast cfg s u i m [] hm he hm0]
    rfl
  by_cases hpre : (q ++ [i]) <+: p
  · obtain ⟨r, hr⟩ := hpre
    have hq1 : resolve cfg s1 q = some u := by
      rw [resolve_update_off_path hinj hq (le_of_lt hlq) hu hi hs1 hq (le_of_lt hlq)]
      · exact hu
      · intro hcon
        have := hcon.length_le
        simp at this
    have h1 : resolve cfg s1 p = none := by
      rw [← hr, List.append_assoc, resolve_append, hq1]
      show resolveFrom cfg s1 u ([i] ++ r) = none
      exact resolveFrom_cons_zero cfg s1 u i r hz
    rw [h1]
    cases r with
    | nil =>
      rw [List.append_nil] at hr
      rw [← hr, hqf, if_pos rfl]
    | cons j rest =>
      have h2 : resolve cfg s p = none := by
        rw [← hr, resolve_append, hqf]
        apply hleaf j rest
        · rw [← hr] at hv
          exact hv.of_append_right
        · rw [hr]; exact hl
      rw [h2]
      rfl
  · rw [resolve_update_off_path hinj hq (le_of_lt hlq) hu hi hs1 hv hl hpre]
    rw [if_neg]
    intro hcon
    have := hinj p (q ++ [i]) m hv (ValidPath_append.2 ⟨hq, ValidPath_singleton hi⟩) hl
      (by simp; omega) hcon hqf
    exact hpre ⟨[], by rw [this]; simp⟩

theorem some_of_formula {cfg : Config} {s s1 : State} {f : Nat} {p : List Nat} {g : Nat}
    (hres : resolve cfg s1 p = if resolve cfg s p = some f then none else resolve cfg s p)
    (h : resolve cfg s1 p = some g) : resolve cfg s p = some g ∧ g ≠ f := by
  by_cases hc : resolve cfg s p = some f
  · rw [hres, if_pos hc] at h
    cases h
  · rw [hres, if_neg hc] at h
    refine ⟨h, ?_⟩
    rintro rfl
    exact hc h

theorem Feasible.frames_pos {cfg : Config} (_hF : Feasible cfg) : 0 < NUM_FRAMES cfg := by
  unfold NUM_FRAMES
  positivity

/-- The tree after the allocator has taken frame `f` out of it (or found it
unused above the high-water mark). -/
theorem TreeHole.of_formula {cfg : Config} {s s1 : State} {f : Nat} (hI : TreeInv cfg s)
    (hres : ∀ p, ValidPath cfg p → p.length ≤ cfg.TABLES_DEPTH →
      resolve cfg s1 p = if resolve cfg s p = some f then none else resolve cfg s p)
    (hram : ∀ a, s1.ram a = s.ram a ∨ s1.ram a = 0)
    (hpos : 1 ≤ f) (hlt : f < NUM_FRAMES cfg)
    (hf : Linked cfg s f ∨ ((∀ g, Linked cfg s g → g < f)
      ∧ ∀ g, 1 ≤ g → g < f → Linked cfg s g)) : TreeHole cfg s1 f := by
  have hL1 : ∀ g, Linked cfg s1 g → Linked cfg s g ∧ g ≠ f := by
    rintro g ⟨q, hv, hl, hne, hr⟩
    have := some_of_formula (hres q hv hl) hr
    exact ⟨⟨q, hv, hl, hne, this.1⟩, this.2⟩
  have hL2 : ∀ g, Linked cfg s g → g ≠ f → Linked cfg s1 g := by
    rintro g ⟨q, hv, hl, hne, hr⟩ hgf
    refine ⟨q, hv, hl, hne, ?_⟩
    rw [hres q hv hl, if_neg, hr]
    rw [hr]
    intro hc
    cases hc
    exact hgf rfl
  refine ⟨?_, ?_, hpos, hlt, ?_, ?_, ?_⟩
  · intro p t i hv hl hr hi
    have h1 := (some_of_formula (hres p hv (le_of_lt hl)) hr).1
    obtain ⟨m, hm, he⟩ := hI.range p t i hv hl h1 hi
    rcases hram (t * PAGE_SIZE cfg + i) with h | h
    · exact ⟨m, hm, by rw [h, he]⟩
    · exact ⟨0, lt_of_lt_of_le hpos (le_of_lt hlt), by rw [h]; rfl⟩
  · intro p q g hvp hvq hlp hlq hp hq
    exact hI.inj p q g hvp hvq hlp hlq (some_of_formula (hres p hvp hlp) hp).1
      (some_of_formula (hres q hvq hlq) hq).1
  · intro hc
    exact (hL1 f hc).2 rfl
  · intro g hg1 hg2
    apply hL2 g _ (ne_of_lt hg2)
    rcases hf with hf | hf
    · exact hI.closed f g hf hg1 (le_of_lt hg2)
    · exact hf.2 g hg1 hg2
  · intro f1 g hf1 hg1 hg2
    by_cases hgf : g = f
    · exact Or.inl hgf
    · exact Or.inr (hL2 g (hI.closed f1 g (hL1 f1 hf1).1 hg1 hg2) hgf)

/-- While no data page is resident and every table but `excl` has a non-zero
word, every walk that resolves is a prefix of the walk to `excl`. -/
theorem prefix_of_no_data {cfg : Config} {s : State}
    (hI : TreeInv cfg s) {cur : List Nat} {excl : Nat} (hcv : ValidPath cfg cur)
    (hcl : cur.length < cfg.TABLES_DEPTH) (hcr : resolve cfg s cur = some excl)
    (hne : ∀ i q u, ValidPath cfg (i :: q) → q.length < cfg.TABLES_DEPTH - 1 →
      resolve cfg s (i :: q) = some u → u = excl ∨ isAllZeros cfg s u = false)
    (hno : ¬ ∃ p, ValidPath cfg p ∧ p.length = cfg.TABLES_DEPTH
      ∧ (resolve cfg s p).isSome = true) :
    ∀ k p u, ValidPath cfg p → p.length + k = cfg.TABLES_DEPTH →
      resolve cfg s p = some u → p <+: cur := by
  intro k
  induction k with
  | zero =>
    intro p u hv hl hr
    exact absurd ⟨p, hv, by simpa using hl, by rw [hr]; rfl⟩ hno
  | succ k ih =>
    intro p u hv hl hr
    by_cases hue : u = excl
    · subst hue
      have := hI.inj p cur u hv hcv (by omega) (le_of_lt hcl) hr hcr
      rw [this]
    · cases p with
      | nil => exact List.nil_prefix
      | cons i q =>
        have hql : q.length < cfg.TABLES_DEPTH - 1 := by
          simp only [List.length_cons] at hl
          omega
        rcases hne i q u hv hql hr with h | h
        · exact absurd h hue
        · obtain ⟨j, hj, hjz⟩ := exists_ne_zero_of_not_allZeros cfg s u h
          have hr2 : resolve cfg s ((i :: q) ++ [j])
              = some (toU64 (s.ram (u * PAGE_SIZE cfg + j))) := by
            unfold resolve
            rw [resolveFrom_snoc]
            unfold resolve at hr
            rw [hr]
            show (if s.ram (u * PAGE_SIZE cfg + j) = 0 then none
              else some (toU64 (s.ram (u * PAGE_SIZE cfg + j)))) = _
            rw [if_neg hjz]
          have := ih ((i :: q) ++ [j]) _
            (ValidPath_append.2 ⟨hv, ValidPath_singleton hj⟩)
            (by simp only [List.length_append, List.length_cons, List.length_nil] at hl ⊢
                omega) hr2
          exact List.IsPrefix.trans (List.prefix_append _ _) this

/-- When every frame `1, ..., NUM_FRAMES - 1` is held by a parent slot and no
table except `excl` is empty, a data page is resident: the frames cannot all
lie on the walk to `excl`. -/
theorem exists_data_page {cfg : Config} {s : State} (hF : Feasible cfg)
    (hI : TreeInv cfg s) {cur : List Nat} {excl : Nat} (hcv : ValidPath cfg cur)
    (hcl : cur.length < cfg.TABLES_DEPTH) (hcr : resolve cfg s cur = some excl)
    (hne : ∀ i q u, ValidPath cfg (i :: q) → q.length < cfg.TABLES_DEPTH - 1 →
      resolve cfg s (i :: q) = some u → u = excl ∨ isAllZeros cfg s u = false)
    (hall : ∀ g, 1 ≤ g → g < NUM_FRAMES cfg → Linked cfg s g) :
    ∃ p, ValidPath cfg p ∧ p.length = cfg.TABLES_DEPTH
      ∧ (resolve cfg s p).isSome = true := by
  by_contra hno
  have hpre := prefix_of_no_data hI hcv hcl hcr hne hno
  have hsub : Finset.Icc 1 (NUM_FRAMES cfg - 1)
      ⊆ (Finset.Icc 1 (cfg.TABLES_DEPTH - 1)).image
        (fun l => (resolve cfg s (cur.take l)).getD 0) := by
    intro g hg
    rw [Finset.mem_Icc] at hg
    obtain ⟨q, hv, hl, hq0, hr⟩ := hall g hg.1 (by have := hF.frames_pos; omega)
    have hp : q <+: cur := hpre (cfg.TABLES_DEPTH - q.length) q g hv (by omega) hr
    have hq1 : 1 ≤ q.length := by
      cases q with
      | nil => exact absurd rfl hq0
      | cons a b => simp
    have hq2 : q.length ≤ cur.length := hp.length_le
    rw [Finset.mem_image]
    refine ⟨q.length, Finset.mem_Icc.2 ⟨hq1, by omega⟩, ?_⟩
    have : cur.take q.length = q := by
      obtain ⟨r, hr2⟩ := hp
      rw [← hr2]
      simp
    show (resolve cfg s (cur.take q.length)).getD 0 = g
    rw [this, hr]
    rfl
  have h1 := Finset.card_le_card hsub
  have h2 := Finset.card_image_le (s := Finset.Icc 1 (cfg.TABLES_DEPTH - 1))
    (f := fun l => (resolve cfg s (cur.take l)).getD 0)
  rw [Nat.card_Icc] at h1 h2
  have := hF.frames_suffice
  have := hF.depth_pos
  omega

/-! ## The allocator -/

theorem shiftLeft_offset (cfg : Config) (a : Nat) :
    a <<< cfg.OFFSET_WIDTH = a * PAGE_SIZE cfg := by
  rw [Nat.shiftLeft_eq]
  rfl

theorem encodeFrom_inj (cfg : Config) :
    ∀ (p q : List Nat) (a b : Nat), ValidPath cfg p → ValidPath cfg q →
      p.length = q.length → encodeFrom cfg a p = encodeFrom cfg b q → a = b ∧ p = q := by
  intro p
  induction p with
  | nil =>
    intro q a b _ _ hl h
    cases q with
    | nil => exact ⟨h, rfl⟩
    | cons j q => simp at hl
  | cons i p ih =>
    intro q a b hvp hvq hl h
    cases q with
    | nil => simp at hl
    | cons j q =>
      have hl2 : p.length = q.length := by simpa using hl
      obtain ⟨h1, h2⟩ := ih q _ _ (ValidPath_cons.1 hvp).2 (ValidPath_cons.1 hvq).2 hl2 h
      rw [shiftLeft_offset, shiftLeft_offset] at h1
      obtain ⟨e1, e2⟩ := slot_address_inj cfg (ValidPath_cons.1 hvp).1
        (ValidPath_cons.1 hvq).1 h1
      exact ⟨e1, by rw [e2, h2]⟩

/-- A slot of a table and a word of a data frame are different addresses. -/
theorem table_slot_ne_data_word {cfg : Config} {s : State} (hinj : PathInj cfg s)
    {p q : List Nat} {g u o i : Nat} (hvp : ValidPath cfg p) (hvq : ValidPath cfg q)
    (hlp : p.length = cfg.TABLES_DEPTH) (hlq : q.length < cfg.TABLES_DEPTH)
    (hp : resolve cfg s p = some g) (hq : resolve cfg s q = some u)
    (ho : o < PAGE_SIZE cfg) (hi : i < PAGE_SIZE cfg) :
    g * PAGE_SIZE cfg + o ≠ u * PAGE_SIZE cfg + i := by
  intro h
  obtain ⟨e, _⟩ := slot_address_inj cfg ho hi h
  subst e
  have := hinj p q g hvp hvq (le_of_eq hlp) (le_of_lt hlq) hp hq
  rw [this] at hlp
  omega

theorem Linked.of_resolve {cfg : Config} {s : State} {q : List Nat} {i g : Nat}
    (hv : ValidPath cfg (q ++ [i])) (hl : (q ++ [i]).length ≤ cfg.TABLES_DEPTH)
    (hr : resolve cfg s (q ++ [i]) = some g) : Linked cfg s g :=
  ⟨q ++ [i], hv, hl, by simp, hr⟩

theorem resolve_snoc_natCast {cfg : Config} {s : State} {q : List Nat} {u i m : Nat}
    (hu : resolve cfg s q = some u) (hm : m < 18446744073709551616)
    (he : s.ram (u * PAGE_SIZE cfg + i) = (m : Int)) (hm0 : m ≠ 0) :
    resolve cfg s (q ++ [i]) = some m := by
  rw [resolve_append, hu]
  show resolveFrom cfg s u [i] = some m
  rw [resolveFrom_cons_natCast cfg s u i m [] hm he hm0]
  rfl

/-- The part of the allocator's guarantee common to rule 1 and rule 3: the
frame handed out is the former content of a parent slot, now cleared. -/
theorem AllocSpec.of_unlink {cfg : Config} {s s1 : State} (hF : Feasible cfg)
    (hI : TreeInv cfg s) {cur q : List Nat} {u i m : Nat}
    (hq : ValidPath cfg q) (hlq : q.length < cfg.TABLES_DEPTH)
    (hu : resolve cfg s q = some u) (hi : i < PAGE_SIZE cfg)
    (hmN : m < NUM_FRAMES cfg) (he : s.ram (u * PAGE_SIZE cfg + i) = (m : Int))
    (hm0 : m ≠ 0)
    (hleaf : ∀ j rest, ValidPath cfg (j :: rest) →
      (q ++ [i] ++ j :: rest).length ≤ cfg.TABLES_DEPTH →
      resolveFrom cfg s m (j :: rest) = none)
    (hs1 : ∀ a, s1.ram a = if a = u * PAGE_SIZE cfg + i then 0 else s.ram a)
    (hword : ∀ p o, ValidPath cfg p → p.length = cfg.TABLES_DEPTH → o < PAGE_SIZE cfg →
      pageWord cfg s1 p o = pageWord cfg s p o)
    (hexcl : ∀ c, c <+: cur → resolve cfg s c ≠ some m)
    (hlog : s1.log = s.log ∨ ∃ f p, s1.log = s.log ++ [Event.evict f p]) :
    AllocSpec cfg s cur (m, s1) := by
  have hm : m < 18446744073709551616 := lt_of_lt_of_le hmN hF.frames_fit
  have hres : ∀ p, ValidPath cfg p → p.length ≤ cfg.TABLES_DEPTH →
      resolve cfg s1 p = if resolve cfg s p = some m then none else resolve cfg s p := by
    intro p hv hl
    apply resolve_unlink hI.inj hq hlq hu hi hm he hm0 hleaf _ _ hv hl
    · rw [hs1, if_pos rfl]
    · intro a ha
      rw [hs1, if_neg ha]
  have hram : ∀ a, s1.ram a = s.ram a ∨ s1.ram a = 0 := by
    intro a
    rw [hs1]
    split_ifs
    · exact Or.inr rfl
    · exact Or.inl rfl
  have hlink : Linked cfg s m :=
    Linked.of_resolve (ValidPath_append.2 ⟨hq, ValidPath_singleton hi⟩)
      (by simp; omega) (resolve_snoc_natCast hu hm he hm0)
  exact ⟨TreeHole.of_formula hI hres hram (Nat.pos_of_ne_zero hm0) hmN (Or.inl hlink),
    hres, hram, hword, hexcl, hlog⟩

theorem PMevict_ram (cfg : Config) (s : State) (f p : Nat) : (PMevict cfg s f p).ram = s.ram :=
  rfl

theorem PMevict_log (cfg : Config) (s : State) (f p : Nat) :
    (PMevict cfg s f p).log = s.log ++ [Event.evict f p] := rfl

theorem PMevict_swap (cfg : Config) (s : State) (f p p1 o : Nat) :
    (PMevict cfg s f p).swap p1 o
      = if p1 = p ∧ o < PAGE_SIZE cfg then s.ram (f * PAGE_SIZE cfg + o) else s.swap p1 o := by
  unfold PMevict
  simp only [Function.update_apply]
  by_cases h1 : p1 = p
  · subst h1
    by_cases h2 : o < PAGE_SIZE cfg
    · simp [h2]
    · simp [h2]
  · simp [h1]

theorem ValidPath.of_prefix {cfg : Config} {c p : List Nat} (h : ValidPath cfg p)
    (hc : c <+: p) : ValidPath cfg c := by
  obtain ⟨t, rfl⟩ := hc
  exact h.of_append_left

/-- Rule 1: the scan stopped at an empty table. -/
theorem alloc_rule1 {cfg : Config} {s : State} (hF : Feasible cfg) (hI : TreeInv cfg s)
    {cur : List Nat} {excl : Nat} (hcv : ValidPath cfg cur)
    (hcl : cur.length < cfg.TABLES_DEPTH) (hcr : resolve cfg s cur = some excl)
    {r : Int × State × Scan} (hf : ScanFound cfg s excl 0 (cfg.TABLES_DEPTH - 1) r) :
    AllocSpec cfg s cur (toU64 r.1, r.2.1) := by
  obtain ⟨q, u, i, hv, hql, hi, hu, he, hpos, hne, hz, hs1⟩ := hf
  have hu1 : resolve cfg s q = some u := hu
  have hql1 : q.length < cfg.TABLES_DEPTH := by omega
  obtain ⟨m, hmN, hem⟩ := hI.range q u i hv hql1 hu1 hi
  have hm : m < 18446744073709551616 := lt_of_lt_of_le hmN hF.frames_fit
  have hr1 : r.1 = (m : Int) := by rw [← he, hem]
  have hm0 : m ≠ 0 := by
    rintro rfl
    rw [hr1] at hpos
    exact absurd hpos (by decide)
  have hto : toU64 r.1 = m := by rw [hr1, toU64_natCast m hm]
  rw [hto] at hne hz ⊢
  rw [hs1]
  have hqf : resolve cfg s (q ++ [i]) = some m := resolve_snoc_natCast hu1 hm hem hm0
  have hvqf : ValidPath cfg (q ++ [i]) := ValidPath_append.2 ⟨hv, ValidPath_singleton hi⟩
  have hleaf : ∀ j rest, ValidPath cfg (j :: rest) →
      (q ++ [i] ++ j :: rest).length ≤ cfg.TABLES_DEPTH →
      resolveFrom cfg s m (j :: rest) = none :=
    fun j rest hvj _ => resolveFrom_allZeros cfg s m j rest hz (ValidPath_cons.1 hvj).1
  have hs1r : ∀ a, (PMwrite s (u * PAGE_SIZE cfg + i) 0).ram a
      = if a = u * PAGE_SIZE cfg + i then 0 else s.ram a := fun a => PMwrite_ram _ _ _ _
  apply AllocSpec.of_unlink hF hI hv hql1 hu1 hi hmN hem hm0 hleaf hs1r
  · intro p o hvp hlp ho
    have hne1 : resolve cfg s p ≠ some m := by
      intro hc
      have := hI.inj p (q ++ [i]) m hvp hvqf (le_of_eq hlp) (by simp; omega) hc hqf
      rw [this] at hlp
      simp at hlp
      omega
    have hres : resolve cfg (PMwrite s (u * PAGE_SIZE cfg + i) 0) p = resolve cfg s p := by
      have hform : resolve cfg (PMwrite s (u * PAGE_SIZE cfg + i) 0) p
          = if resolve cfg s p = some m then none else resolve cfg s p :=
        resolve_unlink hI.inj hv hql1 hu1 hi hm hem hm0 hleaf (by rw [hs1r, if_pos rfl])
          (fun a ha => by rw [hs1r, if_neg ha]) hvp (le_of_eq hlp)
      rw [hform, if_neg hne1]
    unfold pageWord
    rw [hres]
    cases hrp : resolve cfg s p with
    | none => rfl
    | some g =>
      show (PMwrite s (u * PAGE_SIZE cfg + i) 0).ram (g * PAGE_SIZE cfg + o) = _
      rw [hs1r, if_neg]
      exact table_slot_ne_data_word hI.inj hvp hv hlp hql1 hrp hu1 ho hi
  · intro c hc hrc
    by_cases hcc : c = cur
    · rw [hcc, hcr] at hrc
      cases hrc
      exact hne rfl
    · obtain ⟨t, ht⟩ := hc
      cases t with
      | nil => exact hcc (by simpa using ht)
      | cons j rest =>
        have h1 : resolve cfg s cur = none := by
          rw [← ht, resolve_append, hrc]
          apply resolveFrom_allZeros cfg s m j rest hz
          rw [← ht] at hcv
          exact (ValidPath_cons.1 hcv.of_append_right).1
        rw [h1] at hcr
        cases hcr
  · exact Or.inl rfl

/-- Rule 2: the scan completed and a frame above the high-water mark is left. -/
theorem alloc_rule2 {cfg : Config} {s : State} (hF : Feasible cfg) (hI : TreeInv cfg s)
    {cur : List Nat} (hcv : ValidPath cfg cur) (hcl : cur.length < cfg.TABLES_DEPTH)
    {excl : Nat} {sc : Scan}
    (hd : ScanDone cfg s excl 0 0 (cfg.TABLES_DEPTH - 1) (List.range (PAGE_SIZE cfg))
      Scan.init sc)
    (hlt : sc.maxIndex + 1 < NUM_FRAMES cfg) :
    AllocSpec cfg s cur (sc.maxIndex + 1, s) := by
  have hdp := hF.depth_pos
  have hle : ∀ g, Linked cfg s g → g ≤ sc.maxIndex := by
    rintro g ⟨p, hv, hl, hne, hr⟩
    cases p with
    | nil => exact absurd rfl hne
    | cons i q =>
      exact hd.max_ge i q g (List.mem_range.2 (ValidPath_cons.1 hv).1) hv
        (by simp at hl; omega) hr
  have hne : ∀ p, ValidPath cfg p → p.length ≤ cfg.TABLES_DEPTH →
      resolve cfg s p ≠ some (sc.maxIndex + 1) := by
    intro p hv hl hr
    cases p with
    | nil => cases hr
    | cons i q =>
      have := hle _ ⟨i :: q, hv, hl, by simp, hr⟩
      omega
  have hres : ∀ p, ValidPath cfg p → p.length ≤ cfg.TABLES_DEPTH →
      resolve cfg s p
        = if resolve cfg s p = some (sc.maxIndex + 1) then none else resolve cfg s p :=
    fun p hv hl => by rw [if_neg (hne p hv hl)]
  have hram : ∀ a, s.ram a = s.ram a ∨ s.ram a = 0 := fun a => Or.inl rfl
  refine ⟨TreeHole.of_formula hI hres hram (Nat.succ_pos _) hlt (Or.inr ⟨?_, ?_⟩),
    hres, hram, fun _ _ _ _ _ => rfl, fun c _ => ?_, Or.inl rfl⟩
  · intro g hg
    have := hle g hg
    omega
  · intro g hg1 hg2
    rcases hd.max_attained with h | ⟨i, q, _, hv, hq, hr⟩
    · have : sc.maxIndex = 0 := h
      omega
    · exact hI.closed sc.maxIndex g ⟨i :: q, hv, by simp; omega, by simp, hr⟩ hg1 (by omega)
  · rename_i hc
    exact hne c (hcv.of_prefix hc) (le_trans hc.length_le (le_of_lt hcl))

/-- Rule 3: the scan completed and no frame above the high-water mark is
left; the victim the scan recorded is a resident data page, which is evicted. -/
theorem alloc_rule3 {cfg : Config} {s : State} (hF : Feasible cfg) (hI : TreeInv cfg s)
    {cur : List Nat} (hcv : ValidPath cfg cur) (hcl : cur.length < cfg.TABLES_DEPTH)
    {excl : Nat} (hcr : resolve cfg s cur = some excl) {sc : Scan}
    (hd : ScanDone cfg s excl 0 0 (cfg.TABLES_DEPTH - 1) (List.range (PAGE_SIZE cfg))
      Scan.init sc)
    (hge : ¬ sc.maxIndex + 1 < NUM_FRAMES cfg) :
    AllocSpec cfg s cur (toU64 sc.indexMaxDistance,
      PMwrite (PMevict cfg s (toU64 sc.indexMaxDistance) sc.pageMaxDist)
        sc.cyclicFrameFatherAddress 0) := by
  have hdp := hF.depth_pos
  have hNF := hF.frames_suffice
  -- every frame is held by a parent slot
  have hall : ∀ g, 1 ≤ g → g < NUM_FRAMES cfg → Linked cfg s g := by
    intro g hg1 hg2
    rcases hd.max_attained with h | ⟨i, q, _, hv, hq, hr⟩
    · have : sc.maxIndex = 0 := h
      omega
    · exact hI.closed sc.maxIndex g ⟨i :: q, hv, by simp; omega, by simp, hr⟩ hg1 (by omega)
  -- so a data page is resident, and the scan has recorded one
  obtain ⟨p0, hv0, hl0, hs0⟩ := exists_data_page hF hI hcv hcl hcr
    (fun i q u hv hq hr => hd.noEmpty i q u (List.mem_range.2 (ValidPath_cons.1 hv).1) hv hq hr)
    hall
  have hvic : VictimIn cfg s 0 0 (cfg.TABLES_DEPTH - 1) sc := by
    apply hd.victim_found rfl
    cases p0 with
    | nil => simp at hl0; omega
    | cons i q =>
      exact ⟨i, q, List.mem_range.2 (ValidPath_cons.1 hv0).1, hv0,
        by simp at hl0; omega, hs0⟩
  obtain ⟨q, i, u, hv, hql, hi, hu, hne0, hidx, hpage, hfather⟩ := hvic
  have hu1 : resolve cfg s q = some u := hu
  have hql1 : q.length < cfg.TABLES_DEPTH := by omega
  obtain ⟨m, hmN, hem⟩ := hI.range q u i hv hql1 hu1 hi
  have hm : m < 18446744073709551616 := lt_of_lt_of_le hmN hF.frames_fit
  have hm0 : m ≠ 0 := by
    rintro rfl
    exact hne0 hem
  have hto : toU64 sc.indexMaxDistance = m := by rw [hidx, hem, toU64_natCast m hm]
  rw [hto, hfather, hpage]
  have hqf : resolve cfg s (q ++ [i]) = some m := resolve_snoc_natCast hu1 hm hem hm0
  have hvqf : ValidPath cfg (q ++ [i]) := ValidPath_append.2 ⟨hv, ValidPath_singleton hi⟩
  have hlqf : (q ++ [i]).length = cfg.TABLES_DEPTH := by simp; omega
  have hleaf : ∀ j rest, ValidPath cfg (j :: rest) →
      (q ++ [i] ++ j :: rest).length ≤ cfg.TABLES_DEPTH →
      resolveFrom cfg s m (j :: rest) = none := by
    intro j rest _ hl
    simp at hl
    omega
  have hs1r : ∀ a, (PMwrite (PMevict cfg s m (encodeFrom cfg 0 (q ++ [i])))
      (u * PAGE_SIZE cfg + i) 0).ram a
      = if a = u * PAGE_SIZE cfg + i then 0 else s.ram a := fun a => by
    rw [PMwrite_ram, PMevict_ram]
  apply AllocSpec.of_unlink hF hI hv hql1 hu1 hi hmN hem hm0 hleaf hs1r
  · intro p o hvp hlp ho
    have hform : resolve cfg (PMwrite (PMevict cfg s m (encodeFrom cfg 0 (q ++ [i])))
          (u * PAGE_SIZE cfg + i) 0) p
        = if resolve cfg s p = some m then none else resolve cfg s p :=
      resolve_unlink hI.inj hv hql1 hu1 hi hm hem hm0 hleaf (by rw [hs1r, if_pos rfl])
        (fun a ha => by rw [hs1r, if_neg ha]) hvp (le_of_eq hlp)
    unfold pageWord
    by_cases hpq : p = q ++ [i]
    · rw [hform, hpq, hqf, if_pos rfl]
      show (PMevict cfg s m (encodeFrom cfg 0 (q ++ [i]))).swap (encodeFrom cfg 0 (q ++ [i])) o
        = s.ram (m * PAGE_SIZE cfg + o)
      rw [PMevict_swap, if_pos ⟨rfl, ho⟩]
    · have hne1 : resolve cfg s p ≠ some m := by
        intro hc
        exact hpq (hI.inj p (q ++ [i]) m hvp hvqf (le_of_eq hlp) (le_of_eq hlqf) hc hqf)
      rw [hform, if_neg hne1]
      cases hrp : resolve cfg s p with
      | none =>
        show (PMevict cfg s m (encodeFrom cfg 0 (q ++ [i]))).swap (encodeFrom cfg 0 p) o
          = s.swap (encodeFrom cfg 0 p) o
        rw [PMevict_swap, if_neg]
        rintro ⟨h1, _⟩
        exact hpq (encodeFrom_inj cfg p (q ++ [i]) 0 0 hvp hvqf (by rw [hlp, hlqf]) h1).2
      | some g =>
        show (PMwrite (PMevict cfg s m (encodeFrom cfg 0 (q ++ [i])))
          (u * PAGE_SIZE cfg + i) 0).ram (g * PAGE_SIZE cfg + o) = _
        rw [hs1r, if_neg]
        exact table_slot_ne_data_word hI.inj hvp hv hlp hql1 hrp hu1 ho hi
  · intro c hc hrc
    have := hI.inj c (q ++ [i]) m (hcv.of_prefix hc) hvqf
      (le_trans hc.length_le (le_of_lt hcl)) (le_of_eq hlqf) hrc hqf
    have h2 := hc.length_le
    rw [this, hlqf] at h2
    omega
  · exact Or.inr ⟨m, encodeFrom cfg 0 (q ++ [i]), rfl⟩

/-- The guarantee of `getNextTable` to a walker standing at table `excl`, the
end of walk `cur`, in a tree that satisfies the invariant. -/
theorem getNextTable_spec {cfg : Config} {s : State} (hF : Feasible cfg) (hI : TreeInv cfg s)
    {cur : List Nat} (hcv : ValidPath cfg cur) (hcl : cur.length < cfg.TABLES_DEPTH)
    {excl : Nat} (hcr : resolve cfg s cur = some excl) (P : Nat) :
    AllocSpec cfg s cur (getNextTable cfg s excl P) := by
  unfold getNextTable
  rcases traverseTree_spec cfg s excl P (cfg.TABLES_DEPTH - 1) 0 0 Scan.init (hI.goodSub hF)
    with ⟨h1, h2, h3⟩ | hf
  · have hn : ¬ (traverseTree cfg (cfg.TABLES_DEPTH - 1) 0 excl P 0 s Scan.init).1 > 0 := by
      rw [h1]
      decide
    simp only [if_neg hn]
    by_cases hlt : (traverseTree cfg (cfg.TABLES_DEPTH - 1) 0 excl P 0 s Scan.init).2.2.maxIndex
        + 1 < NUM_FRAMES cfg
    · simp only [if_pos hlt, h2]
      exact alloc_rule2 hF hI hcv hcl h3 hlt
    · simp only [if_neg hlt, h2]
      exact alloc_rule3 hF hI hcv hcl hcr h3 hlt
  · have hp : (traverseTree cfg (cfg.TABLES_DEPTH - 1) 0 excl P 0 s Scan.init).1 > 0 := by
      obtain ⟨_, _, _, _, _, _, _, _, hpos, _⟩ := hf
      exact hpos
    simp only [if_pos hp]
    exact alloc_rule1 hF hI hcv hcl hcr hf

/-! ## Installing the frame the allocator returned -/

theorem TreeHole.not_resolve {cfg : Config} {s : State} {f : Nat} (hH : TreeHole cfg s f)
    {c : List Nat} (hv : ValidPath cfg c) (hl : c.length ≤ cfg.TABLES_DEPTH) :
    resolve cfg s c ≠ some f := by
  intro hr
  cases c with
  | nil =>
    cases hr
    exact absurd hH.pos (by decide)
  | cons i q => exact hH.fresh ⟨i :: q, hv, hl, by simp, hr⟩

theorem frame_of_address (cfg : Config) {a u f j : Nat} (hj : j < PAGE_SIZE cfg)
    (ha : a = u * PAGE_SIZE cfg + j)
    (h : f * PAGE_SIZE cfg ≤ a ∧ a < f * PAGE_SIZE cfg + PAGE_SIZE cfg) : u = f := by
  have h1 : a - f * PAGE_SIZE cfg < PAGE_SIZE cfg := by omega
  have h2 : u * PAGE_SIZE cfg + j = f * PAGE_SIZE cfg + (a - f * PAGE_SIZE cfg) := by omega
  exact (slot_address_inj cfg hj h1 h2).1

theorem Installed.table_ne {cfg : Config} {s1 s3 : State} {cur : List Nat} {t row f : Nat}
    (h : Installed cfg s1 s3 cur t row f) (hH : TreeHole cfg s1 f) : t ≠ f := by
  intro e
  exact hH.not_resolve h.curValid (le_of_lt h.curLen) (by rw [h.curRes, e])

theorem Installed.slot {cfg : Config} {s1 s3 : State} {cur : List Nat} {t row f : Nat}
    (h : Installed cfg s1 s3 cur t row f) (hH : TreeHole cfg s1 f) :
    s3.ram (t * PAGE_SIZE cfg + row) = (f : Int) := by
  rw [h.outside, if_pos rfl]
  intro hc
  exact h.table_ne hH (frame_of_address cfg h.rowLt rfl hc)

theorem Installed.off_path {cfg : Config} {s1 s3 : State} {cur : List Nat} {t row f : Nat}
    (h : Installed cfg s1 s3 cur t row f) (hH : TreeHole cfg s1 f) {p : List Nat}
    (hv : ValidPath cfg p) (hl : p.length ≤ cfg.TABLES_DEPTH)
    (hnp : ¬ (cur ++ [row]) <+: p) : resolve cfg s3 p = resolve cfg s1 p := by
  apply resolve_congr
  intro c j r u hp hc
  have hvc : ValidPath cfg c := by rw [hp] at hv; exact hv.of_append_left
  have hj : j < PAGE_SIZE cfg := by
    rw [hp] at hv
    exact (ValidPath_cons.1 hv.of_append_right).1
  have hlc : c.length ≤ cfg.TABLES_DEPTH := by
    rw [hp] at hl
    simp only [List.length_append, List.length_cons] at hl
    omega
  rw [h.outside, if_neg]
  · intro heq
    obtain ⟨e1, e2⟩ := slot_address_inj cfg hj h.rowLt heq
    subst e1 e2
    have := hH.inj c cur u hvc h.curValid hlc (le_of_lt h.curLen) hc h.curRes
    subst this
    exact hnp ⟨r, by rw [hp]; simp⟩
  · intro hin
    have := frame_of_address cfg hj rfl hin
    subst this
    exact hH.not_resolve hvc hlc hc

/-- After the installation the walk `cur ++ [row]` ends in `f`; every other
walk resolves as before. -/
theorem Installed.resolve_eq {cfg : Config} {s1 s3 : State} {cur : List Nat} {t row f : Nat}
    (h : Installed cfg s1 s3 cur t row f) (hF : Feasible cfg) (hH : TreeHole cfg s1 f)
    {p : List Nat} (hv : ValidPath cfg p) (hl : p.length ≤ cfg.TABLES_DEPTH) :
    resolve cfg s3 p = if p = cur ++ [row] then some f else resolve cfg s1 p := by
  have hf64 : f < 18446744073709551616 := lt_of_lt_of_le hH.lt hF.frames_fit
  have hf0 : f ≠ 0 := Nat.pos_iff_ne_zero.1 hH.pos
  by_cases hpre : (cur ++ [row]) <+: p
  · obtain ⟨r, hr⟩ := hpre
    have hcur3 : resolve cfg s3 cur = some t := by
      rw [h.off_path hH h.curValid (le_of_lt h.curLen), h.curRes]
      intro hc
      have := hc.length_le
      simp at this
    have h3 : resolve cfg s3 p = resolveFrom cfg s3 f r := by
      rw [← hr, List.append_assoc, resolve_append, hcur3]
      show resolveFrom cfg s3 t (row :: r) = _
      rw [resolveFrom_cons_natCast cfg s3 t row f r hf64 (h.slot hH) hf0]
    cases r with
    | nil =>
      rw [List.append_nil] at hr
      rw [h3, if_pos hr.symm]
      rfl
    | cons j rest =>
      have hlen : cur.length + 1 < cfg.TABLES_DEPTH := by
        rw [← hr] at hl
        simp at hl
        omega
      have hj : j < PAGE_SIZE cfg := by
        rw [← hr] at hv
        exact (ValidPath_cons.1 hv.of_append_right).1
      rw [h3, resolveFrom_cons_zero cfg s3 f j rest (h.cleared hlen j hj), if_neg]
      · rw [← hr, List.append_assoc, resolve_append, h.curRes]
        show none = resolveFrom cfg s1 t (row :: (j :: rest))
        rw [resolveFrom_cons_zero cfg s1 t row _ h.slotZero]
      · intro hc
        rw [hc] at hr
        simp at hr
  · rw [h.off_path hH hv hl hpre, if_neg]
    intro hc
    exact hpre ⟨[], by rw [hc]; simp⟩

theorem Installed.linked_iff {cfg : Config} {s1 s3 : State} {cur : List Nat} {t row f : Nat}
    (h : Installed cfg s1 s3 cur t row f) (hF : Feasible cfg) (hH : TreeHole cfg s1 f)
    (x : Nat) : Linked cfg s3 x ↔ x = f ∨ Linked cfg s1 x := by
  constructor
  · rintro ⟨p, hv, hl, hne, hr⟩
    rw [h.resolve_eq hF hH hv hl] at hr
    by_cases hp : p = cur ++ [row]
    · rw [if_pos hp] at hr
      cases hr
      exact Or.inl rfl
    · rw [if_neg hp] at hr
      exact Or.inr ⟨p, hv, hl, hne, hr⟩
  · rintro (rfl | ⟨p, hv, hl, hne, hr⟩)
    · have hv : ValidPath cfg (cur ++ [row]) :=
        ValidPath_append.2 ⟨h.curValid, ValidPath_singleton h.rowLt⟩
      have hl : (cur ++ [row]).length ≤ cfg.TABLES_DEPTH := by
        have := h.curLen
        simp
        omega
      exact ⟨cur ++ [row], hv, hl, by simp, by rw [h.resolve_eq hF hH hv hl, if_pos rfl]⟩
    · refine ⟨p, hv, hl, hne, ?_⟩
      rw [h.resolve_eq hF hH hv hl, if_neg, hr]
      intro hp
      rw [hp, resolve_append, h.curRes] at hr
      have : resolveFrom cfg s1 t [row] = none :=
        resolveFrom_cons_zero cfg s1 t row [] h.slotZero
      rw [show (some t).bind (fun u => resolveFrom cfg s1 u [row])
        = resolveFrom cfg s1 t [row] from rfl, this] at hr
      cases hr

/-- The invariant holds again once the frame is installed. -/
theorem Installed.treeInv_installed {cfg : Config} {s1 s3 : State} {cur : List Nat} {t row f : Nat}
    (h : Installed cfg s1 s3 cur t row f) (hF : Feasible cfg) (hH : TreeHole cfg s1 f) :
    TreeInv cfg s3 := by
  refine ⟨?_, ?_, ?_⟩
  · intro p u i hv hl hr hi
    rw [h.resolve_eq hF hH hv (le_of_lt hl)] at hr
    by_cases hp : p = cur ++ [row]
    · rw [if_pos hp] at hr
      cases hr
      have hlen : cur.length + 1 < cfg.TABLES_DEPTH := by
        rw [hp] at hl
        simpa using hl
      exact ⟨0, hF.frames_pos, by rw [h.cleared hlen i hi]; rfl⟩
    · rw [if_neg hp] at hr
      have huf : u ≠ f := by
        rintro rfl
        exact hH.not_resolve hv (le_of_lt hl) hr
      rw [h.outside]
      · split_ifs
        · exact ⟨f, hH.lt, rfl⟩
        · exact hH.range p u i hv hl hr hi
      · intro hin
        exact huf (frame_of_address cfg hi rfl hin)
  · intro p q g hvp hvq hlp hlq hp hq
    rw [h.resolve_eq hF hH hvp hlp] at hp
    rw [h.resolve_eq hF hH hvq hlq] at hq
    by_cases hp1 : p = cur ++ [row]
    · by_cases hq1 : q = cur ++ [row]
      · rw [hp1, hq1]
      · rw [if_pos hp1] at hp
        rw [if_neg hq1] at hq
        cases hp
        exact absurd hq (hH.not_resolve hvq hlq)
    · by_cases hq1 : q = cur ++ [row]
      · rw [if_neg hp1] at hp
        rw [if_pos hq1] at hq
        cases hq
        exact absurd hp (hH.not_resolve hvp hlp)
      · rw [if_neg hp1] at hp
        rw [if_neg hq1] at hq
        exact hH.inj p q g hvp hvq hlp hlq hp hq
  · intro f1 g hf1 hg1 hg2
    rw [h.linked_iff hF hH] at hf1 ⊢
    rcases hf1 with rfl | hf1
    · rcases Nat.eq_or_lt_of_le hg2 with e | e
      · exact Or.inl e
      · exact Or.inr (hH.below g hg1 e)
    · exact hH.closed f1 g hf1 hg1 hg2

/-- The installation leaves the words of every page other than the one
installed as they were. -/
theorem Installed.word_other {cfg : Config} {s1 s3 : State} {cur : List Nat} {t row f : Nat}
    (h : Installed cfg s1 s3 cur t row f) (hF : Feasible cfg) (hH : TreeHole cfg s1 f)
    (hswap : s3.swap = s1.swap) {p : List Nat} {o : Nat} (hv : ValidPath cfg p)
    (hl : p.length = cfg.TABLES_DEPTH) (ho : o < PAGE_SIZE cfg) (hp : p ≠ cur ++ [row]) :
    pageWord cfg s3 p o = pageWord cfg s1 p o := by
  unfold pageWord
  rw [h.resolve_eq hF hH hv (le_of_eq hl), if_neg hp]
  cases hr : resolve cfg s1 p with
  | none =>
    show s3.swap _ _ = s1.swap _ _
    rw [hswap]
  | some g =>
    show s3.ram (g * PAGE_SIZE cfg + o) = s1.ram (g * PAGE_SIZE cfg + o)
    rw [h.outside, if_neg]
    · exact table_slot_ne_data_word hH.inj hv h.curValid hl h.curLen hr h.curRes ho h.rowLt
    · intro hin
      have := frame_of_address cfg ho rfl hin
      subst this
      exact hH.not_resolve hv (le_of_eq hl) hr

/-! ## Address decoding -/

theorem pow_rowMask (cfg : Config) (n : Nat) :
    2 ^ (cfg.OFFSET_WIDTH + n * cfg.OFFSET_WIDTH) = PAGE_SIZE cfg ^ (n + 1) := by
  unfold PAGE_SIZE
  rw [← pow_mul]
  congr 1
  ring

theorem rows_zero (cfg : Config) (va : Nat) :
    rows cfg 0 va = [va / PAGE_SIZE cfg ^ 1] := by
  unfold rows
  rw [Nat.shiftRight_eq_div_pow, pow_rowMask]

theorem rows_succ (cfg : Config) (n va : Nat) :
    rows cfg (n + 1) va
      = (va / PAGE_SIZE cfg ^ (n + 2)) :: rows cfg n (va % PAGE_SIZE cfg ^ (n + 2)) := by
  rw [rows, Nat.shiftRight_eq_div_pow, pow_rowMask]

theorem rows_length (cfg : Config) (n va : Nat) : (rows cfg n va).length = n + 1 := by
  induction n generalizing va with
  | zero => rw [rows_zero]; rfl
  | succ n ih => rw [rows_succ, List.length_cons, ih]

theorem rows_valid (cfg : Config) (n va : Nat) (h : va < PAGE_SIZE cfg ^ (n + 2)) :
    ValidPath cfg (rows cfg n va) := by
  induction n generalizing va with
  | zero =>
    rw [rows_zero]
    apply ValidPath_singleton
    rw [pow_one]
    apply Nat.div_lt_of_lt_mul
    rw [← pow_two]
    exact h
  | succ n ih =>
    rw [rows_succ]
    apply ValidPath_cons.2
    constructor
    · apply Nat.div_lt_of_lt_mul
      rw [← pow_succ]
      exact h
    · apply ih
      exact Nat.mod_lt _ (pow_pos (PAGE_SIZE_pos cfg) _)

theorem encodeFrom_rows (cfg : Config) (n va acc : Nat) :
    encodeFrom cfg acc (rows cfg n va)
      = acc * PAGE_SIZE cfg ^ (n + 1) + va / PAGE_SIZE cfg := by
  induction n generalizing va acc with
  | zero =>
    rw [rows_zero]
    show (acc <<< cfg.OFFSET_WIDTH) + va / PAGE_SIZE cfg ^ 1 = _
    simp only [shiftLeft_offset, pow_one, zero_add]
  | succ n ih =>
    rw [rows_succ]
    show encodeFrom cfg ((acc <<< cfg.OFFSET_WIDTH) + va / PAGE_SIZE cfg ^ (n + 2))
      (rows cfg n (va % PAGE_SIZE cfg ^ (n + 2))) = _
    rw [ih, shiftLeft_offset]
    have hP := PAGE_SIZE_pos cfg
    have hsplit : va / PAGE_SIZE cfg
        = (va / PAGE_SIZE cfg ^ (n + 2)) * PAGE_SIZE cfg ^ (n + 1)
          + (va % PAGE_SIZE cfg ^ (n + 2)) / PAGE_SIZE cfg := by
      conv_lhs => rw [← Nat.div_add_mod va (PAGE_SIZE cfg ^ (n + 2))]
      rw [show PAGE_SIZE cfg ^ (n + 2) * (va / PAGE_SIZE cfg ^ (n + 2))
        = PAGE_SIZE cfg * (PAGE_SIZE cfg ^ (n + 1) * (va / PAGE_SIZE cfg ^ (n + 2))) by ring]
      rw [Nat.mul_add_div hP]
      ring
    rw [hsplit]
    ring

theorem pagePath_spec {cfg : Config} (hF : Feasible cfg) {A : Nat}
    (hA : A < 2 ^ cfg.VIRTUAL_ADDRESS_WIDTH) :
    ValidPath cfg (pagePath cfg A) ∧ (pagePath cfg A).length = cfg.TABLES_DEPTH
    ∧ encodeFrom cfg 0 (pagePath cfg A) = A >>> cfg.OFFSET_WIDTH := by
  have hd := hF.depth_pos
  have hlt : A < PAGE_SIZE cfg ^ (cfg.TABLES_DEPTH - 1 + 2) := by
    unfold PAGE_SIZE
    rw [← pow_mul]
    apply lt_of_lt_of_le hA
    apply Nat.pow_le_pow_right (by decide)
    have := hF.depth_covers
    have : cfg.TABLES_DEPTH - 1 + 2 = cfg.TABLES_DEPTH + 1 := by omega
    rw [this]
    assumption
  unfold pagePath
  refine ⟨rows_valid cfg _ A hlt, ?_, ?_⟩
  · rw [rows_length]
    omega
  · rw [encodeFrom_rows, Nat.shiftRight_eq_div_pow]
    simp [PAGE_SIZE]

/-! ## The walker -/

theorem VMreadWriteHelper_zero (cfg : Config) (A : Nat) (w : Bool) (va : Nat) (v : Int)
    (t : Nat) (s : State) :
    VMreadWriteHelper cfg A w 0 va v t s
      = if s.ram (t * PAGE_SIZE cfg + va >>> (cfg.OFFSET_WIDTH + 0 * cfg.OFFSET_WIDTH)) = 0 then
          (if w = true then
            (1, v, PMwrite (PMrestore cfg (PMwrite (getNextTable cfg s t (A >>> cfg.OFFSET_WIDTH)).2
                (t * PAGE_SIZE cfg + va >>> (cfg.OFFSET_WIDTH + 0 * cfg.OFFSET_WIDTH))
                ((getNextTable cfg s t (A >>> cfg.OFFSET_WIDTH)).1 : Int))
              (getNextTable cfg s t (A >>> cfg.OFFSET_WIDTH)).1 (A >>> cfg.OFFSET_WIDTH))
              ((getNextTable cfg s t (A >>> cfg.OFFSET_WIDTH)).1 * PAGE_SIZE cfg
                + A % 2 ^ cfg.OFFSET_WIDTH) v)
          else
            (1, (PMrestore cfg (PMwrite (getNextTable cfg s t (A >>> cfg.OFFSET_WIDTH)).2
                (t * PAGE_SIZE cfg + va >>> (cfg.OFFSET_WIDTH + 0 * cfg.OFFSET_WIDTH))
                ((getNextTable cfg s t (A >>> cfg.OFFSET_WIDTH)).1 : Int))
              (getNextTable cfg s t (A >>> cfg.OFFSET_WIDTH)).1 (A >>> cfg.OFFSET_WIDTH)).ram
              ((getNextTable cfg s t (A >>> cfg.OFFSET_WIDTH)).1 * PAGE_SIZE cfg
                + A % 2 ^ cfg.OFFSET_WIDTH),
             PMrestore cfg (PMwrite (getNextTable cfg s t (A >>> cfg.OFFSET_WIDTH)).2
                (t * PAGE_SIZE cfg + va >>> (cfg.OFFSET_WIDTH + 0 * cfg.OFFSET_WIDTH))
                ((getNextTable cfg s t (A >>> cfg.OFFSET_WIDTH)).1 : Int))
              (getNextTable cfg s t (A >>> cfg.OFFSET_WIDTH)).1 (A >>> cfg.OFFSET_WIDTH)))
        else
          (if w = true then
            (1, v, PMwrite s
              (toU64 (s.ram (t * PAGE_SIZE cfg
                + va >>> (cfg.OFFSET_WIDTH + 0 * cfg.OFFSET_WIDTH))) * PAGE_SIZE cfg
                + A % 2 ^ cfg.OFFSET_WIDTH) v)
          else
            (1, s.ram (toU64 (s.ram (t * PAGE_SIZE cfg
                + va >>> (cfg.OFFSET_WIDTH + 0 * cfg.OFFSET_WIDTH))) * PAGE_SIZE cfg
                + A % 2 ^ cfg.OFFSET_WIDTH), s)) := by
  rw [VMreadWriteHelper]
  rfl

theorem VMreadWriteHelper_succ (cfg : Config) (A : Nat) (w : Bool) (n va : Nat) (v : Int)
    (t : Nat) (s : State) :
    VMreadWriteHelper cfg A w (n + 1) va v t s
      = if s.ram (t * PAGE_SIZE cfg
            + va >>> (cfg.OFFSET_WIDTH + (n + 1) * cfg.OFFSET_WIDTH)) = 0 then
          VMreadWriteHelper cfg A w n
            (va % 2 ^ (cfg.OFFSET_WIDTH + (n + 1) * cfg.OFFSET_WIDTH)) v
            (getNextTable cfg s t (A >>> cfg.OFFSET_WIDTH)).1
            (clearTable cfg (PMwrite (getNextTable cfg s t (A >>> cfg.OFFSET_WIDTH)).2
                (t * PAGE_SIZE cfg + va >>> (cfg.OFFSET_WIDTH + (n + 1) * cfg.OFFSET_WIDTH))
                ((getNextTable cfg s t (A >>> cfg.OFFSET_WIDTH)).1 : Int))
              (getNextTable cfg s t (A >>> cfg.OFFSET_WIDTH)).1)
        else
          VMreadWriteHelper cfg A w n
            (va % 2 ^ (cfg.OFFSET_WIDTH + (n + 1) * cfg.OFFSET_WIDTH)) v
            (toU64 (s.ram (t * PAGE_SIZE cfg
              + va >>> (cfg.OFFSET_WIDTH + (n + 1) * cfg.OFFSET_WIDTH)))) s := by
  rw [VMreadWriteHelper]
  rfl

theorem PMrestore_ram (cfg : Config) (s : State) (f p a : Nat) :
    (PMrestore cfg s f p).ram a
      = if f * PAGE_SIZE cfg ≤ a ∧ a < f * PAGE_SIZE cfg + PAGE_SIZE cfg
        then s.swap p (a - f * PAGE_SIZE cfg) else s.ram a := rfl

theorem PMrestore_swap (cfg : Config) (s : State) (f p : Nat) :
    (PMrestore cfg s f p).swap = s.swap := rfl

theorem PMrestore_log (cfg : Config) (s : State) (f p : Nat) :
    (PMrestore cfg s f p).log = s.log ++ [Event.restore f p] := rfl

/-- A write into a resident data frame leaves every walk as it was. -/
theorem resolve_data_write {cfg : Config} {s : State} (hI : TreeInv cfg s) {pp : List Nat}
    {f off : Nat} (hvp : ValidPath cfg pp) (hlp : pp.length = cfg.TABLES_DEPTH)
    (hr : resolve cfg s pp = some f) (ho : off < PAGE_SIZE cfg) (v : Int)
    {p : List Nat} (hv : ValidPath cfg p) (hl : p.length ≤ cfg.TABLES_DEPTH) :
    resolve cfg (PMwrite s (f * PAGE_SIZE cfg + off) v) p = resolve cfg s p := by
  apply resolve_congr
  intro c j r u hp hc
  have hvc : ValidPath cfg c := by rw [hp] at hv; exact hv.of_append_left
  have hj : j < PAGE_SIZE cfg := by
    rw [hp] at hv
    exact (ValidPath_cons.1 hv.of_append_right).1
  have hlc : c.length < cfg.TABLES_DEPTH := by
    rw [hp] at hl
    simp only [List.length_append, List.length_cons] at hl
    omega
  rw [PMwrite_ram, if_neg]
  exact fun e => table_slot_ne_data_word hI.inj hvp hvc hlp hlc hr hc ho hj e.symm

theorem treeInv_data_write {cfg : Config} {s : State} (hI : TreeInv cfg s) {pp : List Nat}
    {f off : Nat} (hvp : ValidPath cfg pp) (hlp : pp.length = cfg.TABLES_DEPTH)
    (hr : resolve cfg s pp = some f) (ho : off < PAGE_SIZE cfg) (v : Int) :
    TreeInv cfg (PMwrite s (f * PAGE_SIZE cfg + off) v) := by
  have hres := fun (p : List Nat) (hv : ValidPath cfg p) (hl : p.length ≤ cfg.TABLES_DEPTH) =>
    resolve_data_write hI hvp hlp hr ho v hv hl
  have hlink : ∀ g, Linked cfg (PMwrite s (f * PAGE_SIZE cfg + off) v) g ↔ Linked cfg s g := by
    intro g
    constructor
    · rintro ⟨q, hv, hl, hne, hq⟩
      exact ⟨q, hv, hl, hne, by rw [← hres q hv hl]; exact hq⟩
    · rintro ⟨q, hv, hl, hne, hq⟩
      exact ⟨q, hv, hl, hne, by rw [hres q hv hl]; exact hq⟩
  refine ⟨?_, ?_, ?_⟩
  · intro p t i hv hl hp hi
    rw [hres p hv (le_of_lt hl)] at hp
    rw [PMwrite_ram, if_neg]
    · exact hI.range p t i hv hl hp hi
    · exact fun e => table_slot_ne_data_word hI.inj hvp hv hlp hl hr hp ho hi e.symm
  · intro p q g hvp1 hvq hlp1 hlq hp hq
    rw [hres p hvp1 hlp1] at hp
    rw [hres q hvq hlq] at hq
    exact hI.inj p q g hvp1 hvq hlp1 hlq hp hq
  · intro f1 g hf1 hg1 hg2
    rw [hlink] at hf1 ⊢
    exact hI.closed f1 g hf1 hg1 hg2

theorem pageWord_data_write {cfg : Config} {s : State} (hI : TreeInv cfg s) {pp : List Nat}
    {f off : Nat} (hvp : ValidPath cfg pp) (hlp : pp.length = cfg.TABLES_DEPTH)
    (hr : resolve cfg s pp = some f) (ho : off < PAGE_SIZE cfg) (v : Int)
    {p : List Nat} {o : Nat} (hv : ValidPath cfg p) (hl : p.length = cfg.TABLES_DEPTH)
    (ho1 : o < PAGE_SIZE cfg) :
    pageWord cfg (PMwrite s (f * PAGE_SIZE cfg + off) v) p o
      = if p = pp ∧ o = off then v else pageWord cfg s p o := by
  unfold pageWord
  rw [resolve_data_write hI hvp hlp hr ho v hv (le_of_eq hl)]
  cases hp : resolve cfg s p with
  | none =>
    rw [if_neg]
    · rfl
    · rintro ⟨e, _⟩
      rw [e, hr] at hp
      cases hp
  | some g =>
    show (PMwrite s (f * PAGE_SIZE cfg + off) v).ram (g * PAGE_SIZE cfg + o) = _
    rw [PMwrite_ram]
    by_cases hc : p = pp ∧ o = off
    · obtain ⟨e1, e2⟩ := hc
      subst e1 e2
      rw [hr] at hp
      cases hp
      simp
    · rw [if_neg hc, if_neg]
      intro e
      obtain ⟨e1, e2⟩ := slot_address_inj cfg ho1 ho e
      subst e1
      exact hc ⟨hI.inj p pp g hv hvp (le_of_eq hl) (le_of_eq hlp) hp hr, e2⟩

theorem pageWord_resident {cfg : Config} {s : State} {p : List Nat} {f : Nat}
    (hr : resolve cfg s p = some f) (o : Nat) :
    pageWord cfg s p o = s.ram (f * PAGE_SIZE cfg + o) := by
  unfold pageWord
  rw [hr]

theorem pageWord_absent {cfg : Config} {s : State} {p : List Nat}
    (hr : resolve cfg s p = none) (o : Nat) :
    pageWord cfg s p o = s.swap (encodeFrom cfg 0 p) o := by
  unfold pageWord
  rw [hr]

theorem AllocSpec.curRes {cfg : Config} {s : State} {cur : List Nat} {a : Nat × State}
    (hA : AllocSpec cfg s cur a) (hcv : ValidPath cfg cur)
    (hcl : cur.length < cfg.TABLES_DEPTH) {t : Nat} (hcr : resolve cfg s cur = some t) :
    resolve cfg a.2 cur = some t := by
  rw [hA.res cur hcv (le_of_lt hcl), if_neg (hA.excl cur List.prefix_rfl), hcr]

theorem AllocSpec.slotZero {cfg : Config} {s : State} {cur : List Nat} {a : Nat × State}
    (hA : AllocSpec cfg s cur a) {x : Nat} (hz : s.ram x = 0) : a.2.ram x = 0 := by
  rcases hA.ram x with h | h
  · rw [h, hz]
  · exact h

/-- An interior-level miss: allocate, write the parent slot, clear the frame. -/
theorem installed_interior {cfg : Config} {s : State} {cur : List Nat} {a : Nat × State}
    (hA : AllocSpec cfg s cur a) (hcv : ValidPath cfg cur)
    (hcl : cur.length < cfg.TABLES_DEPTH) {t row : Nat} (hcr : resolve cfg s cur = some t)
    (hrow : row < PAGE_SIZE cfg) (hz : s.ram (t * PAGE_SIZE cfg + row) = 0) :
    Installed cfg a.2
      (clearTable cfg (PMwrite a.2 (t * PAGE_SIZE cfg + row) (a.1 : Int)) a.1) cur t row a.1 where
  curValid := hcv
  curLen := hcl
  curRes := hA.curRes hcv hcl hcr
  rowLt := hrow
  slotZero := hA.slotZero hz
  outside := fun x hx => by rw [clearTable_ram, if_neg hx, PMwrite_ram]
  cleared := fun _ j hj => by
    rw [clearTable_ram, if_pos]
    exact ⟨Nat.le_add_right _ _, Nat.add_lt_add_left hj _⟩

/-- A leaf-level miss: allocate, write the parent slot, restore the page. -/
theorem installed_leaf {cfg : Config} {s : State} {cur : List Nat} {a : Nat × State}
    (hA : AllocSpec cfg s cur a) (hcv : ValidPath cfg cur)
    (hcl : cur.length + 1 = cfg.TABLES_DEPTH) {t row : Nat}
    (hcr : resolve cfg s cur = some t)
    (hrow : row < PAGE_SIZE cfg) (hz : s.ram (t * PAGE_SIZE cfg + row) = 0) (P : Nat) :
    Installed cfg a.2
      (PMrestore cfg (PMwrite a.2 (t * PAGE_SIZE cfg + row) (a.1 : Int)) a.1 P) cur t row a.1 where
  curValid := hcv
  curLen := by omega
  curRes := hA.curRes hcv (by omega) hcr
  rowLt := hrow
  slotZero := hA.slotZero hz
  outside := fun x hx => by rw [PMrestore_ram, if_neg hx, PMwrite_ram]
  cleared := fun h => by omega

theorem resolve_snoc_zero {cfg : Config} {s : State} {cur : List Nat} {t row : Nat}
    (hcr : resolve cfg s cur = some t) (hz : s.ram (t * PAGE_SIZE cfg + row) = 0)
    (r : List Nat) : resolve cfg s (cur ++ row :: r) = none := by
  rw [resolve_append, hcr]
  exact resolveFrom_cons_zero cfg s t row r hz

/-- The words of all pages after an interior-level miss are those before. -/
theorem word_interior_miss {cfg : Config} {s : State} (hF : Feasible cfg)
    {cur : List Nat} {a : Nat × State}
    (hA : AllocSpec cfg s cur a) (hcv : ValidPath cfg cur)
    (hcl : cur.length + 1 < cfg.TABLES_DEPTH) {t row : Nat}
    (hcr : resolve cfg s cur = some t)
    (hrow : row < PAGE_SIZE cfg) (hz : s.ram (t * PAGE_SIZE cfg + row) = 0)
    {p : List Nat} {o : Nat} (hv : ValidPath cfg p) (hl : p.length = cfg.TABLES_DEPTH)
    (ho : o < PAGE_SIZE cfg) :
    pageWord cfg (clearTable cfg (PMwrite a.2 (t * PAGE_SIZE cfg + row) (a.1 : Int)) a.1) p o
      = pageWord cfg s p o := by
  have hI := installed_interior hA hcv (by omega) hcr hrow hz
  rw [hI.word_other hF hA.hole (by rw [clearTable_swap, PMwrite_swap]) hv hl ho, hA.word p o hv hl ho]
  intro hc
  rw [hc] at hl
  simp at hl
  omega

/-- The words of all pages after a leaf-level miss (before the data access)
are those before: the page restored comes back with the words the backing
store held for it. -/
theorem word_leaf_miss {cfg : Config} {s : State} (hF : Feasible cfg)
    {cur : List Nat} {a : Nat × State}
    (hA : AllocSpec cfg s cur a) (hcv : ValidPath cfg cur)
    (hcl : cur.length + 1 = cfg.TABLES_DEPTH) {t row : Nat}
    (hcr : resolve cfg s cur = some t)
    (hrow : row < PAGE_SIZE cfg) (hz : s.ram (t * PAGE_SIZE cfg + row) = 0)
    {p : List Nat} {o : Nat} (hv : ValidPath cfg p) (hl : p.length = cfg.TABLES_DEPTH)
    (ho : o < PAGE_SIZE cfg) :
    pageWord cfg (PMrestore cfg (PMwrite a.2 (t * PAGE_SIZE cfg + row) (a.1 : Int)) a.1
        (encodeFrom cfg 0 (cur ++ [row]))) p o
      = pageWord cfg s p o := by
  have hI := installed_leaf hA hcv hcl hcr hrow hz (encodeFrom cfg 0 (cur ++ [row]))
  by_cases hp : p = cur ++ [row]
  · have h3 := hI.resolve_eq hF hA.hole hv (le_of_eq hl)
    rw [if_pos hp] at h3
    rw [pageWord_resident h3, PMrestore_ram, if_pos, PMwrite_swap]
    · have hs : resolve cfg s p = none := by
        rw [hp]
        exact resolve_snoc_zero hcr hz []
      have ha : resolve cfg a.2 p = none := by
        rw [hA.res p hv (le_of_eq hl), hs]
        rfl
      rw [← hA.word p o hv hl ho, pageWord_absent ha, hp]
      congr 1
      omega
    · exact ⟨Nat.le_add_right _ _, Nat.add_lt_add_left ho _⟩
  · rw [hI.word_other hF hA.hole (by rw [PMrestore_swap, PMwrite_swap]) hv hl ho hp,
      hA.word p o hv hl ho]

theorem WalkSpec.of_eq {cfg : Config} {s s3 : State} {pp : List Nat} {off : Nat} {w : Bool}
    {v : Int} {r : Int × Int × State} (h : WalkSpec cfg s3 pp off w v r)
    (hvp : ValidPath cfg pp) (hlp : pp.length = cfg.TABLES_DEPTH) (ho : off < PAGE_SIZE cfg)
    (he : ∀ p o, ValidPath cfg p → p.length = cfg.TABLES_DEPTH → o < PAGE_SIZE cfg →
      pageWord cfg s3 p o = pageWord cfg s p o) :
    WalkSpec cfg s pp off w v r where
  inv := h.inv
  resident := h.resident
  word := fun p o hv hl ho1 => by rw [h.word p o hv hl ho1, he p o hv hl ho1]
  value := by rw [h.value, he pp off hvp hlp ho]

/-- The data access at the leaf level, on a page that is resident. -/
theorem walkSpec_access {cfg : Config} {s : State} (hI : TreeInv cfg s) {pp : List Nat}
    {f off : Nat} (hvp : ValidPath cfg pp) (hlp : pp.length = cfg.TABLES_DEPTH)
    (hr : resolve cfg s pp = some f) (ho : off < PAGE_SIZE cfg) (w : Bool) (v : Int) :
    WalkSpec cfg s pp off w v
      (if w = true then (1, v, PMwrite s (f * PAGE_SIZE cfg + off) v)
       else (1, s.ram (f * PAGE_SIZE cfg + off), s)) := by
  cases w with
  | true =>
    rw [if_pos rfl]
    refine ⟨treeInv_data_write hI hvp hlp hr ho v, ⟨f, ?_⟩, ?_, ?_⟩
    · show resolve cfg (PMwrite s (f * PAGE_SIZE cfg + off) v) pp = some f
      rw [resolve_data_write hI hvp hlp hr ho v hvp (le_of_eq hlp), hr]
    · intro p o hv hl ho1
      show pageWord cfg (PMwrite s (f * PAGE_SIZE cfg + off) v) p o = _
      rw [pageWord_data_write hI hvp hlp hr ho v hv hl ho1]
      simp
    · simp
  | false =>
    rw [if_neg (by decide)]
    refine ⟨hI, ⟨f, hr⟩, ?_, ?_⟩
    · intro p o _ _ _
      simp
    · show s.ram (f * PAGE_SIZE cfg + off) = _
      rw [if_neg (by decide), pageWord_resident hr]

theorem rows_zero_eq (cfg : Config) (va : Nat) :
    rows cfg 0 va = [va >>> (cfg.OFFSET_WIDTH + 0 * cfg.OFFSET_WIDTH)] := rfl

theorem rows_succ_eq (cfg : Config) (n va : Nat) :
    rows cfg (n + 1) va
      = (va >>> (cfg.OFFSET_WIDTH + (n + 1) * cfg.OFFSET_WIDTH))
        :: rows cfg n (va % 2 ^ (cfg.OFFSET_WIDTH + (n + 1) * cfg.OFFSET_WIDTH)) := rfl

theorem offset_lt (cfg : Config) (A : Nat) : A % 2 ^ cfg.OFFSET_WIDTH < PAGE_SIZE cfg :=
  Nat.mod_lt _ (PAGE_SIZE_pos cfg)

/-- The walker: from a tree that satisfies the invariant and a table `t` at
the end of walk `cur`, with the slots still to read completing `cur` to the
walk `pp` of the page, `VMreadWriteHelper` meets `WalkSpec`. -/
theorem VMreadWriteHelper_spec {cfg : Config} (hF : Feasible cfg) (A : Nat) (w : Bool)
    (v : Int) {pp : List Nat} (hvp : ValidPath cfg pp) (hlp : pp.length = cfg.TABLES_DEPTH)
    (hpage : encodeFrom cfg 0 pp = A >>> cfg.OFFSET_WIDTH) :
    ∀ n va cur t s, TreeInv cfg s → cur ++ rows cfg n va = pp → resolve cfg s cur = some t →
      WalkSpec cfg s pp (A % 2 ^ cfg.OFFSET_WIDTH) w v
        (VMreadWriteHelper cfg A w n va v t s) := by
  have ho := offset_lt cfg A
  intro n
  induction n with
  | zero =>
    intro va cur t s hI hpp hcr
    rw [rows_zero_eq] at hpp
    have hcv : ValidPath cfg cur := by rw [← hpp] at hvp; exact hvp.of_append_left
    have hrow : va >>> (cfg.OFFSET_WIDTH + 0 * cfg.OFFSET_WIDTH) < PAGE_SIZE cfg := by
      rw [← hpp] at hvp
      exact (ValidPath_cons.1 hvp.of_append_right).1
    have hcl : cur.length + 1 = cfg.TABLES_DEPTH := by
      rw [← hpp] at hlp
      simpa using hlp
    rw [VMreadWriteHelper_zero]
    by_cases hz : s.ram (t * PAGE_SIZE cfg
        + va >>> (cfg.OFFSET_WIDTH + 0 * cfg.OFFSET_WIDTH)) = 0
    · rw [if_pos hz, ← hpage, ← hpp]
      have hA := getNextTable_spec hF hI hcv (by omega) hcr
        (encodeFrom cfg 0 (cur ++ [va >>> (cfg.OFFSET_WIDTH + 0 * cfg.OFFSET_WIDTH)]))
      have hIn := installed_leaf hA hcv hcl hcr hrow hz
        (encodeFrom cfg 0 (cur ++ [va >>> (cfg.OFFSET_WIDTH + 0 * cfg.OFFSET_WIDTH)]))
      have hI3 := hIn.treeInv_installed hF hA.hole
      have hvp1 := hvp
      have hlp1 := hlp
      rw [← hpp] at hvp1 hlp1
      have hr3 := hIn.resolve_eq hF hA.hole hvp1 (le_of_eq hlp1)
      rw [if_pos rfl] at hr3
      have hacc := walkSpec_access hI3 hvp1 hlp1 hr3 ho w v
      exact hacc.of_eq hvp1 hlp1 ho
        (fun p o hv hl ho1 => word_leaf_miss hF hA hcv hcl hcr hrow hz hv hl ho1)
    · rw [if_neg hz]
      obtain ⟨m, hmN, hem⟩ := hI.range cur t _ hcv (by omega) hcr hrow
      have hm : m < 18446744073709551616 := lt_of_lt_of_le hmN hF.frames_fit
      have hm0 : m ≠ 0 := by
        rintro rfl
        exact hz hem
      have hr : resolve cfg s pp = some m := by
        rw [← hpp]
        exact resolve_snoc_natCast hcr hm hem hm0
      rw [hem, toU64_natCast m hm]
      exact walkSpec_access hI hvp hlp hr ho w v
  | succ n ih =>
    intro va cur t s hI hpp hcr
    rw [rows_succ_eq] at hpp
    have hcv : ValidPath cfg cur := by rw [← hpp] at hvp; exact hvp.of_append_left
    have hrow : va >>> (cfg.OFFSET_WIDTH + (n + 1) * cfg.OFFSET_WIDTH) < PAGE_SIZE cfg := by
      rw [← hpp] at hvp
      exact (ValidPath_cons.1 hvp.of_append_right).1
    have hcl : cur.length + 1 < cfg.TABLES_DEPTH := by
      rw [← hpp] at hlp
      simp only [List.length_append, List.length_cons, rows_length] at hlp
      omega
    have hpp2 : (cur ++ [va >>> (cfg.OFFSET_WIDTH + (n + 1) * cfg.OFFSET_WIDTH)])
        ++ rows cfg n (va % 2 ^ (cfg.OFFSET_WIDTH + (n + 1) * cfg.OFFSET_WIDTH)) = pp := by
      rw [← hpp]
      simp
    have hv2 : ValidPath cfg (cur ++ [va >>> (cfg.OFFSET_WIDTH + (n + 1) * cfg.OFFSET_WIDTH)]) :=
      ValidPath_append.2 ⟨hcv, ValidPath_singleton hrow⟩
    rw [VMreadWriteHelper_succ]
    by_cases hz : s.ram (t * PAGE_SIZE cfg
        + va >>> (cfg.OFFSET_WIDTH + (n + 1) * cfg.OFFSET_WIDTH)) = 0
    · rw [if_pos hz]
      have hA := getNextTable_spec hF hI hcv (by omega) hcr (A >>> cfg.OFFSET_WIDTH)
      have hIn := installed_interior hA hcv (by omega) hcr hrow hz
      have hI3 := hIn.treeInv_installed hF hA.hole
      have hr3 := hIn.resolve_eq hF hA.hole hv2 (by simp; omega)
      rw [if_pos rfl] at hr3
      have hrec := ih _ _ _ _ hI3 hpp2 hr3
      exact hrec.of_eq hvp hlp ho
        (fun p o hv hl ho1 => word_interior_miss hF hA hcv hcl hcr hrow hz hv hl ho1)
    · rw [if_neg hz]
      obtain ⟨m, hmN, hem⟩ := hI.range cur t _ hcv (by omega) hcr hrow
      have hm : m < 18446744073709551616 := lt_of_lt_of_le hmN hF.frames_fit
      have hm0 : m ≠ 0 := by
        rintro rfl
        exact hz hem
      have hr : resolve cfg s (cur ++ [va >>> (cfg.OFFSET_WIDTH + (n + 1) * cfg.OFFSET_WIDTH)])
          = some m := resolve_snoc_natCast hcr hm hem hm0
      rw [hem, toU64_natCast m hm]
      exact ih _ _ _ _ hI hpp2 hr

/-! ## The public calls -/

theorem resolve_cons_init (cfg : Config) (s0 : State) (i : Nat) (q : List Nat)
    (hi : i < PAGE_SIZE cfg) : resolve cfg ( VMinitialize cfg s0) (i :: q) = none := by
  apply resolveFrom_cons_zero
  show (clearTable cfg s0 0).ram (0 * PAGE_SIZE cfg + i) = 0
  rw [clearTable_ram, if_pos]
  omega

theorem treeInv_init (cfg : Config) (hF : Feasible cfg) (s0 : State) :
    TreeInv cfg ( VMinitialize cfg s0) := by
  have hnone : ∀ p, ValidPath cfg p → p ≠ [] →
      resolve cfg ( VMinitialize cfg s0) p = none := by
    intro p hv hne
    cases p with
    | nil => exact absurd rfl hne
    | cons i q => exact resolve_cons_init cfg s0 i q (ValidPath_cons.1 hv).1
  have hnil : ∀ p f, ValidPath cfg p → resolve cfg ( VMinitialize cfg s0) p = some f →
      p = [] := by
    intro p f hv hr
    by_contra hne
    rw [hnone p hv hne] at hr
    cases hr
  refine ⟨?_, ?_, ?_⟩
  · intro p t i hv _ hr hi
    have := hnil p t hv hr
    subst this
    cases hr
    refine ⟨0, hF.frames_pos, ?_⟩
    show (clearTable cfg s0 0).ram (0 * PAGE_SIZE cfg + i) = _
    rw [clearTable_ram, if_pos]
    · rfl
    · omega
  · intro p q f hvp hvq _ _ hp hq
    rw [hnil p f hvp hp, hnil q f hvq hq]
  · rintro f g ⟨q, hv, _, hne, hr⟩ _ _
    exact absurd (hnil q f hv hr) hne

theorem accepted {cfg : Config} (hF : Feasible cfg) {A : Nat}
    (hA : A < 2 ^ cfg.VIRTUAL_ADDRESS_WIDTH) :
    ¬ (A ≥ VIRTUAL_MEMORY_SIZE cfg ∨ cfg.OFFSET_WIDTH ≥ cfg.VIRTUAL_ADDRESS_WIDTH
      ∨ cfg.TABLES_DEPTH + 1 > NUM_FRAMES cfg) := by
  have h1 := hF.offset_lt
  have h2 := hF.frames_suffice
  unfold VIRTUAL_MEMORY_SIZE
  omega

theorem VMwrite_eq {cfg : Config} (hF : Feasible cfg) {A : Nat}
    (hA : A < 2 ^ cfg.VIRTUAL_ADDRESS_WIDTH) (s : State) (v : Int) :
    VMwrite cfg s A v
      = ((VMreadWriteHelper cfg A true (cfg.TABLES_DEPTH - 1) A v 0 s).1,
         (VMreadWriteHelper cfg A true (cfg.TABLES_DEPTH - 1) A v 0 s).2.2) := by
  unfold VMwrite
  rw [if_neg (accepted hF hA)]

theorem VMread_eq {cfg : Config} (hF : Feasible cfg) {A : Nat}
    (hA : A < 2 ^ cfg.VIRTUAL_ADDRESS_WIDTH) (s : State) (v : Int) :
    VMread cfg s A v = VMreadWriteHelper cfg A false (cfg.TABLES_DEPTH - 1) A v 0 s := by
  unfold VMread
  rw [if_neg (accepted hF hA)]

theorem helper_top_spec {cfg : Config} (hF : Feasible cfg) {s : State} (hI : TreeInv cfg s)
    {A : Nat} (hA : A < 2 ^ cfg.VIRTUAL_ADDRESS_WIDTH) (w : Bool) (v : Int) :
    WalkSpec cfg s (pagePath cfg A) (A % 2 ^ cfg.OFFSET_WIDTH) w v
      (VMreadWriteHelper cfg A w (cfg.TABLES_DEPTH - 1) A v 0 s) := by
  obtain ⟨h1, h2, h3⟩ := pagePath_spec hF hA
  exact VMreadWriteHelper_spec hF A w v h1 h2 h3 (cfg.TABLES_DEPTH - 1) A [] 0 s hI rfl rfl

theorem VMwrite_treeInv {cfg : Config} (hF : Feasible cfg) {s : State} (hI : TreeInv cfg s)
    (A : Nat) (v : Int) : TreeInv cfg (VMwrite cfg s A v).2 := by
  by_cases hA : A < 2 ^ cfg.VIRTUAL_ADDRESS_WIDTH
  · rw [VMwrite_eq hF hA]
    exact (helper_top_spec hF hI hA true v).inv
  · unfold VMwrite
    rw [if_pos]
    · exact hI
    · left
      unfold VIRTUAL_MEMORY_SIZE
      omega

theorem VMread_treeInv {cfg : Config} (hF : Feasible cfg) {s : State} (hI : TreeInv cfg s)
    (A : Nat) (v : Int) : TreeInv cfg (VMread cfg s A v).2.2 := by
  by_cases hA : A < 2 ^ cfg.VIRTUAL_ADDRESS_WIDTH
  · rw [VMread_eq hF hA]
    exact (helper_top_spec hF hI hA false v).inv
  · unfold VMread
    rw [if_pos]
    · exact hI
    · left
      unfold VIRTUAL_MEMORY_SIZE
      omega

/-- The tree invariant holds in every reachable state. -/
theorem Reachable.treeInv_reachable {cfg : Config} (hF : Feasible cfg) {s : State}
    (h : Reachable cfg s) : TreeInv cfg s := by
  induction h with
  | init s0 => exact treeInv_init cfg hF s0
  | read A v _ ih => exact VMread_treeInv hF ih A v
  | write A v _ ih => exact VMwrite_treeInv hF ih A v

theorem decode_inj {cfg : Config} (hF : Feasible cfg) {A B : Nat}
    (hA : A < 2 ^ cfg.VIRTUAL_ADDRESS_WIDTH) (hB : B < 2 ^ cfg.VIRTUAL_ADDRESS_WIDTH)
    (hp : pagePath cfg B = pagePath cfg A)
    (ho : B % 2 ^ cfg.OFFSET_WIDTH = A % 2 ^ cfg.OFFSET_WIDTH) : B = A := by
  have h1 := (pagePath_spec hF hA).2.2
  have h2 := (pagePath_spec hF hB).2.2
  rw [hp, h1] at h2
  rw [Nat.shiftRight_eq_div_pow, Nat.shiftRight_eq_div_pow] at h2
  rw [← Nat.div_add_mod A (2 ^ cfg.OFFSET_WIDTH), ← Nat.div_add_mod B (2 ^ cfg.OFFSET_WIDTH),
    h2, ho]

theorem VMwrite_ret {cfg : Config} (hF : Feasible cfg) {A : Nat}
    (hA : A < 2 ^ cfg.VIRTUAL_ADDRESS_WIDTH) (s : State) (v : Int) :
    (VMwrite cfg s A v).1 = 1 := by
  rw [VMwrite_eq hF hA]
  exact VMreadWriteHelper_ret _ _ _ _ _ _ _ _

theorem VMread_ret {cfg : Config} (hF : Feasible cfg) {A : Nat}
    (hA : A < 2 ^ cfg.VIRTUAL_ADDRESS_WIDTH) (s : State) (v : Int) :
    (VMread cfg s A v).1 = 1 := by
  rw [VMread_eq hF hA]
  exact VMreadWriteHelper_ret _ _ _ _ _ _ _ _

/-- An accepted write changes the word addressed and no other. -/
theorem vmWord_write {cfg : Config} (hF : Feasible cfg) {s : State} (hI : TreeInv cfg s)
    {A B : Nat} (hA : A < 2 ^ cfg.VIRTUAL_ADDRESS_WIDTH)
    (hB : B < 2 ^ cfg.VIRTUAL_ADDRESS_WIDTH) (v : Int) :
    vmWord cfg (VMwrite cfg s A v).2 B = if B = A then v else vmWord cfg s B := by
  obtain ⟨h1, h2, _⟩ := pagePath_spec hF hB
  rw [VMwrite_eq hF hA]
  unfold vmWord
  rw [(helper_top_spec hF hI hA true v).word _ _ h1 h2 (offset_lt cfg B)]
  by_cases hBA : B = A
  · subst hBA
    simp
  · rw [if_neg hBA, if_neg]
    rintro ⟨_, hp, ho⟩
    exact hBA (decode_inj hF hA hB hp ho)

/-- A read changes no word. -/
theorem vmWord_read {cfg : Config} (hF : Feasible cfg) {s : State} (hI : TreeInv cfg s)
    (A : Nat) {B : Nat} (hB : B < 2 ^ cfg.VIRTUAL_ADDRESS_WIDTH) (v0 : Int) :
    vmWord cfg (VMread cfg s A v0).2.2 B = vmWord cfg s B := by
  by_cases hA : A < 2 ^ cfg.VIRTUAL_ADDRESS_WIDTH
  · obtain ⟨h1, h2, _⟩ := pagePath_spec hF hB
    rw [VMread_eq hF hA]
    unfold vmWord
    rw [(helper_top_spec hF hI hA false v0).word _ _ h1 h2 (offset_lt cfg B)]
    simp
  · unfold VMread
    rw [if_pos]
    left
    unfold VIRTUAL_MEMORY_SIZE
    omega

/-- An accepted read yields the word the manager holds for the address. -/
theorem VMread_value {cfg : Config} (hF : Feasible cfg) {s : State} (hI : TreeInv cfg s)
    {A : Nat} (hA : A < 2 ^ cfg.VIRTUAL_ADDRESS_WIDTH) (v0 : Int) :
    (VMread cfg s A v0).2.1 = vmWord cfg s A := by
  rw [VMread_eq hF hA, (helper_top_spec hF hI hA false v0).value]
  simp [vmWord]

theorem vmWord_write_invalid {cfg : Config} {s : State} {A : Nat}
    (hA : ¬ A < 2 ^ cfg.VIRTUAL_ADDRESS_WIDTH) (v : Int) : (VMwrite cfg s A v).2 = s := by
  unfold VMwrite
  rw [if_pos]
  left
  unfold VIRTUAL_MEMORY_SIZE
  omega

theorem applyOp_treeInv {cfg : Config} (hF : Feasible cfg) {s : State} (hI : TreeInv cfg s)
    (op : Op) : TreeInv cfg (applyOp cfg s op) := by
  cases op with
  | read A => exact VMread_treeInv hF hI A 0
  | write A v => exact VMwrite_treeInv hF hI A v

theorem vmWord_applyOp {cfg : Config} (hF : Feasible cfg) {s : State} (hI : TreeInv cfg s)
    {A : Nat} (hA : A < 2 ^ cfg.VIRTUAL_ADDRESS_WIDTH) (op : Op)
    (hop : op.writesTo A = false) : vmWord cfg (applyOp cfg s op) A = vmWord cfg s A := by
  cases op with
  | read B => exact vmWord_read hF hI B hA 0
  | write B v =>
    have hBA : B ≠ A := by
      intro e
      simp [Op.writesTo, e] at hop
    show vmWord cfg (VMwrite cfg s B v).2 A = _
    by_cases hB : B < 2 ^ cfg.VIRTUAL_ADDRESS_WIDTH
    · rw [vmWord_write hF hI hB hA, if_neg (Ne.symm hBA)]
    · rw [vmWord_write_invalid hB]

theorem vmWord_runOps {cfg : Config} (hF : Feasible cfg) {A : Nat}
    (hA : A < 2 ^ cfg.VIRTUAL_ADDRESS_WIDTH) (ops : List Op) :
    ∀ s, TreeInv cfg s → ops.all (fun op => !op.writesTo A) = true →
      TreeInv cfg (runOps cfg s ops) ∧ vmWord cfg (runOps cfg s ops) A = vmWord cfg s A := by
  induction ops with
  | nil =>
    intro s hI _
    exact ⟨hI, rfl⟩
  | cons op ops ih =>
    intro s hI hall
    rw [List.all_cons, Bool.and_eq_true] at hall
    have hop : op.writesTo A = false := by simpa using hall.1
    obtain ⟨h1, h2⟩ := ih (applyOp cfg s op) (applyOp_treeInv hF hI op) hall.2
    exact ⟨h1, by
      show vmWord cfg (runOps cfg (applyOp cfg s op) ops) A = _
      rw [h2, vmWord_applyOp hF hI hA op hop]⟩

theorem feasible_tinyConfig : Feasible tinyConfig :=
  ⟨by decide, by decide, by decide, by decide⟩

/-! ## The walker's intermediate calls -/

/-- The calls `WalkerAt` describes are the calls the public call makes: the
result of the first call is the result of each of them. -/
theorem WalkerAt.helper_eq {cfg : Config} {A : Nat} {s0 : State} {frames : List Nat}
    {n va t : Nat} {s : State} (h : WalkerAt cfg A s0 frames n va t s) (w : Bool) (v : Int) :
    VMreadWriteHelper cfg A w (cfg.TABLES_DEPTH - 1) A v 0 s0
      = VMreadWriteHelper cfg A w n va v t s := by
  induction h with
  | start => rfl
  | hit _ hne ih => rw [ih, VMreadWriteHelper_succ, if_neg hne]
  | miss _ hz ih => rw [ih, VMreadWriteHelper_succ, if_pos hz]

theorem WalkerAt.mem_frames {cfg : Config} {A : Nat} {s0 : State} {frames : List Nat}
    {n va t : Nat} {s : State} (h : WalkerAt cfg A s0 frames n va t s) :
    0 ∈ frames ∧ t ∈ frames := by
  induction h with
  | start => simp
  | hit _ _ ih => exact ⟨List.mem_append_left _ ih.1, by simp⟩
  | miss _ _ ih => exact ⟨List.mem_append_left _ ih.1, by simp⟩

/-- Along the walk the tree invariant holds, the current table is the end of
a prefix `cur` of the walk of the page, and every table descended through is
the end of a prefix of `cur`. -/
theorem WalkerAt.inv_walk {cfg : Config} (hF : Feasible cfg) {A : Nat}
    (hA : A < 2 ^ cfg.VIRTUAL_ADDRESS_WIDTH) {s0 : State} (hI0 : TreeInv cfg s0)
    {frames : List Nat} {n va t : Nat} {s : State}
    (h : WalkerAt cfg A s0 frames n va t s) :
    TreeInv cfg s ∧ ∃ cur, cur ++ rows cfg n va = pagePath cfg A
      ∧ resolve cfg s cur = some t
      ∧ ∀ g ∈ frames, ∃ c, c <+: cur ∧ resolve cfg s c = some g := by
  obtain ⟨hvp, hlp, _⟩ := pagePath_spec hF hA
  induction h with
  | start =>
    refine ⟨hI0, [], rfl, rfl, ?_⟩
    intro g hg
    rw [List.mem_singleton.1 hg]
    exact ⟨[], List.prefix_rfl, rfl⟩
  | @hit frames n va t s _ hne ih =>
    obtain ⟨hI, cur, hpp, hcr, hfr⟩ := ih
    rw [rows_succ_eq] at hpp
    have hcv : ValidPath cfg cur := by rw [← hpp] at hvp; exact hvp.of_append_left
    have hrow : va >>> (cfg.OFFSET_WIDTH + (n + 1) * cfg.OFFSET_WIDTH) < PAGE_SIZE cfg := by
      rw [← hpp] at hvp
      exact (ValidPath_cons.1 hvp.of_append_right).1
    have hcl : cur.length + 1 < cfg.TABLES_DEPTH := by
      rw [← hpp] at hlp
      simp only [List.length_append, List.length_cons, rows_length] at hlp
      omega
    obtain ⟨m, hmN, hem⟩ := hI.range cur t _ hcv (by omega) hcr hrow
    have hm : m < 18446744073709551616 := lt_of_lt_of_le hmN hF.frames_fit
    have hm0 : m ≠ 0 := by
      rintro rfl
      exact hne hem
    have hr := resolve_snoc_natCast hcr hm hem hm0
    rw [hem, toU64_natCast m hm]
    refine ⟨hI, cur ++ [va >>> (cfg.OFFSET_WIDTH + (n + 1) * cfg.OFFSET_WIDTH)], ?_, hr, ?_⟩
    · rw [← hpp]; simp
    · intro g hg
      rcases List.mem_append.1 hg with hg | hg
      · obtain ⟨c, hc, hrc⟩ := hfr g hg
        exact ⟨c, hc.trans (List.prefix_append _ _), hrc⟩
      · rw [List.mem_singleton.1 hg]
        exact ⟨_, List.prefix_rfl, hr⟩
  | @miss frames n va t s _ hz ih =>
    obtain ⟨hI, cur, hpp, hcr, hfr⟩ := ih
    rw [rows_succ_eq] at hpp
    have hcv : ValidPath cfg cur := by rw [← hpp] at hvp; exact hvp.of_append_left
    have hrow : va >>> (cfg.OFFSET_WIDTH + (n + 1) * cfg.OFFSET_WIDTH) < PAGE_SIZE cfg := by
      rw [← hpp] at hvp
      exact (ValidPath_cons.1 hvp.of_append_right).1
    have hcl : cur.length + 1 < cfg.TABLES_DEPTH := by
      rw [← hpp] at hlp
      simp only [List.length_append, List.length_cons, rows_length] at hlp
      omega
    have hv2 : ValidPath cfg (cur ++ [va >>> (cfg.OFFSET_WIDTH + (n + 1) * cfg.OFFSET_WIDTH)]) :=
      ValidPath_append.2 ⟨hcv, ValidPath_singleton hrow⟩
    have hAl := getNextTable_spec hF hI hcv (by omega) hcr (A >>> cfg.OFFSET_WIDTH)
    have hIn := installed_interior hAl hcv (by omega) hcr hrow hz
    have hr3 := hIn.resolve_eq hF hAl.hole hv2 (by simp; omega)
    rw [if_pos rfl] at hr3
    refine ⟨hIn.treeInv_installed hF hAl.hole,
      cur ++ [va >>> (cfg.OFFSET_WIDTH + (n + 1) * cfg.OFFSET_WIDTH)], ?_, hr3, ?_⟩
    · rw [← hpp]; simp
    · intro g hg
      rcases List.mem_append.1 hg with hg | hg
      · obtain ⟨c, hc, hrc⟩ := hfr g hg
        refine ⟨c, hc.trans (List.prefix_append _ _), ?_⟩
        have hvc := hcv.of_prefix hc
        have hlc : c.length ≤ cfg.TABLES_DEPTH := le_trans hc.length_le (by omega)
        rw [hIn.resolve_eq hF hAl.hole hvc hlc, if_neg, hAl.res c hvc hlc,
          if_neg (hAl.excl c hc), hrc]
        intro e
        have := hc.length_le
        rw [e] at this
        simp at this
      · rw [List.mem_singleton.1 hg]
        exact ⟨_, List.prefix_rfl, hr3⟩

/-! ## Backing-store calls of a walk -/

theorem PagedIn.prepend {cfg : Config} {A : Nat} {s0 s s3 s1 : State} {word : Int}
    (h : PagedIn cfg A s0 s3 s1 word)
    (hlog : s3.log = s.log ∨ ∃ f p, s3.log = s.log ++ [Event.evict f p]) :
    PagedIn cfg A s0 s s1 word := by
  obtain ⟨evs, f, frames, va, t, sl, h1, h2, h3, h4, h5, h6, h7⟩ := h
  rcases hlog with e | ⟨g, q, e⟩
  · exact ⟨evs, f, frames, va, t, sl, h1, h2, h3, by rw [h4, e], h5, h6, h7⟩
  · refine ⟨Event.evict g q :: evs, f, frames, va, t, sl, h1, h2, h3, ?_, ?_, h6, h7⟩
    · rw [h4, e]
      simp
    · intro x hx
      rcases List.mem_cons.1 hx with rfl | hx
      · exact ⟨g, q, rfl⟩
      · exact h5 x hx

/-- The backing-store calls of a walk: when the page is absent, evictions and
then exactly one restore into the frame the allocator returned at the leaf
level; when the page is resident, none. -/
theorem VMreadWriteHelper_pagein {cfg : Config} (hF : Feasible cfg) (A : Nat)
    (hA : A < 2 ^ cfg.VIRTUAL_ADDRESS_WIDTH) (w : Bool) (v : Int) (s0 : State) :
    ∀ n va cur t s frames, WalkerAt cfg A s0 frames n va t s → TreeInv cfg s →
      cur ++ rows cfg n va = pagePath cfg A → resolve cfg s cur = some t →
      (resolve cfg s (pagePath cfg A) = none →
        PagedIn cfg A s0 s (VMreadWriteHelper cfg A w n va v t s).2.2
          (VMreadWriteHelper cfg A w n va v t s).2.1)
      ∧ (∀ f, resolve cfg s (pagePath cfg A) = some f →
          (VMreadWriteHelper cfg A w n va v t s).2.2.log = s.log
          ∧ resolve cfg (VMreadWriteHelper cfg A w n va v t s).2.2 (pagePath cfg A) = some f
          ∧ (VMreadWriteHelper cfg A w n va v t s).2.2.ram
              (f * PAGE_SIZE cfg + A % 2 ^ cfg.OFFSET_WIDTH)
            = (VMreadWriteHelper cfg A w n va v t s).2.1) := by
  obtain ⟨hvp, hlp, hpage⟩ := pagePath_spec hF hA
  have ho := offset_lt cfg A
  intro n
  induction n with
  | zero =>
    intro va cur t s frames hW hI hpp hcr
    rw [rows_zero_eq] at hpp
    have hcv : ValidPath cfg cur := by rw [← hpp] at hvp; exact hvp.of_append_left
    have hrow : va >>> (cfg.OFFSET_WIDTH + 0 * cfg.OFFSET_WIDTH) < PAGE_SIZE cfg := by
      rw [← hpp] at hvp
      exact (ValidPath_cons.1 hvp.of_append_right).1
    have hcl : cur.length + 1 = cfg.TABLES_DEPTH := by
      rw [← hpp] at hlp
      simpa using hlp
    rw [VMreadWriteHelper_zero]
    by_cases hz : s.ram (t * PAGE_SIZE cfg
        + va >>> (cfg.OFFSET_WIDTH + 0 * cfg.OFFSET_WIDTH)) = 0
    · rw [if_pos hz]
      have hAl := getNextTable_spec hF hI hcv (by omega) hcr (A >>> cfg.OFFSET_WIDTH)
      have hIn := installed_leaf hAl hcv hcl hcr hrow hz (A >>> cfg.OFFSET_WIDTH)
      have hI3 := hIn.treeInv_installed hF hAl.hole
      have hr3 := hIn.resolve_eq hF hAl.hole hvp (le_of_eq hlp)
      rw [if_pos hpp.symm] at hr3
      have hnone : resolve cfg s (pagePath cfg A) = none := by
        rw [← hpp]
        exact resolve_snoc_zero hcr hz []
      constructor
      · intro _
        have hlog : ∃ evs, (PMrestore cfg (PMwrite (getNextTable cfg s t
              (A >>> cfg.OFFSET_WIDTH)).2
              (t * PAGE_SIZE cfg + va >>> (cfg.OFFSET_WIDTH + 0 * cfg.OFFSET_WIDTH))
              ((getNextTable cfg s t (A >>> cfg.OFFSET_WIDTH)).1 : Int))
              (getNextTable cfg s t (A >>> cfg.OFFSET_WIDTH)).1
              (A >>> cfg.OFFSET_WIDTH)).log
            = s.log ++ evs ++ [Event.restore (getNextTable cfg s t
                (A >>> cfg.OFFSET_WIDTH)).1 (A >>> cfg.OFFSET_WIDTH)]
            ∧ ∀ e ∈ evs, ∃ g q, e = Event.evict g q := by
          rw [PMrestore_log, PMwrite_log]
          rcases hAl.log with e | ⟨g, q, e⟩
          · exact ⟨[], by rw [e]; simp, fun x hx => by cases hx⟩
          · exact ⟨[Event.evict g q], by rw [e], fun x hx => by
              rw [List.mem_singleton.1 hx]; exact ⟨g, q, rfl⟩⟩
        obtain ⟨evs, hl1, hl2⟩ := hlog
        cases w with
        | true =>
          rw [if_pos rfl]
          refine ⟨evs, _, frames, va, t, s, hW, hz, rfl, ?_, hl2, ?_, ?_⟩
          · rw [PMwrite_log]
            exact hl1
          · show resolve cfg (PMwrite _ _ v) (pagePath cfg A) = _
            rw [resolve_data_write hI3 hvp hlp hr3 ho v hvp (le_of_eq hlp), hr3]
          · show (PMwrite _ _ v).ram _ = v
            rw [PMwrite_ram, if_pos rfl]
        | false =>
          rw [if_neg (by decide)]
          exact ⟨evs, _, frames, va, t, s, hW, hz, rfl, hl1, hl2, hr3, rfl⟩
      · intro f hf
        rw [hnone] at hf
        cases hf
    · rw [if_neg hz]
      obtain ⟨m, hmN, hem⟩ := hI.range cur t _ hcv (by omega) hcr hrow
      have hm : m < 18446744073709551616 := lt_of_lt_of_le hmN hF.frames_fit
      have hm0 : m ≠ 0 := by
        rintro rfl
        exact hz hem
      have hr : resolve cfg s (pagePath cfg A) = some m := by
        rw [← hpp]
        exact resolve_snoc_natCast hcr hm hem hm0
      rw [hem, toU64_natCast m hm]
      constructor
      · intro hn
        rw [hr] at hn
        cases hn
      · intro f hf
        rw [hr] at hf
        cases hf
        cases w with
        | true =>
          rw [if_pos rfl]
          refine ⟨rfl, ?_, ?_⟩
          · show resolve cfg (PMwrite s _ v) (pagePath cfg A) = _
            rw [resolve_data_write hI hvp hlp hr ho v hvp (le_of_eq hlp), hr]
          · show (PMwrite s _ v).ram _ = v
            rw [PMwrite_ram, if_pos rfl]
        | false =>
          rw [if_neg (by decide)]
          exact ⟨rfl, hr, rfl⟩
  | succ n ih =>
    intro va cur t s frames hW hI hpp hcr
    rw [rows_succ_eq] at hpp
    have hcv : ValidPath cfg cur := by rw [← hpp] at hvp; exact hvp.of_append_left
    have hrow : va >>> (cfg.OFFSET_WIDTH + (n + 1) * cfg.OFFSET_WIDTH) < PAGE_SIZE cfg := by
      rw [← hpp] at hvp
      exact (ValidPath_cons.1 hvp.of_append_right).1
    have hcl : cur.length + 1 < cfg.TABLES_DEPTH := by
      rw [← hpp] at hlp
      simp only [List.length_append, List.length_cons, rows_length] at hlp
      omega
    have hpp2 : (cur ++ [va >>> (cfg.OFFSET_WIDTH + (n + 1) * cfg.OFFSET_WIDTH)])
        ++ rows cfg n (va % 2 ^ (cfg.OFFSET_WIDTH + (n + 1) * cfg.OFFSET_WIDTH))
          = pagePath cfg A := by
      rw [← hpp]
      simp
    have hv2 : ValidPath cfg (cur ++ [va >>> (cfg.OFFSET_WIDTH + (n + 1) * cfg.OFFSET_WIDTH)]) :=
      ValidPath_append.2 ⟨hcv, ValidPath_singleton hrow⟩
    rw [VMreadWriteHelper_succ]
    by_cases hz : s.ram (t * PAGE_SIZE cfg
        + va >>> (cfg.OFFSET_WIDTH + (n + 1) * cfg.OFFSET_WIDTH)) = 0
    · rw [if_pos hz]
      have hAl := getNextTable_spec hF hI hcv (by omega) hcr (A >>> cfg.OFFSET_WIDTH)
      have hIn := installed_interior hAl hcv (by omega) hcr hrow hz
      have hI3 := hIn.treeInv_installed hF hAl.hole
      have hr3 := hIn.resolve_eq hF hAl.hole hv2 (by simp; omega)
      rw [if_pos rfl] at hr3
      have hnone : resolve cfg s (pagePath cfg A) = none := by
        rw [← hpp]
        exact resolve_snoc_zero hcr hz _
      have hnone3 : resolve cfg (clearTable cfg (PMwrite (getNextTable cfg s t
            (A >>> cfg.OFFSET_WIDTH)).2
            (t * PAGE_SIZE cfg + va >>> (cfg.OFFSET_WIDTH + (n + 1) * cfg.OFFSET_WIDTH))
            ((getNextTable cfg s t (A >>> cfg.OFFSET_WIDTH)).1 : Int))
            (getNextTable cfg s t (A >>> cfg.OFFSET_WIDTH)).1) (pagePath cfg A) = none := by
        rw [hIn.resolve_eq hF hAl.hole hvp (le_of_eq hlp), if_neg,
          hAl.res _ hvp (le_of_eq hlp), hnone]
        · rfl
        · intro e
          rw [e] at hlp
          simp at hlp
          omega
      have hrec := ih _ _ _ _ _ (WalkerAt.miss hW hz) hI3 hpp2 hr3
      constructor
      · intro _
        apply (hrec.1 hnone3).prepend
        rw [clearTable_log, PMwrite_log]
        exact hAl.log
      · intro f hf
        rw [hnone] at hf
        cases hf
    · rw [if_neg hz]
      obtain ⟨m, hmN, hem⟩ := hI.range cur t _ hcv (by omega) hcr hrow
      have hm : m < 18446744073709551616 := lt_of_lt_of_le hmN hF.frames_fit
      have hm0 : m ≠ 0 := by
        rintro rfl
        exact hz hem
      have hr : resolve cfg s (cur ++ [va >>> (cfg.OFFSET_WIDTH + (n + 1) * cfg.OFFSET_WIDTH)])
          = some m := resolve_snoc_natCast hcr hm hem hm0
      have hW2 := WalkerAt.hit hW hz
      rw [hem, toU64_natCast m hm] at hW2 ⊢
      exact ih _ _ _ _ _ hW2 hI hpp2 hr

/-! ## Contract of the public interface on reachable states -/

/-- C1: on a feasible configuration, in every state reachable from
`VMinitialize` by `VMread` / `VMwrite` calls, for every address
`A < 2^VIRTUAL_ADDRESS_WIDTH` and every word `v`, `VMwrite(A, v)` returns 1 and
an immediately following `VMread(A)` returns 1 and yields `v`. -/
theorem C1_write_then_read (cfg : Config) (hF : Feasible cfg) (s : State)
    (hs : Reachable cfg s) (A : Nat) (hA : A < 2 ^ cfg.VIRTUAL_ADDRESS_WIDTH) (v v0 : Int) :
    (VMwrite cfg s A v).1 = 1
    ∧ (VMread cfg (VMwrite cfg s A v).2 A v0).1 = 1
    ∧ (VMread cfg (VMwrite cfg s A v).2 A v0).2.1 = v := by
  have hI := hs.treeInv_reachable hF
  refine ⟨VMwrite_ret hF hA s v, VMread_ret hF hA _ v0, ?_⟩
  rw [VMread_value hF (VMwrite_treeInv hF hI A v) hA, vmWord_write hF hI hA hA, if_pos rfl]

/-- Witness for C1, scenario S1: `VMinitialize(); VMwrite(13, 3); VMread(13)`
on the tiny configuration yields 3. -/
theorem C1_write_then_read_witness :
    (VMwrite tinyConfig ( VMinitialize tinyConfig zeroState) 13 3).1 = 1
    ∧ (VMread tinyConfig (VMwrite tinyConfig ( VMinitialize tinyConfig zeroState) 13 3).2
        13 0).1 = 1
    ∧ (VMread tinyConfig (VMwrite tinyConfig ( VMinitialize tinyConfig zeroState) 13 3).2
        13 0).2.1 = 3 :=
  C1_write_then_read tinyConfig feasible_tinyConfig _ (Reachable.init zeroState) 13
    (by decide) 3 0

/-- C2: on a feasible configuration, in every reachable state, after
`VMwrite(A, v)` and any further sequence of `VMread` / `VMwrite` calls that
does not write to `A` again (whatever pages it touches and evicts), `VMread(A)`
yields `v`, the value most recently written to `A`. -/
theorem C2_round_trip (cfg : Config) (hF : Feasible cfg) (s : State) (hs : Reachable cfg s)
    (A : Nat) (hA : A < 2 ^ cfg.VIRTUAL_ADDRESS_WIDTH) (v v0 : Int) (ops : List Op)
    (hops : ops.all (fun op => !op.writesTo A) = true) :
    (VMread cfg (runOps cfg (VMwrite cfg s A v).2 ops) A v0).1 = 1
    ∧ (VMread cfg (runOps cfg (VMwrite cfg s A v).2 ops) A v0).2.1 = v := by
  have hI := hs.treeInv_reachable hF
  obtain ⟨h1, h2⟩ := vmWord_runOps hF hA ops _ (VMwrite_treeInv hF hI A v) hops
  refine ⟨VMread_ret hF hA _ v0, ?_⟩
  rw [VMread_value hF h1 hA, h2, vmWord_write hF hI hA hA, if_pos rfl]

set_option maxRecDepth 1000000 in
/-- Witness for C2, scenario S2 on the tiny configuration: after
`write(0, 1)` and then `write(A, A + 1)` for `A` in 1..31, which forces
evictions, `read(0)` yields 1; and reading all of 0..31 back yields `A + 1`
for each `A`. -/
theorem C2_round_trip_witness :
    ((VMread tinyConfig (runOps tinyConfig
        (VMwrite tinyConfig ( VMinitialize tinyConfig zeroState) 0 1).2
        (writeSuccessors (List.range' 1 31))) 0 0).1 = 1
      ∧ (VMread tinyConfig (runOps tinyConfig
        (VMwrite tinyConfig ( VMinitialize tinyConfig zeroState) 0 1).2
        (writeSuccessors (List.range' 1 31))) 0 0).2.1 = 1)
    ∧ (readAll tinyConfig (runOps tinyConfig ( VMinitialize tinyConfig zeroState)
        (writeSuccessors (List.range 32))) (List.range 32)).1
      = (List.range 32).map (fun A => (A : Int) + 1) :=
  ⟨C2_round_trip tinyConfig feasible_tinyConfig _ (Reachable.init zeroState) 0 (by decide) 1 0
    (writeSuccessors (List.range' 1 31)) (by decide), by decide⟩

/-! ## Invariants of the page-table tree -/

/-- C5: on a feasible configuration, after `VMinitialize` and after every
subsequent `VMread` / `VMwrite` call, every non-zero word of every page-table
frame reachable from frame 0 (by a walk of fewer than `TABLES_DEPTH` slots) is
a frame index in `[1, NUM_FRAMES)`. -/
theorem C5_range_invariant (cfg : Config) (hF : Feasible cfg) (s : State)
    (hs : Reachable cfg s) (p : List Nat) (t i : Nat) (hv : ValidPath cfg p)
    (hl : p.length < cfg.TABLES_DEPTH) (hr : resolve cfg s p = some t)
    (hi : i < PAGE_SIZE cfg) (hne : s.ram (t * PAGE_SIZE cfg + i) ≠ 0) :
    1 ≤ s.ram (t * PAGE_SIZE cfg + i)
    ∧ s.ram (t * PAGE_SIZE cfg + i) < (NUM_FRAMES cfg : Int) := by
  obtain ⟨m, hm, he⟩ := (hs.treeInv_reachable hF).range p t i hv hl hr hi
  rw [he] at hne ⊢
  have hm0 : m ≠ 0 := by
    rintro rfl
    exact hne rfl
  exact ⟨by exact_mod_cast Nat.pos_of_ne_zero hm0, by exact_mod_cast hm⟩

theorem reachable_twoPagesState : Reachable tinyConfig twoPagesState :=
  Reachable.write 30 31 (Reachable.write 16 17 (Reachable.init zeroState))

theorem validPath_of_decide {cfg : Config} {p : List Nat}
    (h : p.all (fun i => decide (i < PAGE_SIZE cfg)) = true) : ValidPath cfg p := by
  intro i hi
  have := List.all_eq_true.1 h i hi
  simpa using this

/-- Witness for C5: in the state after `VMinitialize(); VMwrite(16, 17);
VMwrite(30, 31)` on the tiny configuration, slot 0 of the table reached by
the walk `[1]` (frame 1) holds frame index 2. -/
theorem C5_range_invariant_witness :
    1 ≤ twoPagesState.ram (1 * PAGE_SIZE tinyConfig + 0)
    ∧ twoPagesState.ram (1 * PAGE_SIZE tinyConfig + 0) < (NUM_FRAMES tinyConfig : Int) :=
  C5_range_invariant tinyConfig feasible_tinyConfig twoPagesState reachable_twoPagesState
    [1] 1 0 (validPath_of_decide (by decide)) (by decide) (by decide) (by decide) (by decide)

/-- C6: on a feasible configuration, after `VMinitialize` and after every
subsequent `VMread` / `VMwrite` call, two parent slots of the tree reachable
from frame 0 that hold the same non-zero frame index are the same slot, reached
by the same walk: every frame has at most one parent. -/
theorem C6_unique_parent (cfg : Config) (hF : Feasible cfg) (s : State)
    (hs : Reachable cfg s) (p q : List Nat) (t u i j : Nat)
    (hvp : ValidPath cfg p) (hvq : ValidPath cfg q)
    (hlp : p.length < cfg.TABLES_DEPTH) (hlq : q.length < cfg.TABLES_DEPTH)
    (hp : resolve cfg s p = some t) (hq : resolve cfg s q = some u)
    (hi : i < PAGE_SIZE cfg) (hj : j < PAGE_SIZE cfg)
    (hne : s.ram (t * PAGE_SIZE cfg + i) ≠ 0)
    (heq : s.ram (t * PAGE_SIZE cfg + i) = s.ram (u * PAGE_SIZE cfg + j)) :
    p = q ∧ i = j ∧ t * PAGE_SIZE cfg + i = u * PAGE_SIZE cfg + j := by
  have hI := hs.treeInv_reachable hF
  obtain ⟨m, hm, he⟩ := hI.range p t i hvp hlp hp hi
  have hm64 : m < 18446744073709551616 := lt_of_lt_of_le hm hF.frames_fit
  have hm0 : m ≠ 0 := by
    rintro rfl
    exact hne he
  have h1 : resolve cfg s (p ++ [i]) = some m := resolve_snoc_natCast hp hm64 he hm0
  have h2 : resolve cfg s (q ++ [j]) = some m :=
    resolve_snoc_natCast hq hm64 (by rw [← heq, he]) hm0
  have h3 := hI.inj (p ++ [i]) (q ++ [j]) m
    (ValidPath_append.2 ⟨hvp, ValidPath_singleton hi⟩)
    (ValidPath_append.2 ⟨hvq, ValidPath_singleton hj⟩)
    (by simp; omega) (by simp; omega) h1 h2
  have h4 : p = q := List.append_inj_left' h3 rfl
  have h5 : [i] = [j] := List.append_inj_right' h3 rfl
  have h6 : i = j := by simpa using h5
  subst h4 h6
  rw [hp] at hq
  cases hq
  exact ⟨rfl, rfl, rfl⟩

/-- Witness for C6 in the state after `VMinitialize(); VMwrite(16, 17);
VMwrite(30, 31)` on the tiny configuration, at slot 0 of frame 1. -/
theorem C6_unique_parent_witness :
    ([1] : List Nat) = [1] ∧ (0 : Nat) = 0
    ∧ 1 * PAGE_SIZE tinyConfig + 0 = 1 * PAGE_SIZE tinyConfig + 0 :=
  C6_unique_parent tinyConfig feasible_tinyConfig twoPagesState reachable_twoPagesState
    [1] [1] 1 1 0 0 (validPath_of_decide (by decide)) (validPath_of_decide (by decide))
    (by decide) (by decide) (by decide) (by decide) (by decide) (by decide) (by decide) rfl

/-! ## The walk of one call -/

/-- C7: on a feasible configuration, in every state `s0` reachable from
`VMinitialize`, at every call of `VMreadWriteHelper` that a `VMread` /
`VMwrite` of a valid address makes and that finds its slot empty, the frame
`getNextTable` returns is none of the frames on the current access path
`frames`, which holds frame 0, each table descended through so far and the
current table `t` passed as `frameNotToErase`.  (The last part states that
the call described is one the public call really makes.) -/
theorem C7_exclude_contract (cfg : Config) (hF : Feasible cfg) (s0 : State)
    (hs : Reachable cfg s0) (A : Nat) (hA : A < 2 ^ cfg.VIRTUAL_ADDRESS_WIDTH)
    (frames : List Nat) (n va t : Nat) (s : State)
    (hw : WalkerAt cfg A s0 frames n va t s)
    (_hmiss : s.ram (t * PAGE_SIZE cfg + va >>> (cfg.OFFSET_WIDTH + n * cfg.OFFSET_WIDTH)) = 0) :
    0 ∈ frames ∧ t ∈ frames
    ∧ (getNextTable cfg s t (A >>> cfg.OFFSET_WIDTH)).1 ∉ frames
    ∧ ∀ w v, VMreadWriteHelper cfg A w (cfg.TABLES_DEPTH - 1) A v 0 s0
        = VMreadWriteHelper cfg A w n va v t s := by
  obtain ⟨hvp, hlp, _⟩ := pagePath_spec hF hA
  obtain ⟨hI, cur, hpp, hcr, hfr⟩ := hw.inv_walk hF hA (hs.treeInv_reachable hF)
  have hcv : ValidPath cfg cur := by rw [← hpp] at hvp; exact hvp.of_append_left
  have hcl : cur.length < cfg.TABLES_DEPTH := by
    rw [← hpp] at hlp
    simp only [List.length_append, rows_length] at hlp
    omega
  have hAl := getNextTable_spec hF hI hcv hcl hcr (A >>> cfg.OFFSET_WIDTH)
  refine ⟨hw.mem_frames.1, hw.mem_frames.2, ?_, hw.helper_eq⟩
  intro hmem
  obtain ⟨c, hc, hrc⟩ := hfr _ hmem
  exact hAl.excl c hc hrc

/-- Witness for C7: the first call of `VMwrite(13, _)` right after
`VMinitialize` on the tiny configuration misses in frame 0, and the frame
the allocator returns is not frame 0. -/
theorem C7_exclude_contract_witness :
    0 ∈ [0] ∧ 0 ∈ [0]
    ∧ (getNextTable tinyConfig ( VMinitialize tinyConfig zeroState) 0
        (13 >>> tinyConfig.OFFSET_WIDTH)).1 ∉ [0]
    ∧ ∀ w v, VMreadWriteHelper tinyConfig 13 w (tinyConfig.TABLES_DEPTH - 1) 13 v 0
          ( VMinitialize tinyConfig zeroState)
        = VMreadWriteHelper tinyConfig 13 w 3 13 v 0 ( VMinitialize tinyConfig zeroState) :=
  C7_exclude_contract tinyConfig feasible_tinyConfig _ (Reachable.init zeroState) 13
    (by decide) [0] 3 13 0 _ WalkerAt.start (by decide)

/-- C8: on a feasible configuration, in every reachable state `s`, for an
accepted `VMwrite(A, v)` and `VMread(A)`: when the page of `A` is not
resident, the backing-store calls of the call are evictions followed by
exactly one `PMrestore(f, A >> OFFSET_WIDTH)`, where `f` is the frame
`getNextTable` returned at the leaf level, afterwards the leaf-level parent
slot holds `f` and the word written or read is the one at
`f * PAGE_SIZE + A mod PAGE_SIZE` (`PagedIn`); when the page is resident no
backing-store call is made; and after every interior-level miss the frame
just installed has all `PAGE_SIZE` words zero in the state in which the
descent continues. -/
theorem C8_page_in (cfg : Config) (hF : Feasible cfg) (s : State) (hs : Reachable cfg s)
    (A : Nat) (hA : A < 2 ^ cfg.VIRTUAL_ADDRESS_WIDTH) (v v0 : Int) :
    (resolve cfg s (pagePath cfg A) = none →
      PagedIn cfg A s s (VMwrite cfg s A v).2 v
      ∧ PagedIn cfg A s s (VMread cfg s A v0).2.2 (VMread cfg s A v0).2.1)
    ∧ (∀ f, resolve cfg s (pagePath cfg A) = some f →
      (VMwrite cfg s A v).2.log = s.log ∧ (VMread cfg s A v0).2.2.log = s.log)
    ∧ (∀ frames n va t sl, WalkerAt cfg A s frames (n + 1) va t sl →
      sl.ram (t * PAGE_SIZE cfg + va >>> (cfg.OFFSET_WIDTH + (n + 1) * cfg.OFFSET_WIDTH)) = 0 →
      isAllZeros cfg
        (clearTable cfg
          (PMwrite (getNextTable cfg sl t (A >>> cfg.OFFSET_WIDTH)).2
            (t * PAGE_SIZE cfg + va >>> (cfg.OFFSET_WIDTH + (n + 1) * cfg.OFFSET_WIDTH))
            ((getNextTable cfg sl t (A >>> cfg.OFFSET_WIDTH)).1 : Int))
          (getNextTable cfg sl t (A >>> cfg.OFFSET_WIDTH)).1)
        (getNextTable cfg sl t (A >>> cfg.OFFSET_WIDTH)).1 = true) := by
  have hI := hs.treeInv_reachable hF
  have hwr := VMreadWriteHelper_pagein hF A hA true v s (cfg.TABLES_DEPTH - 1) A [] 0 s [0]
    WalkerAt.start hI rfl rfl
  have hrd := VMreadWriteHelper_pagein hF A hA false v0 s (cfg.TABLES_DEPTH - 1) A [] 0 s [0]
    WalkerAt.start hI rfl rfl
  rw [VMwrite_eq hF hA, VMread_eq hF hA]
  refine ⟨fun hn => ⟨?_, hrd.1 hn⟩, fun f hf => ⟨(hwr.2 f hf).1, (hrd.2 f hf).1⟩, ?_⟩
  · have h := hwr.1 hn
    have hv : (VMreadWriteHelper cfg A true (cfg.TABLES_DEPTH - 1) A v 0 s).2.1 = v := by
      rw [(helper_top_spec hF hI hA true v).value, if_pos rfl]
    rw [hv] at h
    exact h
  · intro frames n va t sl _ _
    rw [isAllZeros_iff]
    intro i hi
    rw [clearTable_ram, if_pos]
    exact ⟨Nat.le_add_right _ _, Nat.add_lt_add_left hi _⟩

/-- Witness for C8: `VMwrite(13, 3)` and `VMread(13)` right after
`VMinitialize` on the tiny configuration. -/
theorem C8_page_in_witness :
    (resolve tinyConfig ( VMinitialize tinyConfig zeroState) (pagePath tinyConfig 13) = none →
      PagedIn tinyConfig 13 ( VMinitialize tinyConfig zeroState)
        ( VMinitialize tinyConfig zeroState)
        (VMwrite tinyConfig ( VMinitialize tinyConfig zeroState) 13 3).2 3
      ∧ PagedIn tinyConfig 13 ( VMinitialize tinyConfig zeroState)
        ( VMinitialize tinyConfig zeroState)
        (VMread tinyConfig ( VMinitialize tinyConfig zeroState) 13 0).2.2
        (VMread tinyConfig ( VMinitialize tinyConfig zeroState) 13 0).2.1)
    ∧ resolve tinyConfig ( VMinitialize tinyConfig zeroState) (pagePath tinyConfig 13) = none
    ∧ (VMwrite tinyConfig ( VMinitialize tinyConfig zeroState) 13 3).2.log
        = [Event.restore 4 6] :=
  ⟨(C8_page_in tinyConfig feasible_tinyConfig _ (Reachable.init zeroState) 13
    (by decide) 3 0).1, by decide, by decide⟩

/-! ## Effects of the scan and the allocator on the backing store -/

theorem traverseLoop_log_swap (cfg : Config)
    (d : Nat → Nat → State → Scan → Int × State × Scan)
    (hd : ∀ child page s sc, (d child page s sc).2.1.log = s.log
      ∧ (d child page s sc).2.1.swap = s.swap)
    (ta excl cp : Nat) (l : List Nat) :
    ∀ s sc, (traverseLoop cfg d ta excl cp l s sc).2.1.log = s.log
      ∧ (traverseLoop cfg d ta excl cp l s sc).2.1.swap = s.swap := by
  induction l with
  | nil => intro s sc; exact ⟨rfl, rfl⟩
  | cons i l ih =>
    intro s sc
    rw [traverseLoop_cons]
    split_ifs
    · exact ih s _
    · exact ⟨rfl, rfl⟩
    · obtain ⟨h1, h2⟩ := ih (d (toU64 (s.ram (ta + i))) ((cp <<< cfg.OFFSET_WIDTH) + i) s
        (sc.bump (s.ram (ta + i)))).2.1 (d (toU64 (s.ram (ta + i)))
        ((cp <<< cfg.OFFSET_WIDTH) + i) s (sc.bump (s.ram (ta + i)))).2.2
      obtain ⟨h3, h4⟩ := hd (toU64 (s.ram (ta + i))) ((cp <<< cfg.OFFSET_WIDTH) + i) s
        (sc.bump (s.ram (ta + i)))
      exact ⟨h1.trans h3, h2.trans h4⟩
    · exact hd _ _ _ _

/-- In any state, `traverseTree` makes no backing-store call and leaves the
backing store alone. -/
theorem traverseTree_log_swap (cfg : Config) (excl P : Nat) :
    ∀ n t cp s sc, (traverseTree cfg n t excl P cp s sc).2.1.log = s.log
      ∧ (traverseTree cfg n t excl P cp s sc).2.1.swap = s.swap := by
  intro n
  induction n with
  | zero => intro t cp s sc; exact ⟨rfl, rfl⟩
  | succ n ih =>
    intro t cp s sc
    rw [traverseTree_succ]
    exact traverseLoop_log_swap cfg _ (fun child page s1 sc1 => ih child page s1 sc1) _ _ _ _ s sc

/-- In any state, `getNextTable` calls `PMevict` at most once, on the frame it
returns, and never `PMrestore`. -/
theorem getNextTable_log (cfg : Config) (s : State) (excl P : Nat) :
    (getNextTable cfg s excl P).2.log = s.log
    ∨ (getNextTable cfg s excl P).2.log
        = s.log ++ [Event.evict (getNextTable cfg s excl P).1
            (traverseTree cfg (cfg.TABLES_DEPTH - 1) 0 excl P 0 s Scan.init).2.2.pageMaxDist] := by
  have hl := (traverseTree_log_swap cfg excl P (cfg.TABLES_DEPTH - 1) 0 0 s Scan.init).1
  unfold getNextTable
  dsimp only
  split_ifs
  · exact Or.inl hl
  · exact Or.inl hl
  · right
    rw [PMwrite_log, PMevict_log, hl]

/-- Rule 3 has a victim: when the scan completes with no frame above the
high-water mark left, a data page is resident. -/
theorem rule3_has_data {cfg : Config} {s : State} (hF : Feasible cfg) (hI : TreeInv cfg s)
    {cur : List Nat} (hcv : ValidPath cfg cur) (hcl : cur.length < cfg.TABLES_DEPTH)
    {excl : Nat} (hcr : resolve cfg s cur = some excl) {sc : Scan}
    (hd : ScanDone cfg s excl 0 0 (cfg.TABLES_DEPTH - 1) (List.range (PAGE_SIZE cfg))
      Scan.init sc)
    (hge : ¬ sc.maxIndex + 1 < NUM_FRAMES cfg) :
    ∃ p, ValidPath cfg p ∧ p.length = cfg.TABLES_DEPTH
      ∧ (resolve cfg s p).isSome = true := by
  have hdp := hF.depth_pos
  have hNF := hF.frames_suffice
  have hall : ∀ g, 1 ≤ g → g < NUM_FRAMES cfg → Linked cfg s g := by
    intro g hg1 hg2
    rcases hd.max_attained with h | ⟨i, q, _, hv, hq, hr⟩
    · have : sc.maxIndex = 0 := h
      omega
    · exact hI.closed sc.maxIndex g ⟨i :: q, hv, by simp; omega, by simp, hr⟩ hg1 (by omega)
  exact exists_data_page hF hI hcv hcl hcr
    (fun i q u hv hq hr => hd.noEmpty i q u (List.mem_range.2 (ValidPath_cons.1 hv).1) hv hq hr)
    hall

/-! ## Rule 1 takes the first empty table -/

theorem dfsBefore_cons_lt {i j : Nat} (p q : List Nat) (h : i < j) :
    dfsBefore (i :: p) (j :: q) = true := by
  simp [dfsBefore, h]

theorem dfsBefore_cons_same (i : Nat) (p q : List Nat) :
    dfsBefore (i :: p) (i :: q) = dfsBefore p q := by
  simp [dfsBefore]

theorem dfsBefore_nil_cons (j : Nat) (q : List Nat) : dfsBefore [] (j :: q) = true := rfl

theorem ScanFirst.lift_first {cfg : Config} {s : State} {excl t n i m : Nat}
    {r : Int × State × Scan}
    (hi : i < PAGE_SIZE cfg) (hm : m < 18446744073709551616)
    (he : s.ram (t * PAGE_SIZE cfg + i) = (m : Int)) (h0 : m ≠ 0)
    (hb : m = excl ∨ isAllZeros cfg s m = false)
    (h : ScanFirst cfg s excl m n (List.range (PAGE_SIZE cfg)) r) {rest : List Nat}
    (hrest : ∀ j ∈ rest, i < j) :
    ScanFirst cfg s excl t (n + 1) (i :: rest) r := by
  obtain ⟨q, u, j, h1, h2, h3, h4, h5, h6, h7, h8, h9, h10⟩ := h
  refine ⟨i :: q, u, j, ValidPath_cons.2 ⟨hi, h1⟩, by simpa using h2, h3, ?_, h5, h6, h7,
    h8, h9, ?_⟩
  · rw [resolveFrom_cons_natCast cfg s t i m q hm he h0]
    exact h4
  · intro k c hk hc
    rcases List.mem_cons.1 hk with rfl | hk
    · obtain ⟨hv, _, hl, v, hr, hve, hz⟩ := hc
      rw [resolveFrom_cons_natCast cfg s t k m c hm he h0] at hr
      cases c with
      | nil =>
        cases hr
        rcases hb with hb | hb
        · exact absurd hb hve
        · rw [hb] at hz
          cases hz
      | cons k2 c2 =>
        have hv2 := (ValidPath_cons.1 hv).2
        have := h10 k2 c2 (List.mem_range.2 (ValidPath_cons.1 hv2).1)
          ⟨hv2, by simp, by simpa using hl, v, hr, hve, hz⟩
        rcases this with e | e
        · left
          show k :: (k2 :: c2) = k :: (q ++ [j])
          rw [e]
        · right
          show dfsBefore (k :: (q ++ [j])) (k :: (k2 :: c2)) = true
          rw [dfsBefore_cons_same]
          exact e
    · right
      exact dfsBefore_cons_lt _ _ (hrest k hk)

theorem ScanFirst.skip {cfg : Config} {s : State} {excl t n i : Nat} {rest : List Nat}
    {r : Int × State × Scan} (h : ScanFirst cfg s excl t n rest r)
    (hno : ∀ c, ¬ EmptyTableAt cfg s excl t n (i :: c)) :
    ScanFirst cfg s excl t n (i :: rest) r := by
  obtain ⟨q, u, j, h1, h2, h3, h4, h5, h6, h7, h8, h9, h10⟩ := h
  refine ⟨q, u, j, h1, h2, h3, h4, h5, h6, h7, h8, h9, ?_⟩
  intro k c hk hc
  rcases List.mem_cons.1 hk with rfl | hk
  · exact absurd hc (hno c)
  · exact h10 k c hk hc

/-- The interior loop returns the first reclaimable table, given that the
recursive call does. -/
theorem traverseLoop_first (cfg : Config) (s : State) (excl P n t cp : Nat)
    (ih : ∀ t cp sc, GoodSub cfg s t n →
      (traverseTree cfg n t excl P cp s sc).1 ≠ -1 →
      ScanFirst cfg s excl t n (List.range (PAGE_SIZE cfg))
        (traverseTree cfg n t excl P cp s sc))
    (hg : GoodSub cfg s t (n + 1)) (l : List Nat) (hl : ∀ i ∈ l, i < PAGE_SIZE cfg)
    (hs : l.Pairwise (fun a b => a < b)) (sc : Scan) :
    (traverseLoop cfg
        (fun child page s1 sc1 => traverseTree cfg n child excl P page s1 sc1)
        (t * PAGE_SIZE cfg) excl cp l s sc).1 ≠ -1 →
    ScanFirst cfg s excl t (n + 1) l (traverseLoop cfg
        (fun child page s1 sc1 => traverseTree cfg n child excl P page s1 sc1)
        (t * PAGE_SIZE cfg) excl cp l s sc) := by
  induction l generalizing sc with
  | nil =>
    intro h
    rw [traverseLoop_nil] at h
    exact absurd rfl h
  | cons i l ihl =>
    have hi := hl i (List.mem_cons_self _ _)
    have hl2 : ∀ j ∈ l, j < PAGE_SIZE cfg := fun j hj => hl j (List.mem_cons_of_mem _ hj)
    have hs2 := (List.pairwise_cons.1 hs).2
    have hlt : ∀ j ∈ l, i < j := (List.pairwise_cons.1 hs).1
    obtain ⟨m, hm, he⟩ := hg [] t i (ValidPath_nil cfg) (Nat.zero_le _) rfl hi
    rw [traverseLoop_cons]
    by_cases h0 : m = 0
    · have hz : s.ram (t * PAGE_SIZE cfg + i) = 0 := by rw [he, h0]; rfl
      rw [if_pos hz, hz, Scan.bump_zero]
      intro hne
      apply (ihl hl2 hs2 sc hne).skip
      rintro c ⟨_, _, _, v, hr, _⟩
      rw [resolveFrom_cons_zero cfg s t i c hz] at hr
      cases hr
    · have hz : s.ram (t * PAGE_SIZE cfg + i) ≠ 0 := by rw [he]; exact_mod_cast h0
      rw [if_neg hz]
      have hu : toU64 (s.ram (t * PAGE_SIZE cfg + i)) = m := by
        rw [he, toU64_natCast m hm]
      rw [hu]
      by_cases hb : m ≠ excl ∧ isAllZeros cfg s m = true
      · rw [if_pos hb]
        intro _
        refine ⟨[], t, i, ValidPath_nil cfg, Nat.succ_pos _, hi, rfl, rfl, ?_, ?_, ?_, rfl, ?_⟩
        · show 0 < s.ram (t * PAGE_SIZE cfg + i)
          rw [he]
          exact_mod_cast Nat.pos_of_ne_zero h0
        · show toU64 (s.ram (t * PAGE_SIZE cfg + i)) ≠ excl
          rw [hu]; exact hb.1
        · show isAllZeros cfg s (toU64 (s.ram (t * PAGE_SIZE cfg + i))) = true
          rw [hu]; exact hb.2
        · intro k c hk _
          rcases List.mem_cons.1 hk with rfl | hk
          · cases c with
            | nil => exact Or.inl rfl
            | cons k2 c2 =>
              right
              show dfsBefore [k] (k :: k2 :: c2) = true
              rw [dfsBefore_cons_same]
              rfl
          · right
            exact dfsBefore_cons_lt _ _ (hlt k hk)
      · rw [if_neg hb]
        have hb2 : m = excl ∨ isAllZeros cfg s m = false := by
          by_cases hx : m = excl
          · exact Or.inl hx
          · right
            cases hall : isAllZeros cfg s m with
            | false => rfl
            | true => exact absurd ⟨hx, hall⟩ hb
        have hgc : GoodSub cfg s m n := hg.child hi hm he h0
        rcases traverseTree_spec cfg s excl P n m ((cp <<< cfg.OFFSET_WIDTH) + i)
          (sc.bump (s.ram (t * PAGE_SIZE cfg + i))) hgc with ⟨h1, h2, h3⟩ | hf
        · rw [if_pos h1, h2]
          intro hne
          apply (ihl hl2 hs2 _ hne).skip
          rintro c ⟨hv, _, hlen, v, hr, hve, hzz⟩
          rw [resolveFrom_cons_natCast cfg s t i m c hm he h0] at hr
          cases c with
          | nil =>
            cases hr
            rcases hb2 with hb2 | hb2
            · exact hve hb2
            · rw [hb2] at hzz
              cases hzz
          | cons k2 c2 =>
            have hv2 := (ValidPath_cons.1 hv).2
            rcases h3.noEmpty k2 c2 v (List.mem_range.2 (ValidPath_cons.1 hv2).1) hv2
              (by simp at hlen; omega) hr with h | h
            · exact hve h
            · rw [h] at hzz
              cases hzz
        · rw [if_neg hf.ne_neg_one]
          intro hne
          exact (ih m _ _ hgc hne).lift_first hi hm he h0 hb2 hlt

theorem range_pairwise_lt (n : Nat) : (List.range n).Pairwise (fun a b => a < b) :=
  List.pairwise_lt_range n

/-- When `traverseTree` stops at an empty table, that table is the first one
rule 1 may reclaim, in the order of the scan. -/
theorem traverseTree_first (cfg : Config) (s : State) (excl P : Nat) :
    ∀ n t cp sc, GoodSub cfg s t n →
      (traverseTree cfg n t excl P cp s sc).1 ≠ -1 →
      ScanFirst cfg s excl t n (List.range (PAGE_SIZE cfg))
        (traverseTree cfg n t excl P cp s sc) := by
  intro n
  induction n with
  | zero =>
    intro t cp sc _ h
    rw [traverseTree_zero] at h
    exact absurd rfl h
  | succ n ih =>
    intro t cp sc hg
    rw [traverseTree_succ]
    exact traverseLoop_first cfg s excl P n t cp ih hg _ (fun i hi => List.mem_range.1 hi)
      (range_pairwise_lt _) sc

/-! ## The victim the scan records -/

theorem traverseLoop_victim_any (cfg : Config) (s : State) (excl P n t cp : Nat)
    (ih : ∀ t cp sc, GoodSub cfg s t n →
      SameVictim sc (traverseTree cfg n t excl P cp s sc).2.2
      ∨ VictimIn cfg s t cp n (traverseTree cfg n t excl P cp s sc).2.2)
    (hg : GoodSub cfg s t (n + 1)) (l : List Nat) (hl : ∀ i ∈ l, i < PAGE_SIZE cfg)
    (sc : Scan) :
    SameVictim sc (traverseLoop cfg
        (fun child page s1 sc1 => traverseTree cfg n child excl P page s1 sc1)
        (t * PAGE_SIZE cfg) excl cp l s sc).2.2
    ∨ VictimIn cfg s t cp (n + 1) (traverseLoop cfg
        (fun child page s1 sc1 => traverseTree cfg n child excl P page s1 sc1)
        (t * PAGE_SIZE cfg) excl cp l s sc).2.2 := by
  induction l generalizing sc with
  | nil => exact Or.inl (SameVictim.refl sc)
  | cons i l ihl =>
    have hi := hl i (List.mem_cons_self _ _)
    have hl2 : ∀ j ∈ l, j < PAGE_SIZE cfg := fun j hj => hl j (List.mem_cons_of_mem _ hj)
    obtain ⟨m, hm, he⟩ := hg [] t i (ValidPath_nil cfg) (Nat.zero_le _) rfl hi
    have hbf := Scan.bump_facts sc m hm
    rw [← he] at hbf
    have hsame := hbf.2.2.2
    rw [traverseLoop_cons]
    by_cases h0 : m = 0
    · have hz : s.ram (t * PAGE_SIZE cfg + i) = 0 := by rw [he, h0]; rfl
      rw [if_pos hz]
      rcases ihl hl2 (sc.bump (s.ram (t * PAGE_SIZE cfg + i))) with h | h
      · exact Or.inl (hsame.trans h)
      · exact Or.inr h
    · have hz : s.ram (t * PAGE_SIZE cfg + i) ≠ 0 := by rw [he]; exact_mod_cast h0
      rw [if_neg hz]
      have hu : toU64 (s.ram (t * PAGE_SIZE cfg + i)) = m := by
        rw [he, toU64_natCast m hm]
      rw [hu]
      by_cases hb : m ≠ excl ∧ isAllZeros cfg s m = true
      · rw [if_pos hb]
        exact Or.inl hsame
      · rw [if_neg hb]
        have hgc : GoodSub cfg s m n := hg.child hi hm he h0
        have hchild : SameVictim sc (traverseTree cfg n m excl P
              ((cp <<< cfg.OFFSET_WIDTH) + i) s
              (sc.bump (s.ram (t * PAGE_SIZE cfg + i)))).2.2
            ∨ VictimIn cfg s t cp (n + 1) (traverseTree cfg n m excl P
              ((cp <<< cfg.OFFSET_WIDTH) + i) s
              (sc.bump (s.ram (t * PAGE_SIZE cfg + i)))).2.2 := by
          rcases ih m ((cp <<< cfg.OFFSET_WIDTH) + i)
            (sc.bump (s.ram (t * PAGE_SIZE cfg + i))) hgc with h | h
          · exact Or.inl (hsame.trans h)
          · exact Or.inr (h.lift_victim hi hm he h0)
        rcases traverseTree_spec cfg s excl P n m ((cp <<< cfg.OFFSET_WIDTH) + i)
          (sc.bump (s.ram (t * PAGE_SIZE cfg + i))) hgc with ⟨h1, h2, _⟩ | hf
        · rw [if_pos h1, h2]
          rcases ihl hl2 (traverseTree cfg n m excl P ((cp <<< cfg.OFFSET_WIDTH) + i) s
            (sc.bump (s.ram (t * PAGE_SIZE cfg + i)))).2.2 with h | h
          · rcases hchild with hc | hc
            · exact Or.inl (hc.trans h)
            · exact Or.inr (hc.of_same h)
          · exact Or.inr h
        · rw [if_neg hf.ne_neg_one]
          exact hchild

/-- Whatever `traverseTree` returns, the victim out-parameters are either as
they were or describe a resident data page below the table scanned. -/
theorem traverseTree_victim_any (cfg : Config) (s : State) (excl P : Nat) :
    ∀ n t cp sc, GoodSub cfg s t n →
      SameVictim sc (traverseTree cfg n t excl P cp s sc).2.2
      ∨ VictimIn cfg s t cp n (traverseTree cfg n t excl P cp s sc).2.2 := by
  intro n
  induction n with
  | zero =>
    intro t cp sc hg
    rw [traverseTree_zero]
    exact (leafFold_done cfg s excl t P cp _ sc (fun i hi => List.mem_range.1 hi) hg).victim
  | succ n ih =>
    intro t cp sc hg
    rw [traverseTree_succ]
    exact traverseLoop_victim_any cfg s excl P n t cp ih hg _
      (fun i hi => List.mem_range.1 hi) sc

theorem encodeFrom_lt (cfg : Config) :
    ∀ (p : List Nat) (acc : Nat), ValidPath cfg p →
      encodeFrom cfg acc p < (acc + 1) * PAGE_SIZE cfg ^ p.length := by
  intro p
  induction p with
  | nil => intro acc _; simp [encodeFrom]
  | cons i p ih =>
    intro acc hv
    have hi := (ValidPath_cons.1 hv).1
    have := ih ((acc <<< cfg.OFFSET_WIDTH) + i) (ValidPath_cons.1 hv).2
    rw [shiftLeft_offset] at this
    show encodeFrom cfg ((acc <<< cfg.OFFSET_WIDTH) + i) p < _
    rw [shiftLeft_offset]
    apply lt_of_lt_of_le this
    rw [List.length_cons, pow_succ, ← mul_assoc]
    have h1 : acc * PAGE_SIZE cfg + i + 1 ≤ (acc + 1) * PAGE_SIZE cfg := by
      rw [add_mul, one_mul]
      omega
    calc (acc * PAGE_SIZE cfg + i + 1) * PAGE_SIZE cfg ^ p.length
        ≤ ((acc + 1) * PAGE_SIZE cfg) * PAGE_SIZE cfg ^ p.length :=
          Nat.mul_le_mul_right _ h1
      _ = (acc + 1) * PAGE_SIZE cfg ^ p.length * PAGE_SIZE cfg := by ring

/-- Decoding the addresses of the page a walk encodes gives the walk back. -/
theorem rows_encodeFrom (cfg : Config) (n : Nat) (p : List Nat) (o : Nat)
    (hv : ValidPath cfg p) (hl : p.length = n + 1) (ho : o < PAGE_SIZE cfg) :
    rows cfg n (encodeFrom cfg 0 p * PAGE_SIZE cfg + o) = p := by
  have hP := PAGE_SIZE_pos cfg
  have hb := encodeFrom_lt cfg p 0 hv
  rw [zero_add, one_mul, hl] at hb
  have hva : encodeFrom cfg 0 p * PAGE_SIZE cfg + o < PAGE_SIZE cfg ^ (n + 2) := by
    have h1 : encodeFrom cfg 0 p + 1 ≤ PAGE_SIZE cfg ^ (n + 1) := hb
    calc encodeFrom cfg 0 p * PAGE_SIZE cfg + o
        < (encodeFrom cfg 0 p + 1) * PAGE_SIZE cfg := by rw [add_mul, one_mul]; omega
      _ ≤ PAGE_SIZE cfg ^ (n + 1) * PAGE_SIZE cfg := Nat.mul_le_mul_right _ h1
      _ = PAGE_SIZE cfg ^ (n + 2) := by rw [← pow_succ]
  have hdiv : (encodeFrom cfg 0 p * PAGE_SIZE cfg + o) / PAGE_SIZE cfg = encodeFrom cfg 0 p := by
    rw [Nat.mul_comm, Nat.mul_add_div hP, Nat.div_eq_of_lt ho, Nat.add_zero]
  have henc := encodeFrom_rows cfg n (encodeFrom cfg 0 p * PAGE_SIZE cfg + o) 0
  rw [zero_mul, zero_add, hdiv] at henc
  exact (encodeFrom_inj cfg _ p 0 0 (rows_valid cfg n _ hva) hv
    (by rw [rows_length, hl]) henc).2

/-- Running calls from a reachable state gives a reachable state. -/
theorem reachable_runOps {cfg : Config} (ops : List Op) :
    ∀ {s : State}, Reachable cfg s → Reachable cfg (runOps cfg s ops) := by
  induction ops with
  | nil => intro s h; exact h
  | cons op ops ih =>
    intro s h
    show Reachable cfg (runOps cfg (applyOp cfg s op) ops)
    apply ih
    cases op with
    | read A => exact Reachable.read A 0 h
    | write A v => exact Reachable.write A v h

theorem reachable_emptyTableState : Reachable tinyConfig emptyTableState :=
  reachable_runOps _ (Reachable.init zeroState)

theorem reachable_elevenPagesState : Reachable tinyConfig elevenPagesState :=
  reachable_runOps _ (Reachable.init zeroState)

/-- A rule-1 candidate stops the scan of the whole tree. -/
theorem scan_found_of_candidate {cfg : Config} {s : State} (hF : Feasible cfg)
    (hI : TreeInv cfg s) (excl P : Nat) {c : List Nat}
    (hc : EmptyTableAt cfg s excl 0 (cfg.TABLES_DEPTH - 1) c) :
    ScanFound cfg s excl 0 (cfg.TABLES_DEPTH - 1)
      (traverseTree cfg (cfg.TABLES_DEPTH - 1) 0 excl P 0 s Scan.init) := by
  rcases traverseTree_spec cfg s excl P (cfg.TABLES_DEPTH - 1) 0 0 Scan.init (hI.goodSub hF)
    with ⟨_, _, h3⟩ | hf
  · obtain ⟨hv, hne, hl, v, hr, hve, hz⟩ := hc
    cases c with
    | nil => exact absurd rfl hne
    | cons j c =>
      rcases h3.noEmpty j c v (List.mem_range.2 (ValidPath_cons.1 hv).1) hv
        (by simp at hl; omega) hr with h | h
      · exact absurd h hve
      · rw [hz] at h; exact absurd h (by decide)
  · exact hf

/-- Without a rule-1 candidate the scan of the whole tree runs to the end. -/
theorem scan_done_of_no_candidate {cfg : Config} {s : State} (hF : Feasible cfg)
    (hI : TreeInv cfg s) (excl P : Nat)
    (hno : ∀ c, ¬ EmptyTableAt cfg s excl 0 (cfg.TABLES_DEPTH - 1) c) :
    (traverseTree cfg (cfg.TABLES_DEPTH - 1) 0 excl P 0 s Scan.init).1 = -1
    ∧ (traverseTree cfg (cfg.TABLES_DEPTH - 1) 0 excl P 0 s Scan.init).2.1 = s
    ∧ ScanDone cfg s excl 0 0 (cfg.TABLES_DEPTH - 1) (List.range (PAGE_SIZE cfg)) Scan.init
        (traverseTree cfg (cfg.TABLES_DEPTH - 1) 0 excl P 0 s Scan.init).2.2 := by
  rcases traverseTree_spec cfg s excl P (cfg.TABLES_DEPTH - 1) 0 0 Scan.init (hI.goodSub hF)
    with h | hf
  · exact h
  · exfalso
    obtain ⟨q, u, i, hv, hl, hi, hr, he, hpos, hexc, hz, _⟩ := hf
    obtain ⟨m, hm, hem⟩ := hI.goodSub hF q u i hv (by omega) hr hi
    have hm0 : m ≠ 0 := by
      rintro rfl
      rw [← he, hem] at hpos
      exact absurd hpos (by decide)
    have hto : toU64 (traverseTree cfg (cfg.TABLES_DEPTH - 1) 0 excl P 0 s Scan.init).1 = m := by
      rw [← he, hem, toU64_natCast m hm]
    rw [hto] at hexc hz
    refine hno (q ++ [i]) ⟨ValidPath_append.2 ⟨hv, ValidPath_singleton hi⟩, by simp,
      by simp; omega, m, ?_, hexc, hz⟩
    exact resolve_snoc_natCast hr hm hem hm0

/-- A scan of the whole tree that reports no empty table ran to the end. -/
theorem scan_done_of_not_pos {cfg : Config} {s : State} (hF : Feasible cfg)
    (hI : TreeInv cfg s) (excl P : Nat)
    (h : ¬ (traverseTree cfg (cfg.TABLES_DEPTH - 1) 0 excl P 0 s Scan.init).1 > 0) :
    (traverseTree cfg (cfg.TABLES_DEPTH - 1) 0 excl P 0 s Scan.init).1 = -1
    ∧ (traverseTree cfg (cfg.TABLES_DEPTH - 1) 0 excl P 0 s Scan.init).2.1 = s
    ∧ ScanDone cfg s excl 0 0 (cfg.TABLES_DEPTH - 1) (List.range (PAGE_SIZE cfg)) Scan.init
        (traverseTree cfg (cfg.TABLES_DEPTH - 1) 0 excl P 0 s Scan.init).2.2 := by
  rcases traverseTree_spec cfg s excl P (cfg.TABLES_DEPTH - 1) 0 0 Scan.init (hI.goodSub hF)
    with hd | hf
  · exact hd
  · obtain ⟨_, _, _, _, _, _, _, _, hpos, _⟩ := hf
    exact absurd hpos h

/-- A completed scan of the whole tree has met no rule-1 candidate. -/
theorem no_candidate_of_done {cfg : Config} {s : State} {excl : Nat} {sc : Scan}
    (hd : ScanDone cfg s excl 0 0 (cfg.TABLES_DEPTH - 1) (List.range (PAGE_SIZE cfg))
      Scan.init sc) :
    ∀ c, ¬ EmptyTableAt cfg s excl 0 (cfg.TABLES_DEPTH - 1) c := by
  rintro c ⟨hv, hne, hl, v, hr, hve, hz⟩
  cases c with
  | nil => exact hne rfl
  | cons j c =>
    rcases hd.noEmpty j c v (List.mem_range.2 (ValidPath_cons.1 hv).1) hv
      (by simp at hl; omega) hr with h | h
    · exact hve h
    · rw [hz] at h; exact absurd h (by decide)

/-- Rule 3 has a victim: the scan has recorded a resident data page. -/
theorem rule3_victim {cfg : Config} {s : State} (hF : Feasible cfg) (hI : TreeInv cfg s)
    {cur : List Nat} (hcv : ValidPath cfg cur) (hcl : cur.length < cfg.TABLES_DEPTH)
    {excl : Nat} (hcr : resolve cfg s cur = some excl) {sc : Scan}
    (hd : ScanDone cfg s excl 0 0 (cfg.TABLES_DEPTH - 1) (List.range (PAGE_SIZE cfg))
      Scan.init sc)
    (hge : ¬ sc.maxIndex + 1 < NUM_FRAMES cfg) :
    VictimIn cfg s 0 0 (cfg.TABLES_DEPTH - 1) sc := by
  have hdp := hF.depth_pos
  obtain ⟨p0, hv0, hl0, hs0⟩ := rule3_has_data hF hI hcv hcl hcr hd hge
  apply hd.victim_found rfl
  cases p0 with
  | nil => simp at hl0; omega
  | cons i q =>
    exact ⟨i, q, List.mem_range.2 (ValidPath_cons.1 hv0).1, hv0,
      by simp at hl0; omega, hs0⟩

/-- The victim out-parameters of a scan of the whole tree, spelled out: the
father address is slot `i` of the table at the end of a walk `q` of
`TABLES_DEPTH - 1` slots, that slot holds the victim frame `f`, and the victim
page is the number of the walk `q ++ [i]`. -/
theorem victim_facts {cfg : Config} {s : State} (hF : Feasible cfg) (hI : TreeInv cfg s)
    {sc : Scan} (hv : VictimIn cfg s 0 0 (cfg.TABLES_DEPTH - 1) sc) :
    ∃ q u i f, ValidPath cfg q ∧ q.length + 1 = cfg.TABLES_DEPTH ∧ i < PAGE_SIZE cfg
      ∧ resolve cfg s q = some u
      ∧ 1 ≤ f ∧ f < NUM_FRAMES cfg
      ∧ s.ram (u * PAGE_SIZE cfg + i) = (f : Int)
      ∧ sc.indexMaxDistance = (f : Int) ∧ toU64 sc.indexMaxDistance = f
      ∧ sc.cyclicFrameFatherAddress = u * PAGE_SIZE cfg + i
      ∧ sc.pageMaxDist = encodeFrom cfg 0 (q ++ [i])
      ∧ resolve cfg s (q ++ [i]) = some f := by
  have hdp := hF.depth_pos
  obtain ⟨q, i, u, hvq, hql, hi, hu, hne0, hidx, hpage, hfather⟩ := hv
  have hu1 : resolve cfg s q = some u := hu
  obtain ⟨m, hmN, hem⟩ := hI.range q u i hvq (by omega) hu1 hi
  have hm : m < 18446744073709551616 := lt_of_lt_of_le hmN hF.frames_fit
  have hm0 : m ≠ 0 := by
    rintro rfl
    exact hne0 hem
  refine ⟨q, u, i, m, hvq, by omega, hi, hu1, by omega, hmN, hem, by rw [hidx, hem],
    by rw [hidx, hem, toU64_natCast m hm], hfather, hpage,
    resolve_snoc_natCast hu1 hm hem hm0⟩

/-- Clearing the leaf-level slot of a resident data page: the walk to the
table that held it resolves as before and now finds `0` in that slot. -/
theorem resolve_after_clear {cfg : Config} {s s1 : State} (hF : Feasible cfg)
    (hI : TreeInv cfg s) {q : List Nat} {u i f : Nat} (hvq : ValidPath cfg q)
    (hql : q.length + 1 = cfg.TABLES_DEPTH) (hi : i < PAGE_SIZE cfg)
    (hu : resolve cfg s q = some u) (hf1 : 1 ≤ f) (hfN : f < NUM_FRAMES cfg)
    (he : s.ram (u * PAGE_SIZE cfg + i) = (f : Int))
    (hs1 : ∀ a, s1.ram a = if a = u * PAGE_SIZE cfg + i then 0 else s.ram a) :
    resolve cfg s1 q = some u ∧ s1.ram (u * PAGE_SIZE cfg + i) = 0
      ∧ resolve cfg s1 (q ++ [i]) = none := by
  have hm : f < 18446744073709551616 := lt_of_lt_of_le hfN hF.frames_fit
  have hm0 : f ≠ 0 := by omega
  have hqf : resolve cfg s (q ++ [i]) = some f := resolve_snoc_natCast hu hm he hm0
  have hvqf : ValidPath cfg (q ++ [i]) := ValidPath_append.2 ⟨hvq, ValidPath_singleton hi⟩
  have hleaf : ∀ j rest, ValidPath cfg (j :: rest) →
      (q ++ [i] ++ j :: rest).length ≤ cfg.TABLES_DEPTH →
      resolveFrom cfg s f (j :: rest) = none := by
    intro j rest _ hl
    simp at hl
    omega
  have hform : ∀ p, ValidPath cfg p → p.length ≤ cfg.TABLES_DEPTH →
      resolve cfg s1 p = if resolve cfg s p = some f then none else resolve cfg s p :=
    fun p hvp hlp =>
      resolve_unlink hI.inj hvq (by omega) hu hi hm he hm0 hleaf (by rw [hs1, if_pos rfl])
        (fun a ha => by rw [hs1, if_neg ha]) hvp hlp
  refine ⟨?_, by rw [hs1, if_pos rfl], ?_⟩
  · rw [hform q hvq (by omega), if_neg, hu]
    intro hc
    have := hI.inj q (q ++ [i]) f hvq hvqf (by omega) (by simp; omega) hc hqf
    have h2 := congrArg List.length this
    simp at h2
  · rw [hform (q ++ [i]) hvqf (by simp; omega), if_pos hqf]

/-! ## The address decoder of the walker -/

theorem traverseLoopFuel_cons (cfg : Config)
    (d : Nat → Nat → State → Scan → Option (Int × State × Scan)) (ta excl cp i : Nat)
    (rest : List Nat) (s : State) (sc : Scan) :
    traverseLoopFuel cfg d ta excl cp (i :: rest) s sc
      = if s.ram (ta + i) = 0 then
          traverseLoopFuel cfg d ta excl cp rest s (sc.bump (s.ram (ta + i)))
        else if toU64 (s.ram (ta + i)) ≠ excl
            ∧ isAllZeros cfg s (toU64 (s.ram (ta + i))) = true then
          some (s.ram (ta + i), PMwrite s (ta + i) 0, sc.bump (s.ram (ta + i)))
        else
          match d (toU64 (s.ram (ta + i))) ((cp <<< cfg.OFFSET_WIDTH) + i) s
              (sc.bump (s.ram (ta + i))) with
          | none => none
          | some r =>
            if r.1 = -1 then traverseLoopFuel cfg d ta excl cp rest r.2.1 r.2.2
            else some r := rfl

/-- A bounded loop whose recursive calls all return agrees with the loop of
the model. -/
theorem traverseLoopFuel_eq (cfg : Config)
    (dF : Nat → Nat → State → Scan → Option (Int × State × Scan))
    (d : Nat → Nat → State → Scan → Int × State × Scan)
    (hd : ∀ c pg s sc, dF c pg s sc = some (d c pg s sc)) (ta excl cp : Nat) :
    ∀ (l : List Nat) (s : State) (sc : Scan),
      traverseLoopFuel cfg dF ta excl cp l s sc = some (traverseLoop cfg d ta excl cp l s sc) := by
  intro l
  induction l with
  | nil => intro s sc; rfl
  | cons i l ih =>
    intro s sc
    rw [traverseLoopFuel_cons, traverseLoop_cons]
    by_cases h0 : s.ram (ta + i) = 0
    · rw [if_pos h0, if_pos h0]
      exact ih s _
    · rw [if_neg h0, if_neg h0]
      by_cases hb : toU64 (s.ram (ta + i)) ≠ excl
          ∧ isAllZeros cfg s (toU64 (s.ram (ta + i))) = true
      · rw [if_pos hb, if_pos hb]
      · rw [if_neg hb, if_neg hb, hd]
        show (if _ then _ else _) = _
        by_cases h1 : (d (toU64 (s.ram (ta + i))) ((cp <<< cfg.OFFSET_WIDTH) + i) s
            (sc.bump (s.ram (ta + i)))).1 = -1
        · rw [if_pos h1, if_pos h1]
          exact ih _ _
        · rw [if_neg h1, if_neg h1]

/-- With `depth + levelsLeft = TABLES_DEPTH`, `levelsLeft + 1` nested calls
are enough for `traverseTree`, whatever the memory holds. -/
theorem traverseTreeFuel_eq (cfg : Config) (excl P : Nat) :
    ∀ n fuel depth, depth + n = cfg.TABLES_DEPTH → n + 1 ≤ fuel →
      ∀ rootIndex cp s sc,
        traverseTreeFuel cfg fuel rootIndex depth excl P cp s sc
          = some (traverseTree cfg n rootIndex excl P cp s sc) := by
  intro n
  induction n with
  | zero =>
    intro fuel depth hd hf rootIndex cp s sc
    obtain ⟨f, rfl⟩ : ∃ f, fuel = f + 1 := ⟨fuel - 1, by omega⟩
    rw [traverseTreeFuel, if_pos (by omega), traverseTree_zero]
  | succ n ih =>
    intro fuel depth hd hf rootIndex cp s sc
    obtain ⟨f, rfl⟩ : ∃ f, fuel = f + 1 := ⟨fuel - 1, by omega⟩
    rw [traverseTreeFuel, if_neg (by omega), traverseTree_succ]
    exact traverseLoopFuel_eq cfg _ _
      (fun c pg s1 sc1 => ih f (depth + 1) (by omega) (by omega) c pg s1 sc1) _ _ _ _ _ _

theorem getNextTableFuel_eq (cfg : Config) (hTD : 1 ≤ cfg.TABLES_DEPTH) (scanFuel : Nat)
    (hsf : cfg.TABLES_DEPTH ≤ scanFuel) (s : State) (excl P : Nat) :
    getNextTableFuel cfg scanFuel s excl P = some (getNextTable cfg s excl P) := by
  unfold getNextTableFuel getNextTable
  rw [traverseTreeFuel_eq cfg excl P (cfg.TABLES_DEPTH - 1) scanFuel 1 (by omega) (by omega)]
  dsimp only
  split_ifs <;> rfl

/-- With `currentDepth + levelsLeft = TABLES_DEPTH`, `levelsLeft + 1` nested
calls are enough for `VMreadWriteHelper`, whatever the memory holds; the call
reads `levelsLeft + 1` page-table words, calls `getNextTable` at most that
often and `PMrestore` at most once. -/
theorem VMreadWriteHelperFuel_eq (cfg : Config) (hTD : 1 ≤ cfg.TABLES_DEPTH) (scanFuel : Nat)
    (hsf : cfg.TABLES_DEPTH ≤ scanFuel) (A : Nat) (w : Bool) (v : Int) :
    ∀ n fuel depth, depth + n = cfg.TABLES_DEPTH → n + 1 ≤ fuel →
      ∀ va t s (wk : Work), ∃ wk1 : Work,
        VMreadWriteHelperFuel cfg scanFuel A w fuel depth va v t s wk
          = some ((VMreadWriteHelper cfg A w n va v t s).1,
              (VMreadWriteHelper cfg A w n va v t s).2.1,
              (VMreadWriteHelper cfg A w n va v t s).2.2, wk1)
        ∧ wk1.lookups = wk.lookups + (n + 1)
        ∧ wk1.allocs ≤ wk.allocs + (n + 1)
        ∧ wk1.restores ≤ wk.restores + 1 := by
  intro n
  induction n with
  | zero =>
    intro fuel depth hd hf va t s wk
    obtain ⟨f, rfl⟩ : ∃ f, fuel = f + 1 := ⟨fuel - 1, by omega⟩
    have hdd : depth = cfg.TABLES_DEPTH := by omega
    subst hdd
    rw [VMreadWriteHelperFuel, VMreadWriteHelper_zero]
    simp only [Nat.sub_self, PMread, getNextTableFuel_eq cfg hTD scanFuel hsf, if_true]
    by_cases h0 : s.ram (t * PAGE_SIZE cfg + va >>> (cfg.OFFSET_WIDTH + 0 * cfg.OFFSET_WIDTH)) = 0
    · rw [if_pos h0, if_pos h0]
      cases w
      · exact ⟨_, rfl, rfl, by simp, by simp⟩
      · exact ⟨_, rfl, rfl, by simp, by simp⟩
    · rw [if_neg h0, if_neg h0]
      cases w
      · exact ⟨_, rfl, rfl, by simp, by simp⟩
      · exact ⟨_, rfl, rfl, by simp, by simp⟩
  | succ n ih =>
    intro fuel depth hd hf va t s wk
    obtain ⟨f, rfl⟩ : ∃ f, fuel = f + 1 := ⟨fuel - 1, by omega⟩
    have hne : depth ≠ cfg.TABLES_DEPTH := by omega
    have hsub : cfg.TABLES_DEPTH - depth = n + 1 := by omega
    rw [VMreadWriteHelperFuel, VMreadWriteHelper_succ]
    simp only [hsub, PMread, getNextTableFuel_eq cfg hTD scanFuel hsf, if_neg hne]
    by_cases h0 : s.ram (t * PAGE_SIZE cfg
        + va >>> (cfg.OFFSET_WIDTH + (n + 1) * cfg.OFFSET_WIDTH)) = 0
    · rw [if_pos h0, if_pos h0]
      obtain ⟨wk1, h1, h2, h3, h4⟩ := ih f (depth + 1) (by omega) (by omega)
        (va % 2 ^ (cfg.OFFSET_WIDTH + (n + 1) * cfg.OFFSET_WIDTH))
        (getNextTable cfg s t (A >>> cfg.OFFSET_WIDTH)).1
        (clearTable cfg (PMwrite (getNextTable cfg s t (A >>> cfg.OFFSET_WIDTH)).2
          (t * PAGE_SIZE cfg + va >>> (cfg.OFFSET_WIDTH + (n + 1) * cfg.OFFSET_WIDTH))
          ((getNextTable cfg s t (A >>> cfg.OFFSET_WIDTH)).1 : Int))
          (getNextTable cfg s t (A >>> cfg.OFFSET_WIDTH)).1)
        { lookups := wk.lookups + 1, allocs := wk.allocs + 1, restores := wk.restores }
      exact ⟨wk1, h1, by rw [h2]; simp only; omega, by simp only at h3; omega, h4⟩
    · rw [if_neg h0, if_neg h0]
      obtain ⟨wk1, h1, h2, h3, h4⟩ := ih f (depth + 1) (by omega) (by omega)
        (va % 2 ^ (cfg.OFFSET_WIDTH + (n + 1) * cfg.OFFSET_WIDTH))
        (toU64 (s.ram (t * PAGE_SIZE cfg
          + va >>> (cfg.OFFSET_WIDTH + (n + 1) * cfg.OFFSET_WIDTH)))) s
        { lookups := wk.lookups + 1, allocs := wk.allocs, restores := wk.restores }
      exact ⟨wk1, h1, by rw [h2]; simp only; omega, by simp only at h3; omega, h4⟩

/-! ## Access to a resident page -/

/-- When every slot still to read is non-zero, `VMreadWriteHelper` touches
only the data word, in any memory. -/
theorem helper_resident (cfg : Config) (A : Nat) (w : Bool) (v : Int) (s : State) (f : Nat) :
    ∀ n va t, resolveFrom cfg s t (rows cfg n va) = some f →
      VMreadWriteHelper cfg A w n va v t s
        = if w = true then (1, v, PMwrite s (f * PAGE_SIZE cfg + A % 2 ^ cfg.OFFSET_WIDTH) v)
          else (1, s.ram (f * PAGE_SIZE cfg + A % 2 ^ cfg.OFFSET_WIDTH), s) := by
  intro n
  induction n with
  | zero =>
    intro va t h
    rw [rows_zero_eq, resolveFrom_cons] at h
    by_cases h0 : s.ram (t * PAGE_SIZE cfg + va >>> (cfg.OFFSET_WIDTH + 0 * cfg.OFFSET_WIDTH)) = 0
    · rw [if_pos h0] at h
      exact absurd h (by simp)
    · rw [if_neg h0] at h
      have hf : toU64 (s.ram (t * PAGE_SIZE cfg
          + va >>> (cfg.OFFSET_WIDTH + 0 * cfg.OFFSET_WIDTH))) = f := by
        simpa [resolveFrom] using h
      rw [VMreadWriteHelper_zero, if_neg h0, hf]
  | succ n ih =>
    intro va t h
    rw [rows_succ_eq, resolveFrom_cons] at h
    by_cases h0 : s.ram (t * PAGE_SIZE cfg
        + va >>> (cfg.OFFSET_WIDTH + (n + 1) * cfg.OFFSET_WIDTH)) = 0
    · rw [if_pos h0] at h
      exact absurd h (by simp)
    · rw [if_neg h0] at h
      rw [VMreadWriteHelper_succ, if_neg h0]
      exact ih _ _ h

/-- The same with the depth counter: the walk reads `levelsLeft + 1`
page-table words and calls neither `getNextTable` nor `PMrestore`. -/
theorem helperFuel_resident (cfg : Config) (scanFuel A : Nat) (w : Bool) (v : Int) (s : State)
    (f : Nat) :
    ∀ n fuel depth, depth + n = cfg.TABLES_DEPTH → n + 1 ≤ fuel →
      ∀ va t (wk : Work), resolveFrom cfg s t (rows cfg n va) = some f →
        VMreadWriteHelperFuel cfg scanFuel A w fuel depth va v t s wk
          = if w = true then
              some (1, v, PMwrite s (f * PAGE_SIZE cfg + A % 2 ^ cfg.OFFSET_WIDTH) v,
                ⟨wk.lookups + (n + 1), wk.allocs, wk.restores⟩)
            else some (1, s.ram (f * PAGE_SIZE cfg + A % 2 ^ cfg.OFFSET_WIDTH), s,
                ⟨wk.lookups + (n + 1), wk.allocs, wk.restores⟩) := by
  intro n
  induction n with
  | zero =>
    intro fuel depth hd hf va t wk h
    obtain ⟨fl, rfl⟩ : ∃ fl, fuel = fl + 1 := ⟨fuel - 1, by omega⟩
    have hdd : depth = cfg.TABLES_DEPTH := by omega
    subst hdd
    rw [rows_zero_eq, resolveFrom_cons] at h
    by_cases h0 : s.ram (t * PAGE_SIZE cfg + va >>> (cfg.OFFSET_WIDTH + 0 * cfg.OFFSET_WIDTH)) = 0
    · rw [if_pos h0] at h
      exact absurd h (by simp)
    · rw [if_neg h0] at h
      have hfr : toU64 (s.ram (t * PAGE_SIZE cfg
          + va >>> (cfg.OFFSET_WIDTH + 0 * cfg.OFFSET_WIDTH))) = f := by
        simpa [resolveFrom] using h
      rw [VMreadWriteHelperFuel]
      simp only [Nat.sub_self, PMread, if_neg h0, if_true, hfr]
  | succ n ih =>
    intro fuel depth hd hf va t wk h
    obtain ⟨fl, rfl⟩ : ∃ fl, fuel = fl + 1 := ⟨fuel - 1, by omega⟩
    have hne : depth ≠ cfg.TABLES_DEPTH := by omega
    have hsub : cfg.TABLES_DEPTH - depth = n + 1 := by omega
    rw [rows_succ_eq, resolveFrom_cons] at h
    by_cases h0 : s.ram (t * PAGE_SIZE cfg
        + va >>> (cfg.OFFSET_WIDTH + (n + 1) * cfg.OFFSET_WIDTH)) = 0
    · rw [if_pos h0] at h
      exact absurd h (by simp)
    · rw [if_neg h0] at h
      rw [VMreadWriteHelperFuel]
      simp only [hsub, PMread, if_neg h0, if_neg hne]
      rw [ih fl (depth + 1) (by omega) (by omega) _ _ _ h]
      have e : wk.lookups + 1 + (n + 1) = wk.lookups + (n + 1 + 1) := by omega
      simp only [e]

/-- A walk that resolves ends in the value of its last slot. -/
theorem resolve_last_slot {cfg : Config} {s : State} {p : List Nat} {f : Nat}
    (hne : p ≠ []) (h : resolve cfg s p = some f) :
    ∃ q i u, p = q ++ [i] ∧ resolve cfg s q = some u
      ∧ s.ram (u * PAGE_SIZE cfg + i) ≠ 0 ∧ f = toU64 (s.ram (u * PAGE_SIZE cfg + i)) := by
  rcases List.eq_nil_or_concat p with h0 | ⟨q, i, hp⟩
  · exact absurd h0 hne
  · rw [List.concat_eq_append] at hp
    subst hp
    unfold resolve at h
    rw [resolveFrom_snoc] at h
    cases hq : resolveFrom cfg s 0 q with
    | none => rw [hq] at h; exact absurd h (by simp)
    | some u =>
      rw [hq] at h
      by_cases h0 : s.ram (u * PAGE_SIZE cfg + i) = 0
      · simp [h0] at h
      · simp [h0] at h
        exact ⟨q, i, u, rfl, hq, h0, h.symm⟩

/-- The word of a slot the walk comes to is one of the words it reads. -/
theorem mem_walkWords (cfg : Config) (s : State) (i : Nat) (r : List Nat) :
    ∀ (q : List Nat) (t u : Nat), resolveFrom cfg s t q = some u →
      s.ram (u * PAGE_SIZE cfg + i) ∈ walkWords cfg s t (q ++ i :: r) := by
  intro q
  induction q with
  | nil =>
    intro t u h
    have htu : t = u := by simpa [resolveFrom] using h
    subst htu
    simp [walkWords]
  | cons j q ih =>
    intro t u h
    rw [resolveFrom_cons] at h
    by_cases h0 : s.ram (t * PAGE_SIZE cfg + j) = 0
    · rw [if_pos h0] at h
      exact absurd h (by simp)
    · rw [if_neg h0] at h
      show _ ∈ walkWords cfg s t (j :: (q ++ i :: r))
      rw [walkWords, if_neg h0]
      exact List.mem_cons_of_mem _ (ih _ _ h)

/-- For a table word that is non-negative and small enough, the 64-bit
arithmetic of the source yields the addresses computed in `Nat`: the word is
its own cast to `uint64_t`, and `word * PAGE_SIZE + offset` does not wrap. -/
theorem address_no_wrap (cfg : Config) (w : Int) (off : Nat) (h0 : 0 ≤ w)
    (hfit : w * (PAGE_SIZE cfg : Int) + (PAGE_SIZE cfg : Int) ≤ 9223372036854775808)
    (ho : off < PAGE_SIZE cfg) :
    w = ((toU64 w : Nat) : Int)
    ∧ toU64 (w * (PAGE_SIZE cfg : Int) + (off : Int)) = toU64 w * PAGE_SIZE cfg + off := by
  have hP := PAGE_SIZE_pos cfg
  obtain ⟨m, rfl⟩ := Int.eq_ofNat_of_zero_le h0
  have hb : m * PAGE_SIZE cfg + PAGE_SIZE cfg ≤ 9223372036854775808 := by exact_mod_cast hfit
  have hm1 : m ≤ m * PAGE_SIZE cfg := Nat.le_mul_of_pos_right m hP
  have hm : m < 18446744073709551616 := by omega
  rw [toU64_natCast m hm]
  refine ⟨rfl, ?_⟩
  have hc : ((m : Int) * (PAGE_SIZE cfg : Int) + (off : Int))
      = ((m * PAGE_SIZE cfg + off : Nat) : Int) := by push_cast; rfl
  rw [hc, toU64_natCast _ (by omega)]

/-! ## The high-water mark of the frames in use -/

/-- A downward-closed set of positive numbers bounded by `n` is `{1, ..., k}`
for some `k ≤ n`. -/
theorem exists_initial_segment (P : Nat → Prop) (hpos : ∀ g, P g → 1 ≤ g)
    (hclosed : ∀ f g, P f → 1 ≤ g → g ≤ f → P g) :
    ∀ n, (∀ g, P g → g ≤ n) → ∃ k, k ≤ n ∧ ∀ g, P g ↔ (1 ≤ g ∧ g ≤ k) := by
  intro n
  induction n with
  | zero =>
    intro hb
    refine ⟨0, le_refl _, fun g => ⟨fun h => ?_, fun h => ?_⟩⟩
    · have := hb g h
      have := hpos g h
      omega
    · omega
  | succ n ih =>
    intro hb
    by_cases hP : P (n + 1)
    · exact ⟨n + 1, le_refl _, fun g => ⟨fun h => ⟨hpos g h, hb g h⟩,
        fun h => hclosed (n + 1) g hP h.1 h.2⟩⟩
    · obtain ⟨k, hk, hiff⟩ := ih (fun g h => by
        have h1 := hb g h
        rcases Nat.lt_or_ge g (n + 1) with h2 | h2
        · omega
        · have : g = n + 1 := by omega
          rw [this] at h
          exact absurd h hP)
      exact ⟨k, by omega, hiff⟩

/-- A frame held by a parent slot is a frame index from 1 to
`NUM_FRAMES - 1`. -/
theorem Linked.range {cfg : Config} {s : State} (hF : Feasible cfg) (hI : TreeInv cfg s)
    {g : Nat} (h : Linked cfg s g) : 1 ≤ g ∧ g < NUM_FRAMES cfg := by
  obtain ⟨p, hv, hl, hne, hr⟩ := h
  obtain ⟨q, i, u, rfl, hq, h0, hg⟩ := resolve_last_slot hne hr
  have hvq : ValidPath cfg q := hv.of_append_left
  have hi : i < PAGE_SIZE cfg := (ValidPath_cons.1 hv.of_append_right).1
  obtain ⟨m, hmN, hem⟩ := hI.range q u i hvq (by simp at hl; omega) hq hi
  have hm : m < 18446744073709551616 := lt_of_lt_of_le hmN hF.frames_fit
  rw [hem, toU64_natCast m hm] at hg
  have hm0 : m ≠ 0 := by
    rintro rfl
    exact h0 hem
  omega

/-- The frames held by parent slots are `1, ..., k` for some
`k < NUM_FRAMES`. -/
theorem TreeInv.mark {cfg : Config} {s : State} (hF : Feasible cfg) (hI : TreeInv cfg s) :
    ∃ k, k < NUM_FRAMES cfg ∧ ∀ g, Linked cfg s g ↔ (1 ≤ g ∧ g ≤ k) := by
  have hN := hF.frames_pos
  obtain ⟨k, hk, hiff⟩ := exists_initial_segment (Linked cfg s)
    (fun g h => (h.range hF hI).1) hI.closed (NUM_FRAMES cfg - 1)
    (fun g h => by have := (h.range hF hI).2; omega)
  exact ⟨k, by omega, hiff⟩

/-- Allocation followed by installation drops no frame from the tree. -/
theorem linked_after_install {cfg : Config} {s s3 : State} (hF : Feasible cfg)
    {cur : List Nat} {a : Nat × State} {t row : Nat} (hA : AllocSpec cfg s cur a)
    (hIn : Installed cfg a.2 s3 cur t row a.1) {g : Nat} (h : Linked cfg s g) :
    Linked cfg s3 g := by
  rw [hIn.linked_iff hF hA.hole g]
  by_cases hg : g = a.1
  · exact Or.inl hg
  · right
    obtain ⟨q, hv, hl, hne, hr⟩ := h
    refine ⟨q, hv, hl, hne, ?_⟩
    rw [hA.res q hv hl, if_neg, hr]
    rw [hr]
    intro e
    exact hg (Option.some.inj e)

/-- A write to a word of a resident data page drops no frame from the
tree. -/
theorem linked_data_write {cfg : Config} {s : State} (hI : TreeInv cfg s) {pp : List Nat}
    {f off : Nat} (hvp : ValidPath cfg pp) (hlp : pp.length = cfg.TABLES_DEPTH)
    (hr : resolve cfg s pp = some f) (ho : off < PAGE_SIZE cfg) (v : Int) {g : Nat}
    (h : Linked cfg s g) : Linked cfg (PMwrite s (f * PAGE_SIZE cfg + off) v) g := by
  obtain ⟨q, hv, hl, hne, hq⟩ := h
  exact ⟨q, hv, hl, hne, by rw [resolve_data_write hI hvp hlp hr ho v hv hl]; exact hq⟩

/-- The walker drops no frame from the tree. -/
theorem helper_linked_mono {cfg : Config} (hF : Feasible cfg) (A : Nat) (w : Bool)
    (v : Int) {pp : List Nat} (hvp : ValidPath cfg pp) (hlp : pp.length = cfg.TABLES_DEPTH) :
    ∀ n va cur t s, TreeInv cfg s → cur ++ rows cfg n va = pp → resolve cfg s cur = some t →
      ∀ g, Linked cfg s g → Linked cfg (VMreadWriteHelper cfg A w n va v t s).2.2 g := by
  have ho := offset_lt cfg A
  intro n
  induction n with
  | zero =>
    intro va cur t s hI hpp hcr g hg
    rw [rows_zero_eq] at hpp
    have hcv : ValidPath cfg cur := by rw [← hpp] at hvp; exact hvp.of_append_left
    have hrow : va >>> (cfg.OFFSET_WIDTH + 0 * cfg.OFFSET_WIDTH) < PAGE_SIZE cfg := by
      rw [← hpp] at hvp
      exact (ValidPath_cons.1 hvp.of_append_right).1
    have hcl : cur.length + 1 = cfg.TABLES_DEPTH := by
      rw [← hpp] at hlp
      simpa using hlp
    rw [VMreadWriteHelper_zero]
    by_cases hz : s.ram (t * PAGE_SIZE cfg
        + va >>> (cfg.OFFSET_WIDTH + 0 * cfg.OFFSET_WIDTH)) = 0
    · rw [if_pos hz]
      have hA := getNextTable_spec hF hI hcv (by omega) hcr (A >>> cfg.OFFSET_WIDTH)
      have hIn := installed_leaf hA hcv hcl hcr hrow hz (A >>> cfg.OFFSET_WIDTH)
      have hI3 := hIn.treeInv_installed hF hA.hole
      have hvp1 := hvp
      have hlp1 := hlp
      rw [← hpp] at hvp1 hlp1
      have hr3 := hIn.resolve_eq hF hA.hole hvp1 (le_of_eq hlp1)
      rw [if_pos rfl] at hr3
      have hg3 := linked_after_install hF hA hIn hg
      cases w
      · exact hg3
      · exact linked_data_write hI3 hvp1 hlp1 hr3 ho v hg3
    · rw [if_neg hz]
      obtain ⟨m, hmN, hem⟩ := hI.range cur t _ hcv (by omega) hcr hrow
      have hm : m < 18446744073709551616 := lt_of_lt_of_le hmN hF.frames_fit
      have hm0 : m ≠ 0 := by
        rintro rfl
        exact hz hem
      have hr : resolve cfg s pp = some m := by
        rw [← hpp]
        exact resolve_snoc_natCast hcr hm hem hm0
      rw [hem, toU64_natCast m hm]
      cases w
      · exact hg
      · exact linked_data_write hI hvp hlp hr ho v hg
  | succ n ih =>
    intro va cur t s hI hpp hcr g hg
    rw [rows_succ_eq] at hpp
    have hcv : ValidPath cfg cur := by rw [← hpp] at hvp; exact hvp.of_append_left
    have hrow : va >>> (cfg.OFFSET_WIDTH + (n + 1) * cfg.OFFSET_WIDTH) < PAGE_SIZE cfg := by
      rw [← hpp] at hvp
      exact (ValidPath_cons.1 hvp.of_append_right).1
    have hcl : cur.length + 1 < cfg.TABLES_DEPTH := by
      rw [← hpp] at hlp
      simp only [List.length_append, List.length_cons, rows_length] at hlp
      omega
    have hpp2 : (cur ++ [va >>> (cfg.OFFSET_WIDTH + (n + 1) * cfg.OFFSET_WIDTH)])
        ++ rows cfg n (va % 2 ^ (cfg.OFFSET_WIDTH + (n + 1) * cfg.OFFSET_WIDTH)) = pp := by
      rw [← hpp]
      simp
    have hv2 : ValidPath cfg (cur ++ [va >>> (cfg.OFFSET_WIDTH + (n + 1) * cfg.OFFSET_WIDTH)]) :=
      ValidPath_append.2 ⟨hcv, ValidPath_singleton hrow⟩
    rw [VMreadWriteHelper_succ]
    by_cases hz : s.ram (t * PAGE_SIZE cfg
        + va >>> (cfg.OFFSET_WIDTH + (n + 1) * cfg.OFFSET_WIDTH)) = 0
    · rw [if_pos hz]
      have hA := getNextTable_spec hF hI hcv (by omega) hcr (A >>> cfg.OFFSET_WIDTH)
      have hIn := installed_interior hA hcv (by omega) hcr hrow hz
      have hI3 := hIn.treeInv_installed hF hA.hole
      have hr3 := hIn.resolve_eq hF hA.hole hv2 (by simp; omega)
      rw [if_pos rfl] at hr3
      exact ih _ _ _ _ hI3 hpp2 hr3 g (linked_after_install hF hA hIn hg)
    · rw [if_neg hz]
      obtain ⟨m, hmN, hem⟩ := hI.range cur t _ hcv (by omega) hcr hrow
      have hm : m < 18446744073709551616 := lt_of_lt_of_le hmN hF.frames_fit
      have hm0 : m ≠ 0 := by
        rintro rfl
        exact hz hem
      have hr : resolve cfg s (cur ++ [va >>> (cfg.OFFSET_WIDTH + (n + 1) * cfg.OFFSET_WIDTH)])
          = some m := resolve_snoc_natCast hcr hm hem hm0
      rw [hem, toU64_natCast m hm]
      exact ih _ _ _ _ hI hpp2 hr g hg

theorem VMwrite_linked_mono {cfg : Config} (hF : Feasible cfg) {s : State}
    (hI : TreeInv cfg s) (A : Nat) (v : Int) {g : Nat} (hg : Linked cfg s g) :
    Linked cfg (VMwrite cfg s A v).2 g := by
  by_cases hA : A < 2 ^ cfg.VIRTUAL_ADDRESS_WIDTH
  · rw [VMwrite_eq hF hA]
    obtain ⟨h1, h2, _⟩ := pagePath_spec hF hA
    exact helper_linked_mono hF A true v h1 h2 (cfg.TABLES_DEPTH - 1) A [] 0 s hI rfl rfl g hg
  · unfold VMwrite
    rw [if_pos (Or.inl (by unfold VIRTUAL_MEMORY_SIZE; omega))]
    exact hg

theorem VMread_linked_mono {cfg : Config} (hF : Feasible cfg) {s : State}
    (hI : TreeInv cfg s) (A : Nat) (v : Int) {g : Nat} (hg : Linked cfg s g) :
    Linked cfg (VMread cfg s A v).2.2 g := by
  by_cases hA : A < 2 ^ cfg.VIRTUAL_ADDRESS_WIDTH
  · rw [VMread_eq hF hA]
    obtain ⟨h1, h2, _⟩ := pagePath_spec hF hA
    exact helper_linked_mono hF A false v h1 h2 (cfg.TABLES_DEPTH - 1) A [] 0 s hI rfl rfl g hg
  · unfold VMread
    rw [if_pos (Or.inl (by unfold VIRTUAL_MEMORY_SIZE; omega))]
    exact hg

/-! ## The allocator -/

/-- C11: on a feasible configuration, in every state reachable from
`VMinitialize`, every call `getNextTable(t, A >> OFFSET_WIDTH)` the walker
makes returns a frame `r` with `1 ≤ r < NUM_FRAMES` and `r ≠ t`; the only
backing-store call it can make is one `PMevict` of the frame it returns (so
never of frame 0); and when rule 3 is reached (the scan reports no empty
table and `maxIndex + 1 ≥ NUM_FRAMES`) a data page is resident. -/
theorem C11_allocator_result (cfg : Config) (hF : Feasible cfg) (s0 : State)
    (hs : Reachable cfg s0) (A : Nat) (hA : A < 2 ^ cfg.VIRTUAL_ADDRESS_WIDTH)
    (frames : List Nat) (n va t : Nat) (s : State)
    (hw : WalkerAt cfg A s0 frames n va t s)
    (_hmiss : s.ram (t * PAGE_SIZE cfg + va >>> (cfg.OFFSET_WIDTH + n * cfg.OFFSET_WIDTH)) = 0) :
    1 ≤ (getNextTable cfg s t (A >>> cfg.OFFSET_WIDTH)).1
    ∧ (getNextTable cfg s t (A >>> cfg.OFFSET_WIDTH)).1 < NUM_FRAMES cfg
    ∧ (getNextTable cfg s t (A >>> cfg.OFFSET_WIDTH)).1 ≠ t
    ∧ ((getNextTable cfg s t (A >>> cfg.OFFSET_WIDTH)).2.log = s.log
      ∨ (getNextTable cfg s t (A >>> cfg.OFFSET_WIDTH)).2.log
          = s.log ++ [Event.evict (getNextTable cfg s t (A >>> cfg.OFFSET_WIDTH)).1
              (traverseTree cfg (cfg.TABLES_DEPTH - 1) 0 t (A >>> cfg.OFFSET_WIDTH) 0 s
                Scan.init).2.2.pageMaxDist])
    ∧ (¬ (traverseTree cfg (cfg.TABLES_DEPTH - 1) 0 t (A >>> cfg.OFFSET_WIDTH) 0 s
          Scan.init).1 > 0 →
        ¬ (traverseTree cfg (cfg.TABLES_DEPTH - 1) 0 t (A >>> cfg.OFFSET_WIDTH) 0 s
          Scan.init).2.2.maxIndex + 1 < NUM_FRAMES cfg →
        ∃ p, ValidPath cfg p ∧ p.length = cfg.TABLES_DEPTH
          ∧ (resolve cfg s p).isSome = true) := by
  obtain ⟨hvp, hlp, _⟩ := pagePath_spec hF hA
  obtain ⟨hI, cur, hpp, hcr, _⟩ := hw.inv_walk hF hA (hs.treeInv_reachable hF)
  have hcv : ValidPath cfg cur := by rw [← hpp] at hvp; exact hvp.of_append_left
  have hcl : cur.length < cfg.TABLES_DEPTH := by
    rw [← hpp] at hlp
    simp only [List.length_append, rows_length] at hlp
    omega
  have hAl := getNextTable_spec hF hI hcv hcl hcr (A >>> cfg.OFFSET_WIDTH)
  refine ⟨hAl.hole.pos, hAl.hole.lt, ?_, getNextTable_log cfg s t _, ?_⟩
  · intro e
    exact hAl.excl cur List.prefix_rfl (by rw [hcr, e])
  · intro h1 h2
    rcases traverseTree_spec cfg s t (A >>> cfg.OFFSET_WIDTH) (cfg.TABLES_DEPTH - 1) 0 0
      Scan.init (hI.goodSub hF) with ⟨_, _, h3⟩ | hf
    · exact rule3_has_data hF hI hcv hcl hcr h3 h2
    · obtain ⟨_, _, _, _, _, _, _, _, hpos, _⟩ := hf
      exact absurd hpos h1

/-- Witness for C11: the first allocation of `VMwrite(13, _)` right after
`VMinitialize` on the tiny configuration. -/
theorem C11_allocator_result_witness :
    1 ≤ (getNextTable tinyConfig ( VMinitialize tinyConfig zeroState) 0
        (13 >>> tinyConfig.OFFSET_WIDTH)).1
    ∧ (getNextTable tinyConfig ( VMinitialize tinyConfig zeroState) 0
        (13 >>> tinyConfig.OFFSET_WIDTH)).1 < NUM_FRAMES tinyConfig
    ∧ (getNextTable tinyConfig ( VMinitialize tinyConfig zeroState) 0
        (13 >>> tinyConfig.OFFSET_WIDTH)).1 ≠ 0 :=
  ⟨(C11_allocator_result tinyConfig feasible_tinyConfig _ (Reachable.init zeroState) 13
      (by decide) [0] 3 13 0 _ WalkerAt.start (by decide)).1,
   (C11_allocator_result tinyConfig feasible_tinyConfig _ (Reachable.init zeroState) 13
      (by decide) [0] 3 13 0 _ WalkerAt.start (by decide)).2.1,
   (C11_allocator_result tinyConfig feasible_tinyConfig _ (Reachable.init zeroState) 13
      (by decide) [0] 3 13 0 _ WalkerAt.start (by decide)).2.2.1⟩

/-- C12: priority rule 1.  In a tree that satisfies the invariant (every
reachable state does, and every state in the middle of a walk), if some walk
`c0` of fewer than `TABLES_DEPTH` slots from frame 0 ends in a frame other
than `excl` whose words are all `0`, then `getNextTable` returns such a frame,
the one at the walk `q ++ [i]` that comes first in depth-first, ascending-slot
order; the state returned is the old one with the parent slot of that frame
set to `0` (so no other word changes and the backing store is not called);
and no walk of `TABLES_DEPTH` slots, that is no resident data page, ends in
the frame returned. -/
theorem C12_rule1_first_empty_table (cfg : Config) (hF : Feasible cfg) (s : State)
    (hI : TreeInv cfg s) (excl P : Nat) (c0 : List Nat)
    (hc0 : EmptyTableAt cfg s excl 0 (cfg.TABLES_DEPTH - 1) c0) :
    ∃ q u i, ValidPath cfg q ∧ i < PAGE_SIZE cfg ∧ resolve cfg s q = some u
      ∧ s.ram (u * PAGE_SIZE cfg + i) = ((getNextTable cfg s excl P).1 : Int)
      ∧ EmptyTableAt cfg s excl 0 (cfg.TABLES_DEPTH - 1) (q ++ [i])
      ∧ resolve cfg s (q ++ [i]) = some (getNextTable cfg s excl P).1
      ∧ (∀ c, EmptyTableAt cfg s excl 0 (cfg.TABLES_DEPTH - 1) c →
          c = q ++ [i] ∨ dfsBefore (q ++ [i]) c = true)
      ∧ (getNextTable cfg s excl P).2 = PMwrite s (u * PAGE_SIZE cfg + i) 0
      ∧ (getNextTable cfg s excl P).2.ram (u * PAGE_SIZE cfg + i) = 0
      ∧ (getNextTable cfg s excl P).2.log = s.log
      ∧ (∀ p, ValidPath cfg p → p.length = cfg.TABLES_DEPTH →
          resolve cfg s p ≠ some (getNextTable cfg s excl P).1) := by
  have hdp := hF.depth_pos
  have hfound := scan_found_of_candidate hF hI excl P hc0
  have hfirst := traverseTree_first cfg s excl P (cfg.TABLES_DEPTH - 1) 0 0 Scan.init
    (hI.goodSub hF) hfound.ne_neg_one
  obtain ⟨q, u, i, hv, hl, hi, hr, he, hpos, hexc, hz, hst, hord⟩ := hfirst
  obtain ⟨m, hm, hem⟩ := hI.goodSub hF q u i hv (by omega) hr hi
  have hm0 : m ≠ 0 := by
    rintro rfl
    rw [← he, hem] at hpos
    exact absurd hpos (by decide)
  have hto : toU64 (traverseTree cfg (cfg.TABLES_DEPTH - 1) 0 excl P 0 s Scan.init).1 = m := by
    rw [← he, hem, toU64_natCast m hm]
  have hg : getNextTable cfg s excl P = (m, PMwrite s (u * PAGE_SIZE cfg + i) 0) := by
    unfold getNextTable
    simp only [if_pos hpos, hto, hst]
  rw [hto] at hexc hz
  have hvqi : ValidPath cfg (q ++ [i]) := ValidPath_append.2 ⟨hv, ValidPath_singleton hi⟩
  have hrqi : resolve cfg s (q ++ [i]) = some m := resolve_snoc_natCast hr hm hem hm0
  rw [hg]
  refine ⟨q, u, i, hv, hi, hr, hem, ⟨hvqi, by simp, by simp; omega, m, hrqi, hexc, hz⟩,
    hrqi, ?_, rfl, ?_, ?_, ?_⟩
  · intro c hc
    have hvc := hc.1
    have hne := hc.2.1
    cases c with
    | nil => exact absurd rfl hne
    | cons j c =>
      rcases hord j c (List.mem_range.2 (ValidPath_cons.1 hvc).1) hc with h | h
      · exact Or.inl h
      · exact Or.inr h
  · show (PMwrite s (u * PAGE_SIZE cfg + i) 0).ram (u * PAGE_SIZE cfg + i) = 0
    rw [PMwrite_ram, if_pos rfl]
  · show (PMwrite s (u * PAGE_SIZE cfg + i) 0).log = s.log
    rw [PMwrite_log]
  · intro p hvp hlp hrp
    have := hI.inj p (q ++ [i]) m hvp hvqi (le_of_eq hlp) (by simp; omega) hrp hrqi
    rw [this] at hlp
    simp at hlp
    omega

set_option maxRecDepth 1000000 in
/-- Witness for C12: in the state after `VMwrite(A, 1)` for `A = 0, 16, 8, 24,
4` on the tiny configuration, the table at walk `[1, 1, 0]` is empty. -/
theorem C12_rule1_first_empty_table_witness :
    ∃ q u i, ValidPath tinyConfig q ∧ i < PAGE_SIZE tinyConfig
      ∧ resolve tinyConfig emptyTableState q = some u
      ∧ emptyTableState.ram (u * PAGE_SIZE tinyConfig + i)
          = ((getNextTable tinyConfig emptyTableState 0 3).1 : Int)
      ∧ EmptyTableAt tinyConfig emptyTableState 0 0 (tinyConfig.TABLES_DEPTH - 1) (q ++ [i])
      ∧ resolve tinyConfig emptyTableState (q ++ [i])
          = some (getNextTable tinyConfig emptyTableState 0 3).1
      ∧ (∀ c, EmptyTableAt tinyConfig emptyTableState 0 0 (tinyConfig.TABLES_DEPTH - 1) c →
          c = q ++ [i] ∨ dfsBefore (q ++ [i]) c = true)
      ∧ (getNextTable tinyConfig emptyTableState 0 3).2
          = PMwrite emptyTableState (u * PAGE_SIZE tinyConfig + i) 0
      ∧ (getNextTable tinyConfig emptyTableState 0 3).2.ram (u * PAGE_SIZE tinyConfig + i) = 0
      ∧ (getNextTable tinyConfig emptyTableState 0 3).2.log = emptyTableState.log
      ∧ (∀ p, ValidPath tinyConfig p → p.length = tinyConfig.TABLES_DEPTH →
          resolve tinyConfig emptyTableState p
            ≠ some (getNextTable tinyConfig emptyTableState 0 3).1) :=
  C12_rule1_first_empty_table tinyConfig feasible_tinyConfig emptyTableState
    (reachable_emptyTableState.treeInv_reachable feasible_tinyConfig) 0 3 [1, 1, 0]
    ⟨validPath_of_decide (by decide), by decide, by decide, 13, by decide, by decide,
      by decide⟩

/-- C13: priority rule 2.  In a tree that satisfies the invariant, if the
scan reports no empty table (its return value is not positive), then no table
of the tree other than `excl` is empty, the scan has changed nothing,
`maxIndex` bounds every frame held by a parent slot of the tree and is itself
such a frame or `0`; and if `maxIndex + 1 < NUM_FRAMES`, `getNextTable` returns
`maxIndex + 1` with the state (memory, backing store, log) unchanged, and no
parent slot of the tree holds the frame returned. -/
theorem C13_rule2_fresh_frame (cfg : Config) (hF : Feasible cfg) (s : State)
    (hI : TreeInv cfg s) (excl P : Nat)
    (hscan : ¬ (traverseTree cfg (cfg.TABLES_DEPTH - 1) 0 excl P 0 s Scan.init).1 > 0) :
    (∀ c, ¬ EmptyTableAt cfg s excl 0 (cfg.TABLES_DEPTH - 1) c)
    ∧ (traverseTree cfg (cfg.TABLES_DEPTH - 1) 0 excl P 0 s Scan.init).2.1 = s
    ∧ (∀ g, Linked cfg s g → g ≤ (traverseTree cfg (cfg.TABLES_DEPTH - 1) 0 excl P 0 s Scan.init).2.2.maxIndex)
    ∧ ((traverseTree cfg (cfg.TABLES_DEPTH - 1) 0 excl P 0 s Scan.init).2.2.maxIndex = 0 ∨ Linked cfg s (traverseTree cfg (cfg.TABLES_DEPTH - 1) 0 excl P 0 s Scan.init).2.2.maxIndex)
    ∧ ((traverseTree cfg (cfg.TABLES_DEPTH - 1) 0 excl P 0 s Scan.init).2.2.maxIndex + 1 < NUM_FRAMES cfg →
        getNextTable cfg s excl P = ((traverseTree cfg (cfg.TABLES_DEPTH - 1) 0 excl P 0 s Scan.init).2.2.maxIndex + 1, s)
        ∧ ¬ Linked cfg s ((traverseTree cfg (cfg.TABLES_DEPTH - 1) 0 excl P 0 s Scan.init).2.2.maxIndex + 1)) := by
  have hdp := hF.depth_pos
  obtain ⟨_, h2, hd⟩ := scan_done_of_not_pos hF hI excl P hscan
  have hge : ∀ g, Linked cfg s g → g ≤ (traverseTree cfg (cfg.TABLES_DEPTH - 1) 0 excl P 0 s Scan.init).2.2.maxIndex := by
    rintro g ⟨q, hv, hl, hne, hr⟩
    cases q with
    | nil => exact absurd rfl hne
    | cons i q =>
      exact hd.max_ge i q g (List.mem_range.2 (ValidPath_cons.1 hv).1) hv
        (by simp at hl; omega) hr
  refine ⟨no_candidate_of_done hd, h2, hge, ?_, ?_⟩
  · rcases hd.max_attained with h | ⟨i, q, _, hv, hq, hr⟩
    · exact Or.inl h
    · exact Or.inr ⟨i :: q, hv, by simp; omega, by simp, hr⟩
  · intro hlt
    constructor
    · unfold getNextTable
      simp only [if_neg hscan, if_pos hlt, h2]
    · intro hL
      have := hge _ hL
      omega

set_option maxRecDepth 1000000 in
/-- Witness for C13: the scan of the state after `VMwrite(16, 17);
VMwrite(30, 31)` on the tiny configuration. -/
theorem C13_rule2_fresh_frame_witness :
    (traverseTree tinyConfig (tinyConfig.TABLES_DEPTH - 1) 0 0 3 0 twoPagesState
        Scan.init).2.2.maxIndex + 1 < NUM_FRAMES tinyConfig
    ∧ getNextTable tinyConfig twoPagesState 0 3
        = ((traverseTree tinyConfig (tinyConfig.TABLES_DEPTH - 1) 0 0 3 0 twoPagesState
            Scan.init).2.2.maxIndex + 1, twoPagesState)
    ∧ ¬ Linked tinyConfig twoPagesState
        ((traverseTree tinyConfig (tinyConfig.TABLES_DEPTH - 1) 0 0 3 0 twoPagesState
          Scan.init).2.2.maxIndex + 1) :=
  ⟨by decide,
   (C13_rule2_fresh_frame tinyConfig feasible_tinyConfig twoPagesState
    (reachable_twoPagesState.treeInv_reachable feasible_tinyConfig) 0 3
    (by decide)).2.2.2.2 (by decide)⟩

/-- C14: priority rule 3.  A walker stands at table `excl`, the end of walk
`cur`, in a tree that satisfies the invariant.  If the scan reports no empty
table and `maxIndex + 1 ≥ NUM_FRAMES`, then the victim recorded is a resident
data page: its father address is slot `i` of the table `u` at the end of a
walk `q` of `TABLES_DEPTH - 1` slots, that slot holds the victim frame `f`,
and `pageMaxDist` is the number of the walk `q ++ [i]`.  `getNextTable`
returns `f`; its only backing-store call is `PMevict(f, pageMaxDist)`; the
only word of memory that changes is that slot, which becomes `0`; afterwards
the backing store holds under `pageMaxDist` the `PAGE_SIZE` words frame `f`
held, and is unchanged elsewhere. -/
theorem C14_rule3_evicts_victim (cfg : Config) (hF : Feasible cfg) (s : State)
    (hI : TreeInv cfg s) (cur : List Nat) (hcv : ValidPath cfg cur)
    (hcl : cur.length < cfg.TABLES_DEPTH) (excl : Nat)
    (hcr : resolve cfg s cur = some excl) (P : Nat)
    (hscan : ¬ (traverseTree cfg (cfg.TABLES_DEPTH - 1) 0 excl P 0 s Scan.init).1 > 0)
    (hfull : ¬ (traverseTree cfg (cfg.TABLES_DEPTH - 1) 0 excl P 0 s Scan.init).2.2.maxIndex + 1 < NUM_FRAMES cfg) :
    ∃ q u i f, ValidPath cfg q ∧ q.length + 1 = cfg.TABLES_DEPTH ∧ i < PAGE_SIZE cfg
      ∧ resolve cfg s q = some u
      ∧ 1 ≤ f ∧ f < NUM_FRAMES cfg
      ∧ s.ram (u * PAGE_SIZE cfg + i) = (f : Int)
      ∧ (traverseTree cfg (cfg.TABLES_DEPTH - 1) 0 excl P 0 s Scan.init).2.2.indexMaxDistance = (f : Int)
      ∧ (traverseTree cfg (cfg.TABLES_DEPTH - 1) 0 excl P 0 s Scan.init).2.2.cyclicFrameFatherAddress = u * PAGE_SIZE cfg + i
      ∧ (traverseTree cfg (cfg.TABLES_DEPTH - 1) 0 excl P 0 s Scan.init).2.2.pageMaxDist = encodeFrom cfg 0 (q ++ [i])
      ∧ (getNextTable cfg s excl P).1 = f
      ∧ (getNextTable cfg s excl P).2.log = s.log ++ [Event.evict f (traverseTree cfg (cfg.TABLES_DEPTH - 1) 0 excl P 0 s Scan.init).2.2.pageMaxDist]
      ∧ (∀ a, (getNextTable cfg s excl P).2.ram a
          = if a = u * PAGE_SIZE cfg + i then 0 else s.ram a)
      ∧ (∀ o, o < PAGE_SIZE cfg →
          (getNextTable cfg s excl P).2.swap (traverseTree cfg (cfg.TABLES_DEPTH - 1) 0 excl P 0 s Scan.init).2.2.pageMaxDist o
            = s.ram (f * PAGE_SIZE cfg + o))
      ∧ (∀ pg o, pg ≠ (traverseTree cfg (cfg.TABLES_DEPTH - 1) 0 excl P 0 s Scan.init).2.2.pageMaxDist →
          (getNextTable cfg s excl P).2.swap pg o = s.swap pg o) := by
  obtain ⟨_, h2, hd⟩ := scan_done_of_not_pos hF hI excl P hscan
  have hvic := rule3_victim hF hI hcv hcl hcr hd hfull
  obtain ⟨q, u, i, f, hvq, hql, hi, hu, hf1, hfN, he, hidx, hto, hfa, hpg, _⟩ :=
    victim_facts hF hI hvic
  have hg : getNextTable cfg s excl P
      = (f, PMwrite (PMevict cfg s f (traverseTree cfg (cfg.TABLES_DEPTH - 1) 0 excl P 0 s Scan.init).2.2.pageMaxDist) (u * PAGE_SIZE cfg + i) 0) := by
    unfold getNextTable
    simp only [if_neg hscan, if_neg hfull, h2, hto, hfa]
  rw [hg]
  refine ⟨q, u, i, f, hvq, hql, hi, hu, hf1, hfN, he, hidx, hfa, hpg, rfl, ?_, ?_, ?_, ?_⟩
  · show (PMwrite (PMevict cfg s f (traverseTree cfg (cfg.TABLES_DEPTH - 1) 0 excl P 0 s Scan.init).2.2.pageMaxDist) (u * PAGE_SIZE cfg + i) 0).log = _
    rw [PMwrite_log, PMevict_log]
  · intro a
    show (PMwrite (PMevict cfg s f (traverseTree cfg (cfg.TABLES_DEPTH - 1) 0 excl P 0 s Scan.init).2.2.pageMaxDist) (u * PAGE_SIZE cfg + i) 0).ram a = _
    rw [PMwrite_ram, PMevict_ram]
  · intro o ho
    show (PMwrite (PMevict cfg s f (traverseTree cfg (cfg.TABLES_DEPTH - 1) 0 excl P 0 s Scan.init).2.2.pageMaxDist) (u * PAGE_SIZE cfg + i) 0).swap _ o = _
    rw [PMwrite_swap, PMevict_swap, if_pos ⟨rfl, ho⟩]
  · intro pg o hpgne
    show (PMwrite (PMevict cfg s f (traverseTree cfg (cfg.TABLES_DEPTH - 1) 0 excl P 0 s Scan.init).2.2.pageMaxDist) (u * PAGE_SIZE cfg + i) 0).swap pg o = _
    rw [PMwrite_swap, PMevict_swap, if_neg]
    rintro ⟨h, _⟩
    exact hpgne h

set_option maxRecDepth 1000000 in
/-- Witness for C14: the allocation a walker at the root makes for page 11 in
the state after `VMwrite(2 * k, 1)` for `k = 0..10` on the tiny
configuration, where all 16 frames are in use. -/
theorem C14_rule3_evicts_victim_witness :
    ∃ q u i f, ValidPath tinyConfig q ∧ q.length + 1 = tinyConfig.TABLES_DEPTH
      ∧ i < PAGE_SIZE tinyConfig
      ∧ resolve tinyConfig elevenPagesState q = some u
      ∧ 1 ≤ f ∧ f < NUM_FRAMES tinyConfig
      ∧ elevenPagesState.ram (u * PAGE_SIZE tinyConfig + i) = (f : Int)
      ∧ (traverseTree tinyConfig (tinyConfig.TABLES_DEPTH - 1) 0 0 11 0 elevenPagesState Scan.init).2.2.indexMaxDistance = (f : Int)
      ∧ (traverseTree tinyConfig (tinyConfig.TABLES_DEPTH - 1) 0 0 11 0 elevenPagesState Scan.init).2.2.cyclicFrameFatherAddress = u * PAGE_SIZE tinyConfig + i
      ∧ (traverseTree tinyConfig (tinyConfig.TABLES_DEPTH - 1) 0 0 11 0 elevenPagesState Scan.init).2.2.pageMaxDist = encodeFrom tinyConfig 0 (q ++ [i])
      ∧ (getNextTable tinyConfig elevenPagesState 0 11).1 = f
      ∧ (getNextTable tinyConfig elevenPagesState 0 11).2.log
          = elevenPagesState.log ++ [Event.evict f (traverseTree tinyConfig (tinyConfig.TABLES_DEPTH - 1) 0 0 11 0 elevenPagesState Scan.init).2.2.pageMaxDist]
      ∧ (∀ a, (getNextTable tinyConfig elevenPagesState 0 11).2.ram a
          = if a = u * PAGE_SIZE tinyConfig + i then 0 else elevenPagesState.ram a)
      ∧ (∀ o, o < PAGE_SIZE tinyConfig →
          (getNextTable tinyConfig elevenPagesState 0 11).2.swap (traverseTree tinyConfig (tinyConfig.TABLES_DEPTH - 1) 0 0 11 0 elevenPagesState Scan.init).2.2.pageMaxDist o
            = elevenPagesState.ram (f * PAGE_SIZE tinyConfig + o))
      ∧ (∀ pg o, pg ≠ (traverseTree tinyConfig (tinyConfig.TABLES_DEPTH - 1) 0 0 11 0 elevenPagesState Scan.init).2.2.pageMaxDist →
          (getNextTable tinyConfig elevenPagesState 0 11).2.swap pg o
            = elevenPagesState.swap pg o) :=
  C14_rule3_evicts_victim tinyConfig feasible_tinyConfig elevenPagesState
    (reachable_elevenPagesState.treeInv_reachable feasible_tinyConfig) []
    (validPath_of_decide (by decide)) (by decide) 0 (by decide) 11 (by decide) (by decide)

/-- C15: victim bookkeeping.  In a tree that satisfies the invariant, whenever
the scan of the whole tree reports a victim (`indexMaxDistance ≠ 0`), the
father address is slot `i` of the table `u` at the end of a walk `q` of
`TABLES_DEPTH - 1` slots from frame 0, the word at the father address is the
victim frame, `pageMaxDist` is the number of the walk `q ++ [i]`, the address
decoder maps every address of page `pageMaxDist` to exactly that walk, and in
any memory that differs only by that slot being `0` the walk still reaches
table `u` and finds `0` in slot `i`. -/
theorem C15_victim_bookkeeping (cfg : Config) (hF : Feasible cfg) (s : State)
    (hI : TreeInv cfg s) (excl P : Nat)
    (hvict : (traverseTree cfg (cfg.TABLES_DEPTH - 1) 0 excl P 0 s Scan.init).2.2.indexMaxDistance ≠ 0) :
    ∃ q u i, ValidPath cfg q ∧ q.length + 1 = cfg.TABLES_DEPTH ∧ i < PAGE_SIZE cfg
      ∧ resolve cfg s q = some u
      ∧ (traverseTree cfg (cfg.TABLES_DEPTH - 1) 0 excl P 0 s Scan.init).2.2.cyclicFrameFatherAddress = u * PAGE_SIZE cfg + i
      ∧ s.ram (traverseTree cfg (cfg.TABLES_DEPTH - 1) 0 excl P 0 s Scan.init).2.2.cyclicFrameFatherAddress = (traverseTree cfg (cfg.TABLES_DEPTH - 1) 0 excl P 0 s Scan.init).2.2.indexMaxDistance
      ∧ resolve cfg s (q ++ [i]) = some (toU64 (traverseTree cfg (cfg.TABLES_DEPTH - 1) 0 excl P 0 s Scan.init).2.2.indexMaxDistance)
      ∧ (traverseTree cfg (cfg.TABLES_DEPTH - 1) 0 excl P 0 s Scan.init).2.2.pageMaxDist = encodeFrom cfg 0 (q ++ [i])
      ∧ (∀ o, o < PAGE_SIZE cfg →
          pagePath cfg ((traverseTree cfg (cfg.TABLES_DEPTH - 1) 0 excl P 0 s Scan.init).2.2.pageMaxDist * PAGE_SIZE cfg + o) = q ++ [i])
      ∧ (∀ s1 : State,
          (∀ a, s1.ram a = if a = (traverseTree cfg (cfg.TABLES_DEPTH - 1) 0 excl P 0 s Scan.init).2.2.cyclicFrameFatherAddress then 0 else s.ram a) →
          resolve cfg s1 q = some u ∧ s1.ram (u * PAGE_SIZE cfg + i) = 0
            ∧ resolve cfg s1 (q ++ [i]) = none) := by
  have hdp := hF.depth_pos
  have hvic : VictimIn cfg s 0 0 (cfg.TABLES_DEPTH - 1) (traverseTree cfg (cfg.TABLES_DEPTH - 1) 0 excl P 0 s Scan.init).2.2 := by
    rcases traverseTree_victim_any cfg s excl P (cfg.TABLES_DEPTH - 1) 0 0 Scan.init
      (hI.goodSub hF) with h | h
    · exact absurd h.2.1 hvict
    · exact h
  obtain ⟨q, u, i, f, hvq, hql, hi, hu, hf1, hfN, he, hidx, hto, hfa, hpg, hres⟩ :=
    victim_facts hF hI hvic
  refine ⟨q, u, i, hvq, hql, hi, hu, hfa, by rw [hfa, he, hidx], by rw [hto]; exact hres,
    hpg, ?_, ?_⟩
  · intro o ho
    rw [hpg]
    exact rows_encodeFrom cfg (cfg.TABLES_DEPTH - 1) (q ++ [i]) o
      (ValidPath_append.2 ⟨hvq, ValidPath_singleton hi⟩) (by simp; omega) ho
  · intro s1 hs1
    rw [hfa] at hs1
    exact resolve_after_clear hF hI hvq hql hi hu hf1 hfN he hs1

set_option maxRecDepth 1000000 in
/-- Witness for C15: the scan for page 11 of the state after
`VMwrite(2 * k, 1)` for `k = 0..10` on the tiny configuration. -/
theorem C15_victim_bookkeeping_witness :
    ∃ q u i, ValidPath tinyConfig q ∧ q.length + 1 = tinyConfig.TABLES_DEPTH
      ∧ i < PAGE_SIZE tinyConfig
      ∧ resolve tinyConfig elevenPagesState q = some u
      ∧ (traverseTree tinyConfig (tinyConfig.TABLES_DEPTH - 1) 0 0 11 0 elevenPagesState Scan.init).2.2.cyclicFrameFatherAddress = u * PAGE_SIZE tinyConfig + i
      ∧ elevenPagesState.ram (traverseTree tinyConfig (tinyConfig.TABLES_DEPTH - 1) 0 0 11 0 elevenPagesState Scan.init).2.2.cyclicFrameFatherAddress = (traverseTree tinyConfig (tinyConfig.TABLES_DEPTH - 1) 0 0 11 0 elevenPagesState Scan.init).2.2.indexMaxDistance
      ∧ resolve tinyConfig elevenPagesState (q ++ [i]) = some (toU64 (traverseTree tinyConfig (tinyConfig.TABLES_DEPTH - 1) 0 0 11 0 elevenPagesState Scan.init).2.2.indexMaxDistance)
      ∧ (traverseTree tinyConfig (tinyConfig.TABLES_DEPTH - 1) 0 0 11 0 elevenPagesState Scan.init).2.2.pageMaxDist = encodeFrom tinyConfig 0 (q ++ [i])
      ∧ (∀ o, o < PAGE_SIZE tinyConfig →
          pagePath tinyConfig ((traverseTree tinyConfig (tinyConfig.TABLES_DEPTH - 1) 0 0 11 0 elevenPagesState Scan.init).2.2.pageMaxDist * PAGE_SIZE tinyConfig + o) = q ++ [i])
      ∧ (∀ s1 : State,
          (∀ a, s1.ram a
            = if a = (traverseTree tinyConfig (tinyConfig.TABLES_DEPTH - 1) 0 0 11 0 elevenPagesState Scan.init).2.2.cyclicFrameFatherAddress then 0 else elevenPagesState.ram a) →
          resolve tinyConfig s1 q = some u ∧ s1.ram (u * PAGE_SIZE tinyConfig + i) = 0
            ∧ resolve tinyConfig s1 (q ++ [i]) = none) :=
  C15_victim_bookkeeping tinyConfig feasible_tinyConfig elevenPagesState
    (reachable_elevenPagesState.treeInv_reachable feasible_tinyConfig) 0 11 (by decide)

set_option maxRecDepth 1000000 in
/-- C17, evaluated at a failing input: in the state reached by
`VMinitialize(); VMwrite(24, 1); VMwrite(28, 1); VMwrite(8, 1); VMwrite(4, 1)`
pages 2 and 14 are resident (frames 13 and 6), both at cyclic distance 6 from
page 8, no resident page is farther from page 8, and the depth-first scan
meets page 2 before page 14; yet `VMwrite(16, 1)`, which brings in page 8,
evicts page 2, the first of the two, not the last. -/
theorem C17_tie_victim_not_last :
    resolve tinyConfig tiePagesState (pagePath tinyConfig 4) = some 13
    ∧ resolve tinyConfig tiePagesState (pagePath tinyConfig 28) = some 6
    ∧ cyclicDistance tinyConfig 2 8 = 6
    ∧ cyclicDistance tinyConfig 14 8 = 6
    ∧ (∀ p, p < NUM_PAGES tinyConfig →
        (resolve tinyConfig tiePagesState (pagePath tinyConfig (p * PAGE_SIZE tinyConfig))).isSome
          = true →
        cyclicDistance tinyConfig p 8 ≤ 6)
    ∧ dfsBefore (pagePath tinyConfig 4) (pagePath tinyConfig 28) = true
    ∧ (VMwrite tinyConfig tiePagesState 16 1).2.log
        = tiePagesState.log ++ [Event.evict 13 2, Event.restore 13 8] := by
  decide

/-- C18: termination and bounded work.  For `TABLES_DEPTH ≥ 1` and every
content of memory: `traverseTree` started at `depth = 1` returns with at most
`TABLES_DEPTH` nested calls (and returns what the model on
`TABLES_DEPTH - depth` returns); every call of `VMread` and `VMwrite` returns
with at most `TABLES_DEPTH` nested calls of `VMreadWriteHelper`, with the
result of the model; an accepted call reads exactly `TABLES_DEPTH` page-table
words, calls `getNextTable` at most `TABLES_DEPTH` times and `PMrestore` at
most once. -/
theorem C18_termination_bounded_work (cfg : Config) (hTD : 1 ≤ cfg.TABLES_DEPTH) :
    (∀ rootIndex excl P cp s sc,
      traverseTreeFuel cfg cfg.TABLES_DEPTH rootIndex 1 excl P cp s sc
        = some (traverseTree cfg (cfg.TABLES_DEPTH - 1) rootIndex excl P cp s sc))
    ∧ (∀ s A v, ∃ wk : Work,
        VMreadFuel cfg cfg.TABLES_DEPTH cfg.TABLES_DEPTH s A v
          = some ((VMread cfg s A v).1, (VMread cfg s A v).2.1, (VMread cfg s A v).2.2, wk)
        ∧ wk.lookups ≤ cfg.TABLES_DEPTH ∧ wk.allocs ≤ cfg.TABLES_DEPTH ∧ wk.restores ≤ 1
        ∧ ((VMread cfg s A v).1 = 1 → wk.lookups = cfg.TABLES_DEPTH))
    ∧ (∀ s A v, ∃ wk : Work,
        VMwriteFuel cfg cfg.TABLES_DEPTH cfg.TABLES_DEPTH s A v
          = some ((VMwrite cfg s A v).1, (VMwrite cfg s A v).2, wk)
        ∧ wk.lookups ≤ cfg.TABLES_DEPTH ∧ wk.allocs ≤ cfg.TABLES_DEPTH ∧ wk.restores ≤ 1
        ∧ ((VMwrite cfg s A v).1 = 1 → wk.lookups = cfg.TABLES_DEPTH)) := by
  refine ⟨?_, ?_, ?_⟩
  · intro rootIndex excl P cp s sc
    exact traverseTreeFuel_eq cfg excl P (cfg.TABLES_DEPTH - 1) cfg.TABLES_DEPTH 1
      (by omega) (by omega) rootIndex cp s sc
  · intro s A v
    unfold VMreadFuel VMread
    by_cases hg : A ≥ VIRTUAL_MEMORY_SIZE cfg ∨ cfg.OFFSET_WIDTH ≥ cfg.VIRTUAL_ADDRESS_WIDTH
        ∨ cfg.TABLES_DEPTH + 1 > NUM_FRAMES cfg
    · rw [if_pos hg, if_pos hg]
      exact ⟨⟨0, 0, 0⟩, rfl, Nat.zero_le _, Nat.zero_le _, Nat.zero_le _,
        fun h => absurd (show (0 : Int) = 1 from h) (show ¬ (0 : Int) = 1 by decide)⟩
    · rw [if_neg hg, if_neg hg]
      obtain ⟨wk, h1, h2, h3, h4⟩ := VMreadWriteHelperFuel_eq cfg hTD cfg.TABLES_DEPTH
        (le_refl _) A false v (cfg.TABLES_DEPTH - 1) cfg.TABLES_DEPTH 1 (by omega) (by omega)
        A 0 s ⟨0, 0, 0⟩
      refine ⟨wk, h1, ?_, ?_, ?_, ?_⟩
      · rw [h2]; simp only; omega
      · simp only at h3; omega
      · simpa using h4
      · intro _; rw [h2]; simp only; omega
  · intro s A v
    unfold VMwriteFuel VMwrite
    by_cases hg : A ≥ VIRTUAL_MEMORY_SIZE cfg ∨ cfg.OFFSET_WIDTH ≥ cfg.VIRTUAL_ADDRESS_WIDTH
        ∨ cfg.TABLES_DEPTH + 1 > NUM_FRAMES cfg
    · rw [if_pos hg, if_pos hg]
      exact ⟨⟨0, 0, 0⟩, rfl, Nat.zero_le _, Nat.zero_le _, Nat.zero_le _,
        fun h => absurd (show (0 : Int) = 1 from h) (show ¬ (0 : Int) = 1 by decide)⟩
    · rw [if_neg hg, if_neg hg]
      obtain ⟨wk, h1, h2, h3, h4⟩ := VMreadWriteHelperFuel_eq cfg hTD cfg.TABLES_DEPTH
        (le_refl _) A true v (cfg.TABLES_DEPTH - 1) cfg.TABLES_DEPTH 1 (by omega) (by omega)
        A 0 s ⟨0, 0, 0⟩
      rw [h1]
      refine ⟨wk, rfl, ?_, ?_, ?_, ?_⟩
      · rw [h2]; simp only; omega
      · simp only at h3; omega
      · simpa using h4
      · intro _; rw [h2]; simp only; omega

/-- Witness for C18: the tiny configuration, whose `TABLES_DEPTH` is 4; the
scan of the state after `VMwrite(16, 17); VMwrite(30, 31)` returns within 4
nested calls, and so does `VMwrite(13, 5)` in that state. -/
theorem C18_termination_bounded_work_witness :
    traverseTreeFuel tinyConfig tinyConfig.TABLES_DEPTH 0 1 0 3 0 twoPagesState Scan.init
      = some (traverseTree tinyConfig (tinyConfig.TABLES_DEPTH - 1) 0 0 3 0 twoPagesState
          Scan.init)
    ∧ ∃ wk : Work,
        VMwriteFuel tinyConfig tinyConfig.TABLES_DEPTH tinyConfig.TABLES_DEPTH twoPagesState 13 5
          = some ((VMwrite tinyConfig twoPagesState 13 5).1,
              (VMwrite tinyConfig twoPagesState 13 5).2, wk)
        ∧ wk.lookups ≤ tinyConfig.TABLES_DEPTH ∧ wk.allocs ≤ tinyConfig.TABLES_DEPTH
        ∧ wk.restores ≤ 1
        ∧ ((VMwrite tinyConfig twoPagesState 13 5).1 = 1
            → wk.lookups = tinyConfig.TABLES_DEPTH) :=
  ⟨(C18_termination_bounded_work tinyConfig (by decide)).1 0 0 3 0 twoPagesState Scan.init,
   (C18_termination_bounded_work tinyConfig (by decide)).2.2 twoPagesState 13 5⟩

/-- C19: access to a resident page.  For `TABLES_DEPTH ≥ 1`, every address
`A` the guard accepts and every state `s` in which the walk of `A` from frame
0 resolves, that is each of its `TABLES_DEPTH` slots is non-zero, and the
words of those slots are non-negative and small enough that
`word * PAGE_SIZE + PAGE_SIZE` fits 63 bits (no operation of the 64-bit
address arithmetic of the source wraps; frame indices are such words): the
leaf-level slot holds the frame index `f`, the address the source computes
from it is `f * PAGE_SIZE + A mod PAGE_SIZE`, `VMread(A)` returns 1 with the
word at that address and the state unchanged, `VMwrite(A, v)` returns 1 and
its only effect is `PMwrite` of `v` to that address; both read `TABLES_DEPTH`
page-table words and call neither `getNextTable` (hence not `PMevict`) nor
`PMrestore`. -/
theorem C19_resident_access (cfg : Config) (hTD : 1 ≤ cfg.TABLES_DEPTH) (s : State) (A : Nat)
    (hacc : ¬ (A ≥ VIRTUAL_MEMORY_SIZE cfg ∨ cfg.OFFSET_WIDTH ≥ cfg.VIRTUAL_ADDRESS_WIDTH
      ∨ cfg.TABLES_DEPTH + 1 > NUM_FRAMES cfg))
    (f : Nat) (hres : resolve cfg s (pagePath cfg A) = some f)
    (hfit : ∀ w ∈ walkWords cfg s 0 (pagePath cfg A),
      0 ≤ w ∧ w * (PAGE_SIZE cfg : Int) + (PAGE_SIZE cfg : Int) ≤ 9223372036854775808) :
    (∃ q i u, pagePath cfg A = q ++ [i] ∧ resolve cfg s q = some u
      ∧ s.ram (u * PAGE_SIZE cfg + i) ≠ 0 ∧ f = toU64 (s.ram (u * PAGE_SIZE cfg + i))
      ∧ s.ram (u * PAGE_SIZE cfg + i) = (f : Int)
      ∧ toU64 (s.ram (u * PAGE_SIZE cfg + i) * (PAGE_SIZE cfg : Int)
          + ((A % PAGE_SIZE cfg : Nat) : Int)) = f * PAGE_SIZE cfg + A % PAGE_SIZE cfg)
    ∧ (∀ v, VMread cfg s A v = (1, s.ram (f * PAGE_SIZE cfg + A % PAGE_SIZE cfg), s))
    ∧ (∀ v, VMwrite cfg s A v = (1, PMwrite s (f * PAGE_SIZE cfg + A % PAGE_SIZE cfg) v))
    ∧ (∀ v, VMreadFuel cfg cfg.TABLES_DEPTH cfg.TABLES_DEPTH s A v
        = some (1, s.ram (f * PAGE_SIZE cfg + A % PAGE_SIZE cfg), s,
            ⟨cfg.TABLES_DEPTH, 0, 0⟩))
    ∧ (∀ v, VMwriteFuel cfg cfg.TABLES_DEPTH cfg.TABLES_DEPTH s A v
        = some (1, PMwrite s (f * PAGE_SIZE cfg + A % PAGE_SIZE cfg) v,
            ⟨cfg.TABLES_DEPTH, 0, 0⟩)) := by
  have hne : pagePath cfg A ≠ [] := by
    intro h
    have := congrArg List.length h
    unfold pagePath at this
    rw [rows_length] at this
    simp at this
  have hn : 0 + (cfg.TABLES_DEPTH - 1 + 1) = cfg.TABLES_DEPTH := by omega
  refine ⟨?_, ?_, ?_, ?_, ?_⟩
  · obtain ⟨q, i, u, hp, hq, h0, hf⟩ := resolve_last_slot hne hres
    have hmem : s.ram (u * PAGE_SIZE cfg + i) ∈ walkWords cfg s 0 (pagePath cfg A) := by
      rw [hp]
      exact mem_walkWords cfg s i [] q 0 u hq
    obtain ⟨hw0, hwfit⟩ := hfit _ hmem
    obtain ⟨e1, e2⟩ := address_no_wrap cfg _ (A % PAGE_SIZE cfg) hw0 hwfit
      (Nat.mod_lt _ (PAGE_SIZE_pos cfg))
    refine ⟨q, i, u, hp, hq, h0, hf, ?_, ?_⟩
    · rw [hf]; exact e1
    · rw [hf]; exact e2
  · intro v
    unfold VMread
    rw [if_neg hacc, helper_resident cfg A false v s f (cfg.TABLES_DEPTH - 1) A 0 hres]
    rfl
  · intro v
    unfold VMwrite
    rw [if_neg hacc]
    simp only [helper_resident cfg A true v s f (cfg.TABLES_DEPTH - 1) A 0 hres]
    rfl
  · intro v
    unfold VMreadFuel
    rw [if_neg hacc, helperFuel_resident cfg cfg.TABLES_DEPTH A false v s f
      (cfg.TABLES_DEPTH - 1) cfg.TABLES_DEPTH 1 (by omega) (by omega) A 0 ⟨0, 0, 0⟩ hres]
    simp only [hn]
    rfl
  · intro v
    unfold VMwriteFuel
    rw [if_neg hacc, helperFuel_resident cfg cfg.TABLES_DEPTH A true v s f
      (cfg.TABLES_DEPTH - 1) cfg.TABLES_DEPTH 1 (by omega) (by omega) A 0 ⟨0, 0, 0⟩ hres]
    simp only [hn]
    rfl

set_option maxRecDepth 1000000 in
/-- Witness for C19: address 16 in the state after `VMwrite(16, 17);
VMwrite(30, 31)` on the tiny configuration, where page 8 is in frame 4. -/
theorem C19_resident_access_witness :
    (∀ v, VMread tinyConfig twoPagesState 16 v
      = (1, twoPagesState.ram (4 * PAGE_SIZE tinyConfig + 16 % PAGE_SIZE tinyConfig),
          twoPagesState))
    ∧ (∀ v, VMwrite tinyConfig twoPagesState 16 v
      = (1, PMwrite twoPagesState (4 * PAGE_SIZE tinyConfig + 16 % PAGE_SIZE tinyConfig) v)) :=
  ⟨(C19_resident_access tinyConfig (by decide) twoPagesState 16 (by decide) 4
      (by decide) (by decide)).2.1,
   (C19_resident_access tinyConfig (by decide) twoPagesState 16 (by decide) 4
      (by decide) (by decide)).2.2.1⟩

/-- C20: contiguous high-water mark.  On a feasible configuration, in every
state reachable from `VMinitialize` the frames held by parent slots of the
tree are exactly `1, ..., k` for some `k < NUM_FRAMES`; after any further
`VMread` or `VMwrite` they are `1, ..., k1` with `k ≤ k1 < NUM_FRAMES`, and
every frame that was held by a parent slot still is. -/
theorem C20_high_water_mark (cfg : Config) (hF : Feasible cfg) (s : State)
    (hs : Reachable cfg s) :
    ∃ k, k < NUM_FRAMES cfg ∧ (∀ g, Linked cfg s g ↔ (1 ≤ g ∧ g ≤ k))
      ∧ (∀ A v, (∀ g, Linked cfg s g → Linked cfg (VMread cfg s A v).2.2 g)
          ∧ ∃ k1, k ≤ k1 ∧ k1 < NUM_FRAMES cfg
            ∧ ∀ g, Linked cfg (VMread cfg s A v).2.2 g ↔ (1 ≤ g ∧ g ≤ k1))
      ∧ (∀ A v, (∀ g, Linked cfg s g → Linked cfg (VMwrite cfg s A v).2 g)
          ∧ ∃ k1, k ≤ k1 ∧ k1 < NUM_FRAMES cfg
            ∧ ∀ g, Linked cfg (VMwrite cfg s A v).2 g ↔ (1 ≤ g ∧ g ≤ k1)) := by
  have hI := hs.treeInv_reachable hF
  obtain ⟨k, hk, hiff⟩ := hI.mark hF
  have hle : ∀ s1 : State, (∀ g, Linked cfg s g → Linked cfg s1 g) →
      ∀ k1, (∀ g, Linked cfg s1 g ↔ (1 ≤ g ∧ g ≤ k1)) → k ≤ k1 := by
    intro s1 hmono k1 hiff1
    rcases Nat.eq_zero_or_pos k with h0 | hpos
    · omega
    · exact ((hiff1 k).1 (hmono k ((hiff k).2 ⟨hpos, le_refl _⟩))).2
  refine ⟨k, hk, hiff, ?_, ?_⟩
  · intro A v
    have hmono : ∀ g, Linked cfg s g → Linked cfg (VMread cfg s A v).2.2 g :=
      fun g hg => VMread_linked_mono hF hI A v hg
    obtain ⟨k1, hk1, hiff1⟩ := (VMread_treeInv hF hI A v).mark hF
    exact ⟨hmono, k1, hle _ hmono k1 hiff1, hk1, hiff1⟩
  · intro A v
    have hmono : ∀ g, Linked cfg s g → Linked cfg (VMwrite cfg s A v).2 g :=
      fun g hg => VMwrite_linked_mono hF hI A v hg
    obtain ⟨k1, hk1, hiff1⟩ := (VMwrite_treeInv hF hI A v).mark hF
    exact ⟨hmono, k1, hle _ hmono k1 hiff1, hk1, hiff1⟩

/-- Witness for C20: the state after `VMwrite(16, 17); VMwrite(30, 31)` on
the tiny configuration. -/
theorem C20_high_water_mark_witness :
    ∃ k, k < NUM_FRAMES tinyConfig
      ∧ (∀ g, Linked tinyConfig twoPagesState g ↔ (1 ≤ g ∧ g ≤ k))
      ∧ (∀ A v, (∀ g, Linked tinyConfig twoPagesState g →
            Linked tinyConfig (VMread tinyConfig twoPagesState A v).2.2 g)
          ∧ ∃ k1, k ≤ k1 ∧ k1 < NUM_FRAMES tinyConfig
            ∧ ∀ g, Linked tinyConfig (VMread tinyConfig twoPagesState A v).2.2 g
                ↔ (1 ≤ g ∧ g ≤ k1))
      ∧ (∀ A v, (∀ g, Linked tinyConfig twoPagesState g →
            Linked tinyConfig (VMwrite tinyConfig twoPagesState A v).2 g)
          ∧ ∃ k1, k ≤ k1 ∧ k1 < NUM_FRAMES tinyConfig
            ∧ ∀ g, Linked tinyConfig (VMwrite tinyConfig twoPagesState A v).2 g
                ↔ (1 ≤ g ∧ g ≤ k1)) :=
  C20_high_water_mark tinyConfig feasible_tinyConfig twoPagesState reachable_twoPagesState

end VirtualMemory
